import Mathlib

/-!
DDS_Practice: client-side QoS bookkeeping.

A shallow embedding of the listener and publisher classes of the example programs
(`ReliabilitySubscriber.cpp`, `ReliabilityPublisher.cpp`, `HistorySubscriber.cpp`,
`SteeringSubscriber.cpp`, `ServiceDiscoverySubscriber.cpp`) together with theorems about them.

Conventions
* `std::map<K,V>` is a list of pairs in strictly ascending key order, `std::set<K>` a strictly
  ascending list; the operations below keep that order, and iteration order is list order.
* `uint32_t` values are naturals below `UINT32_MOD`; every `+ 1`, `- 1` and `++` on them is
  reduced modulo `UINT32_MOD`.
* A loop that the C++ text does not bound is run with a fuel argument and returns `none` when
  the fuel runs out; theorems about such loops state that enough fuel yields a result.
-/

namespace DDSPractice

/-- Number of values of a `uint32_t`. -/
def UINT32_MOD : Nat := 4294967296

/-! ## `std::map` and `std::set` -/

namespace StdMap

/-- The keys of the map, in iteration order. -/
def keys {K V : Type} (m : List (K × V)) : List K := m.map Prod.fst

/-- Lookup `m.find(k)`: the mapped value when `find` does not return `end()`. -/
def find? {K V : Type} [DecidableEq K] : List (K × V) → K → Option V
  | [], _ => none
  | (k', v) :: rest, k => if k' = k then some v else find? rest k

/-- Test `m.find(k) != m.end()`. -/
def contains {K V : Type} [DecidableEq K] (m : List (K × V)) (k : K) : Bool :=
  (find? m k).isSome

/-- Assignment `m[k] = v`: overwrites the value of an existing key, otherwise inserts the pair
at its place in key order. -/
def assign {K V : Type} [LinearOrder K] : List (K × V) → K → V → List (K × V)
  | [], k, v => [(k, v)]
  | (k', v') :: rest, k, v =>
    if k < k' then (k, v) :: (k', v') :: rest
    else if k = k' then (k, v) :: rest
    else (k', v') :: assign rest k v

end StdMap

namespace StdSet

/-- Insertion `s.insert(x)`: no effect when `x` is present, otherwise placed in order. -/
def insert {K : Type} [LinearOrder K] : List K → K → List K
  | [], x => [x]
  | y :: rest, x =>
    if x < y then x :: y :: rest
    else if x = y then y :: rest
    else y :: insert rest x

/-- Removal `s.erase(x)` by key. -/
def erase {K : Type} [LinearOrder K] : List K → K → List K
  | [], _ => []
  | y :: rest, x => if x = y then rest else y :: erase rest x

/-- Counting `s.count(x)`, which is 0 or 1 for a set. -/
def count {K : Type} [DecidableEq K] (s : List K) (x : K) : Nat :=
  if x ∈ s then 1 else 0

end StdSet

/-! ## Ex3 reliability: `ReliabilityListener` (ReliabilitySubscriber.cpp) -/

/-- The data members of `ReliabilityListener` that `on_data_available` reads and writes. -/
structure ReliabilityListener where
  received_sequences_ : List (Nat × Bool)
  missing_sequences_ : List Nat
  last_continuous_seq_ : Nat
  deriving DecidableEq, Repr

namespace ReliabilityListener

/-- Constructor: empty containers, `last_continuous_seq_(0)`. -/
def new : ReliabilityListener :=
  { received_sequences_ := [], missing_sequences_ := [], last_continuous_seq_ := 0 }

/-- The loop `while (received_sequences_.find(last_continuous_seq_ + 1) != end)
last_continuous_seq_++;` (lines 49-51). -/
def advanceContinuous (recv : List (Nat × Bool)) : Nat → Nat → Option Nat
  | 0, _ => none
  | fuel + 1, last_continuous =>
    if StdMap.contains recv ((last_continuous + 1) % UINT32_MOD) then
      advanceContinuous recv fuel ((last_continuous + 1) % UINT32_MOD)
    else some last_continuous

/-- The loop `for (uint32_t i = first_seq; i <= last_seq; i++)` (lines 58-62), started at `i`
with the set `missing` built so far. -/
def findMissing (recv : List (Nat × Bool)) (last_seq : Nat) :
    Nat → Nat → List Nat → Option (List Nat)
  | 0, _, _ => none
  | fuel + 1, i, missing =>
    if i ≤ last_seq then
      findMissing recv last_seq fuel ((i + 1) % UINT32_MOD)
        (if StdMap.contains recv i then missing else StdSet.insert missing i)
    else some missing

/-- The smallest received key, `received_sequences_.begin()->first`. -/
def firstSeen (l : ReliabilityListener) : Option Nat :=
  l.received_sequences_.head?.map Prod.fst

/-- The largest received key, `received_sequences_.rbegin()->first`. -/
def lastSeen (l : ReliabilityListener) : Option Nat :=
  l.received_sequences_.getLast?.map Prod.fst

/-- The body of `on_data_available` for one valid sample with the given `sequence_number()`
and `is_critical()` (lines 39-63). -/
def on_data_available (fuel : Nat) (l : ReliabilityListener) (seq : Nat) (is_critical : Bool) :
    Option ReliabilityListener :=
  let recv := StdMap.assign l.received_sequences_ seq is_critical
  let start :=
    if recv.length = 1 then (seq + UINT32_MOD - 1) % UINT32_MOD else l.last_continuous_seq_
  match advanceContinuous recv fuel start with
  | none => none
  | some last_continuous =>
    match recv.head?, recv.getLast? with
    | some first, some last =>
      match findMissing recv last.1 fuel first.1 [] with
      | none => none
      | some missing =>
        some { received_sequences_ := recv, missing_sequences_ := missing,
               last_continuous_seq_ := last_continuous }
    | _, _ =>
      some { received_sequences_ := recv, missing_sequences_ := [],
             last_continuous_seq_ := last_continuous }

/-- The listener after the samples `xs` have been delivered one after another. -/
def observeAll (fuel : Nat) : ReliabilityListener → List (Nat × Bool) → Option ReliabilityListener
  | l, [] => some l
  | l, (seq, crit) :: rest =>
    match on_data_available fuel l seq crit with
    | none => none
    | some l' => observeAll fuel l' rest

/-- What holds of a listener after any completed `on_data_available`: the keys are in strictly
ascending order and below `2^32 - 1`, the successor of `last_continuous_seq_` has not been
received, a single received key is `last_continuous_seq_` itself, and `missing_sequences_` is an
ascending list of exactly the numbers between the first and last key that are not keys. -/
def Consistent (l : ReliabilityListener) : Prop :=
  (StdMap.keys l.received_sequences_).Sorted (· < ·) ∧
  (∀ k ∈ StdMap.keys l.received_sequences_, k < UINT32_MOD - 1) ∧
  l.last_continuous_seq_ < UINT32_MOD ∧
  StdMap.contains l.received_sequences_ ((l.last_continuous_seq_ + 1) % UINT32_MOD) = false ∧
  (l.received_sequences_.length = 1 →
    ∀ k ∈ StdMap.keys l.received_sequences_, l.last_continuous_seq_ = k) ∧
  l.missing_sequences_.Sorted (· < ·) ∧
  ∃ first last, l.firstSeen = some first ∧ l.lastSeen = some last ∧
    first ∈ StdMap.keys l.received_sequences_ ∧ last ∈ StdMap.keys l.received_sequences_ ∧
    (∀ k ∈ StdMap.keys l.received_sequences_, first ≤ k ∧ k ≤ last) ∧
    ∀ i, i ∈ l.missing_sequences_ ↔
      first ≤ i ∧ i ≤ last ∧ i ∉ StdMap.keys l.received_sequences_

/-- The members hold values of their C++ types: a `std::map` with `uint32_t` keys in ascending
order and a `uint32_t` counter. -/
def WellTyped (l : ReliabilityListener) : Prop :=
  (StdMap.keys l.received_sequences_).Sorted (· < ·) ∧
  (∀ k ∈ StdMap.keys l.received_sequences_, k < UINT32_MOD) ∧
  l.last_continuous_seq_ < UINT32_MOD

/-- The value `last_continuous_seq_` has when the loop of lines 49-51 is entered. -/
def continuousStart (l : ReliabilityListener) (seq : Nat) (is_critical : Bool) : Nat :=
  if (StdMap.assign l.received_sequences_ seq is_critical).length = 1
  then (seq + UINT32_MOD - 1) % UINT32_MOD else l.last_continuous_seq_

end ReliabilityListener

/-! ## Ex3 reliability: `ReliabilityPublisher` (ReliabilityPublisher.cpp) -/

/-- The sample type `TestData` generated from the IDL, with the four fields `publish` sets. -/
structure TestData where
  timestamp : Int
  sequence_number : Nat
  is_critical : Bool
  message : String
  deriving DecidableEq, Repr

/-- A transport `DataWriter` as the publisher sees it: the samples handed to `write`, in call
order. -/
structure DataWriter where
  written : List TestData
  deriving DecidableEq, Repr

/-- The call `writer->write(&d)`: the sample is handed to the transport, which answers whether
it took it (`write_ok d`). -/
def DataWriter.write (write_ok : TestData → Bool) (w : DataWriter) (d : TestData) :
    DataWriter × Bool :=
  ({ written := w.written ++ [d] }, write_ok d)

/-- The data members of `ReliabilityPublisher` that `publish` reads and writes. -/
structure ReliabilityPublisher where
  reliable_writer_ : DataWriter
  best_effort_writer_ : DataWriter
  data_ : TestData
  sequence_number_ : Nat
  paused_reliable_messages : List TestData
  deriving DecidableEq, Repr

namespace ReliabilityPublisher

/-- Constructor followed by a successful `init()`: two fresh writers, `sequence_number_(0)`,
an empty queue and a default-constructed `data_`. -/
def new : ReliabilityPublisher :=
  { reliable_writer_ := { written := [] }, best_effort_writer_ := { written := [] },
    data_ := { timestamp := 0, sequence_number := 0, is_critical := false, message := "" },
    sequence_number_ := 0, paused_reliable_messages := [] }

/-- The loop `while (!paused_reliable_messages.empty()) { reliable_writer_->write(&front);
pop(); }` (lines 154-159); the result of `write` is discarded. Returns the writer and what is
left of the queue. -/
def flushPaused (write_ok : TestData → Bool) : DataWriter → List TestData →
    DataWriter × List TestData
  | w, [] => (w, [])
  | w, front :: rest => flushPaused write_ok (w.write write_ok front).1 rest

/-- The block `if (!g_is_paused) { ... } else { ... }` of `publish` (lines 152-174), acting on
the sample held in `data_`. The results of the `write` calls are discarded. -/
def sendOrQueue (write_ok : TestData → Bool) (g_is_paused : Bool) (p : ReliabilityPublisher) :
    ReliabilityPublisher :=
  if !g_is_paused then
    let flushed := flushPaused write_ok p.reliable_writer_ p.paused_reliable_messages
    { p with
      reliable_writer_ := (flushed.1.write write_ok p.data_).1
      best_effort_writer_ := (p.best_effort_writer_.write write_ok p.data_).1
      paused_reliable_messages := flushed.2 }
  else if p.data_.is_critical then
    { p with paused_reliable_messages := p.paused_reliable_messages ++ [p.data_] }
  else p

/-- The sample `publish` builds in `data_` (lines 141-150) at clock reading `now`. -/
def nextSample (now : Int) (p : ReliabilityPublisher) : TestData :=
  { timestamp := now
    sequence_number := p.sequence_number_
    is_critical := p.sequence_number_ % 5 == 0
    message := "Message #" ++ toString p.sequence_number_ ++
      (if p.sequence_number_ % 5 == 0 then " (CRITICAL)" else "") }

/-- The function `publish()` (lines 138-179): `g_is_paused` is the value of the global flag read
at line 152 and `now` the clock reading of line 141. -/
def publish (write_ok : TestData → Bool) (g_is_paused : Bool) (now : Int)
    (p : ReliabilityPublisher) : ReliabilityPublisher × Bool :=
  let p1 := { p with data_ := nextSample now p }
  let p2 := sendOrQueue write_ok g_is_paused p1
  ({ p2 with sequence_number_ := (p2.sequence_number_ + 1) % UINT32_MOD }, true)

/-- The spec's `offer(sample)`: the send-or-queue block of `publish` run on a sample chosen by
the caller instead of the one `publish` generates. -/
def offer (write_ok : TestData → Bool) (g_is_paused : Bool) (d : TestData)
    (p : ReliabilityPublisher) : ReliabilityPublisher :=
  sendOrQueue write_ok g_is_paused { p with data_ := d }

end ReliabilityPublisher

/-- A sample with sequence number `n` and the given `is_critical` flag, for concrete runs. -/
def testSample (n : Nat) (critical : Bool) : TestData :=
  { timestamp := 0, sequence_number := n, is_critical := critical, message := "" }

/-- The publisher process: the global `g_is_paused` and the publisher object. -/
structure PublisherProcess where
  g_is_paused : Bool
  publisher : ReliabilityPublisher
  deriving DecidableEq, Repr

/-- What can happen in the publisher process: the keyboard thread reads a `p` (line 45), the
main loop calls `publish()` at clock reading `now`, or (for the spec's scenarios) the
send-or-queue block is offered a sample chosen by the caller. -/
inductive PublisherEvent where
  | key_p
  | publish (now : Int)
  | offer (d : TestData)
  deriving DecidableEq, Repr

namespace PublisherProcess

/-- Process start: `g_is_paused{false}` and a freshly initialised publisher. -/
def start : PublisherProcess :=
  { g_is_paused := false, publisher := ReliabilityPublisher.new }

/-- One event of the process. -/
def step (write_ok : TestData → Bool) (s : PublisherProcess) : PublisherEvent → PublisherProcess
  | .key_p => { s with g_is_paused := !s.g_is_paused }
  | .publish now => { s with publisher := (s.publisher.publish write_ok s.g_is_paused now).1 }
  | .offer d => { s with publisher := s.publisher.offer write_ok s.g_is_paused d }

/-- A sequence of events, in order. -/
def run (write_ok : TestData → Bool) (s : PublisherProcess) (es : List PublisherEvent) :
    PublisherProcess :=
  es.foldl (step write_ok) s

/-- The sample an event offers in state `s`, if it is a `publish` or an `offer`. -/
def offered (s : PublisherProcess) : PublisherEvent → Option TestData
  | .key_p => none
  | .publish now => some (s.publisher.nextSample now)
  | .offer d => some d

/-- The samples offered by a sequence of events started in `s`, in order. -/
def offeredAll (write_ok : TestData → Bool) : PublisherProcess → List PublisherEvent →
    List TestData
  | _, [] => []
  | s, e :: es => (offered s e).toList ++ offeredAll write_ok (step write_ok s e) es

/-- Whether the event offers a caller-chosen sample. -/
def isOffer : PublisherEvent → Bool
  | .offer _ => true
  | _ => false

/-- The number of `publish()` calls among the events. -/
def publishCalls : List PublisherEvent → Nat
  | [] => 0
  | .publish _ :: es => publishCalls es + 1
  | _ :: es => publishCalls es

/-- Every sample the publisher has handed to a writer or holds in its queue. -/
def held (s : PublisherProcess) : List TestData :=
  s.publisher.reliable_writer_.written ++ s.publisher.best_effort_writer_.written ++
    s.publisher.paused_reliable_messages

/-- The samples offered, by a sequence of events started in `s`, at a moment when
`g_is_paused` was clear, in order. -/
def offeredWhileClear (write_ok : TestData → Bool) : PublisherProcess → List PublisherEvent →
    List TestData
  | _, [] => []
  | s, e :: es =>
    (if s.g_is_paused then [] else (offered s e).toList) ++
      offeredWhileClear write_ok (step write_ok s e) es

end PublisherProcess

/-! ## Ex4 history: `HistoryListener` (HistorySubscriber.cpp) -/

/-- The sample type `SensorData` generated from the IDL; `R` is the floating-point type of the
three readings, which the listener only stores and prints. -/
structure SensorData (R : Type) where
  timestamp : Int
  sequence_number : Nat
  temperature : R
  humidity : R
  pressure : R
  deriving DecidableEq, Repr

/-- A sample with sequence number `i` and readings 0, for concrete runs. -/
def sampleNo (i : Nat) : SensorData Nat :=
  { timestamp := 0, sequence_number := i, temperature := 0, humidity := 0, pressure := 0 }

/-- The data members of `HistoryListener` that `on_data_available` reads and writes. -/
structure HistoryListener (R : Type) where
  history_ : List (SensorData R)
  total_samples_ : Nat
  display_limit_ : Nat
  deriving DecidableEq, Repr

namespace HistoryListener

/-- Constructor: empty `history_`, `total_samples_(0)`, `display_limit_(5)`. -/
def new (R : Type) : HistoryListener R :=
  { history_ := [], total_samples_ := 0, display_limit_ := 5 }

/-- The setter `setDisplayLimit(limit)` (lines 37-39). -/
def setDisplayLimit {R : Type} (l : HistoryListener R) (limit : Nat) : HistoryListener R :=
  { l with display_limit_ := limit }

/-- The index `start_idx` of lines 69-70. -/
def start_idx {R : Type} (l : HistoryListener R) : Nat :=
  if l.history_.length > l.display_limit_ then l.history_.length - l.display_limit_ else 0

/-- The loop `for (size_t i = start_idx; i < history_.size(); ++i)` (lines 72-85): the rows
printed from index `i` on. The first argument bounds the number of iterations; the loop makes
at most `history_.size()` of them. -/
def displayRows {R : Type} (history : List (SensorData R)) : Nat → Nat → List (SensorData R)
  | 0, _ => []
  | n + 1, i =>
    match history[i]? with
    | some sample => sample :: displayRows history n (i + 1)
    | none => []

/-- The body of `on_data_available` for one valid sample (lines 47-86): the listener afterwards
and the table rows on the freshly cleared screen. -/
def on_data_available {R : Type} (l : HistoryListener R) (data : SensorData R) :
    HistoryListener R × List (SensorData R) :=
  let l1 := { l with history_ := l.history_ ++ [data],
                     total_samples_ := (l.total_samples_ + 1) % UINT32_MOD }
  (l1, displayRows l1.history_ l1.history_.length l1.start_idx)

/-- The valid samples `xs` delivered one after another, starting with `screen` on the terminal:
the listener afterwards and the rows on the screen. -/
def deliverAll {R : Type} : HistoryListener R × List (SensorData R) → List (SensorData R) →
    HistoryListener R × List (SensorData R)
  | s, [] => s
  | s, data :: rest => deliverAll (on_data_available s.1 data) rest

/-- The listener as `setupKeepLastReader` leaves it (line 112): `setDisplayLimit(5)`. -/
def setupKeepLastReader {R : Type} (l : HistoryListener R) : HistoryListener R :=
  l.setDisplayLimit 5

/-- The listener as `setupKeepAllReader` leaves it (line 128): `setDisplayLimit(30)`. -/
def setupKeepAllReader {R : Type} (l : HistoryListener R) : HistoryListener R :=
  l.setDisplayLimit 30

end HistoryListener

/-! ## Ex6 ownership: `SteeringListener` and `SteeringSubscriber` (SteeringSubscriber.cpp) -/

/-- The sample type `SteeringCommand` generated from the IDL; `R` is the floating-point type of
angle and speed, which the listener only prints. -/
structure SteeringCommand (R : Type) where
  controller_name : String
  timestamp : Int
  steering_angle : R
  vehicle_speed : R
  control_reason : String
  emergency_control : Bool
  deriving DecidableEq, Repr

/-- What `on_data_available` prints for a sample it processes (lines 77-96). -/
structure SteeringScreen (R : Type) where
  active_controllers : List (String × Nat)
  command : SteeringCommand R
  controller_strength : Nat
  total_received : Int
  deriving DecidableEq, Repr

/-- The data member of `SteeringListener` that `on_data_available` writes: the counter
`int received_count_`, a value between `-2147483648` and `INT_MAX`. The set `active_strengths_`
is a reference to the subscriber's set and is passed in. -/
structure SteeringListener where
  received_count_ : Int
  deriving DecidableEq, Repr

/-- The largest value of an `int`. -/
def INT_MAX : Int := 2147483647

namespace SteeringListener

/-- The value of an `int` after `++` (line 71): one more, except at `INT_MAX`, where the
addition overflows. C++ leaves that case undefined; the model takes the two's-complement
result `-2147483648` that compilers for the usual targets produce. -/
def incremented (count : Int) : Int :=
  if count = INT_MAX then -2147483648 else count + 1

/-- The function `getStrengthFromName` (lines 104-109). -/
def getStrengthFromName (controller_name : String) : Nat :=
  if controller_name = "Manual Steering" then 10
  else if controller_name = "ADAS Controller" then 20
  else if controller_name = "Emergency Controller" then 30
  else 0

/-- The function `getControllerName` (lines 111-118). -/
def getControllerName (strength : Nat) : String :=
  if strength = 10 then "Manual Control"
  else if strength = 20 then "ADAS Control"
  else if strength = 30 then "Emergency Control"
  else "Unknown"

/-- The flag `is_highest_active` after the loop of lines 60-67. -/
def is_highest_active (active_strengths_ : List Nat) (controller_strength : Nat) : Bool :=
  active_strengths_.foldl
    (fun flag strength => if strength > controller_strength then true else flag) true

/-- The body of `on_data_available` for one valid sample (lines 49-99): the listener afterwards
and the screen it prints, if it prints one. -/
def on_data_available {R : Type} (active_strengths_ : List Nat) (l : SteeringListener)
    (command : SteeringCommand R) : SteeringListener × Option (SteeringScreen R) :=
  if active_strengths_.isEmpty then (l, none)
  else
    let controller_strength := getStrengthFromName command.controller_name
    if StdSet.count active_strengths_ controller_strength > 0 then
      if is_highest_active active_strengths_ controller_strength then
        let l1 := { l with received_count_ := incremented l.received_count_ }
        (l1, some { active_controllers :=
                      active_strengths_.map (fun strength => (getControllerName strength, strength))
                    command := command
                    controller_strength := controller_strength
                    total_received := l1.received_count_ })
      else (l, none)
    else (l, none)

end SteeringListener

/-- A command published under `name` with all other fields zero, for concrete runs. -/
def commandFrom (name : String) : SteeringCommand Nat :=
  { controller_name := name, timestamp := 0, steering_angle := 0, vehicle_speed := 0,
    control_reason := "", emergency_control := false }

/-- The record `ControllerInfo` (lines 132-139). -/
structure ControllerInfo where
  type : String
  active : Bool
  strength : Nat
  deriving DecidableEq, Repr

/-- The data members of `SteeringSubscriber` that `toggleController` reads and writes. -/
structure SteeringSubscriber where
  active_strengths_ : List Nat
  controllers_ : List (Int × ControllerInfo)
  deriving DecidableEq, Repr

namespace SteeringSubscriber

/-- The constructor `ControllerInfo(t = "", s = 0)`: `active(false)`. -/
def mkInfo (t : String) (s : Nat) : ControllerInfo :=
  { type := t, active := false, strength := s }

/-- The constructor (lines 158-170): three inactive controllers, no active strength. -/
def new : SteeringSubscriber :=
  { active_strengths_ := []
    controllers_ :=
      StdMap.assign
        (StdMap.assign
          (StdMap.assign [] 1 (mkInfo "Manual Control" 10))
          2 (mkInfo "ADAS Control" 20))
        3 (mkInfo "Emergency Control" 30) }

/-- The element access `controllers_[id]`: the record of `id`, default-constructed when `id` has
none. -/
def controllerAt (s : SteeringSubscriber) (id : Int) : ControllerInfo :=
  (StdMap.find? s.controllers_ id).getD (mkInfo "" 0)

/-- The part of a successful `init()` that touches the two members (lines 209-210). -/
def init (s : SteeringSubscriber) : SteeringSubscriber :=
  { active_strengths_ := StdSet.insert s.active_strengths_ (s.controllerAt 1).strength
    controllers_ := StdMap.assign s.controllers_ 1 { s.controllerAt 1 with active := true } }

/-- The function `toggleController(id)` (lines 142-155). -/
def toggleController (s : SteeringSubscriber) (id : Int) : SteeringSubscriber :=
  let info := { s.controllerAt id with active := !(s.controllerAt id).active }
  let controllers := StdMap.assign s.controllers_ id info
  if info.active then
    { active_strengths_ := StdSet.insert s.active_strengths_ info.strength
      controllers_ := controllers }
  else
    { active_strengths_ := StdSet.erase s.active_strengths_ info.strength
      controllers_ := controllers }

/-- A sequence of `toggleController` calls, in order. -/
def toggleAll (s : SteeringSubscriber) (ids : List Int) : SteeringSubscriber :=
  ids.foldl toggleController s

/-- The subscriber whose three configured controllers have the given `active` flags and whose
`active_strengths_` holds the strengths of the active ones. -/
def withFlags (manual adas emergency : Bool) : SteeringSubscriber :=
  { active_strengths_ :=
      (if manual then [10] else []) ++ (if adas then [20] else []) ++
        (if emergency then [30] else [])
    controllers_ :=
      [(1, { type := "Manual Control", active := manual, strength := 10 }),
       (2, { type := "ADAS Control", active := adas, strength := 20 }),
       (3, { type := "Emergency Control", active := emergency, strength := 30 })] }

end SteeringSubscriber

/-! ## Ex6 service discovery: `ServiceDiscoverySubscriber` (ServiceDiscoverySubscriber.cpp) -/

/-- The sample type `ServiceInfo` generated from the IDL. -/
structure ServiceInfo where
  service_name : String
  service_type : String
  endpoint : String
  port : Nat
  status : String
  is_healthy : Bool
  capabilities : List String
  timestamp : Int
  deriving DecidableEq, Repr

/-- A record of service `name` stamped `timestamp`, for concrete runs. -/
def serviceAt (name : String) (timestamp : Int) : ServiceInfo :=
  { service_name := name, service_type := "", endpoint := "", port := 0, status := "ACTIVE",
    is_healthy := true, capabilities := [], timestamp := timestamp }

/-- The C++ type of `ServiceInfo::timestamp()`. Its declaration (ServiceDiscovery.h) is not among
the sources: an IDL `long long` field is an `int64_t`, an `unsigned long long` field a
`uint64_t`. -/
inductive TimestampType where
  | int64
  | uint64
  deriving DecidableEq, Repr

namespace ServiceListener

/-- The body of `on_data_available` for one valid sample (lines 38-44), acting on the
subscriber's map that `services_` refers to: `services_[info.service_name()] = info`. The call
of `updateDisplay` only prints. -/
def on_data_available (services_ : List (String × ServiceInfo)) (info : ServiceInfo) :
    List (String × ServiceInfo) :=
  StdMap.assign services_ info.service_name info

end ServiceListener

namespace ServiceDiscoverySubscriber

/-- The literal `10000000000` of line 196: ten seconds in nanoseconds. -/
def LEASE_NS : Int := 10000000000

/-- The value of `now_ns - it->second.timestamp()` (line 196): `now_ns` is a `long long`; with a
`uint64_t` timestamp the subtraction is carried out modulo `2^64`. -/
def elapsed (ty : TimestampType) (now_ns timestamp : Int) : Int :=
  match ty with
  | .int64 => now_ns - timestamp
  | .uint64 => (now_ns - timestamp) % 18446744073709551616

/-- The loop of command `c` (lines 195-202) over `discovered_services_` at clock reading
`now_ns`: the map afterwards and the keys announced as removed, in order. -/
def clearInactive (ty : TimestampType) (now_ns : Int) :
    List (String × ServiceInfo) → List (String × ServiceInfo) × List String
  | [] => ([], [])
  | (key, info) :: rest =>
    let r := clearInactive ty now_ns rest
    if elapsed ty now_ns info.timestamp > LEASE_NS then (r.1, key :: r.2)
    else ((key, info) :: r.1, r.2)

end ServiceDiscoverySubscriber

/-! ## Ex5 ownership: `SteeringPublisher` (SteeringPublisher.cpp) -/

/-- The enumeration `ControllerType` (lines 21-25). -/
inductive ControllerType where
  | MANUAL
  | ADAS
  | EMERGENCY
  deriving DecidableEq, Repr

/-- The data members of `SteeringPublisher` that the constructor's `switch` sets;
`controller_name` is `command_.controller_name()`. -/
structure SteeringPublisher where
  controller_type_ : ControllerType
  ownership_strength_ : Nat
  controller_name : String
  deriving DecidableEq, Repr

/-- The constructor `SteeringPublisher(ControllerType type)` (lines 44-71). -/
def SteeringPublisher.new (type : ControllerType) : SteeringPublisher :=
  match type with
  | .MANUAL =>
    { controller_type_ := type, ownership_strength_ := 10, controller_name := "Manual Steering" }
  | .ADAS =>
    { controller_type_ := type, ownership_strength_ := 20, controller_name := "ADAS Controller" }
  | .EMERGENCY =>
    { controller_type_ := type, ownership_strength_ := 30,
      controller_name := "Emergency Controller" }

/-! ## Ex1 domain: `main` of DomainTestPublisher.cpp and DomainTestSubscriber.cpp -/

/-- How `main` ends its argument handling: it returns `status` before constructing anything, or
it constructs the publisher (subscriber) with `domain_id` and goes on to `init()` and `run()`. -/
inductive MainOutcome where
  | returned (status : Nat)
  | started (domain_id : Int)
  deriving DecidableEq, Repr

/-- The value of `argv[1][0]` as an `int`: the code of the first character of the argument, and
0, the terminating NUL, for the empty argument. For a first character outside ASCII the byte
that C++ reads differs from the code point, but both lie outside `'0'..'9'` whether `char` is
signed or not. -/
def firstCharCode (arg : String) : Int :=
  match arg.data with
  | [] => 0
  | c :: _ => c.toNat

/-- The function `main` of DomainTestPublisher.cpp (lines 81-100); `argv` holds the program name
followed by the arguments, so `argc` is `argv.length`, and `'0'` is 48. -/
def DomainTestPublisher.main (argv : List String) : MainOutcome :=
  if argv.length ≠ 2 then .returned 1
  else
    let domain_id : Int := firstCharCode (argv.getD 1 "") - 48
    if domain_id < 0 ∨ domain_id > 9 then .returned 1
    else .started domain_id

/-- The function `main` of DomainTestSubscriber.cpp (lines 87-106), which parses its argument
the same way. -/
def DomainTestSubscriber.main (argv : List String) : MainOutcome :=
  if argv.length ≠ 2 then .returned 1
  else
    let domain_id : Int := firstCharCode (argv.getD 1 "") - 48
    if domain_id < 0 ∨ domain_id > 9 then .returned 1
    else .started domain_id

/-! ## Facts about the containers -/

namespace StdMap

theorem mem_keys_assign {K V : Type} [LinearOrder K] (m : List (K × V)) (k : K) (v : V)
    (k' : K) : k' ∈ keys (assign m k v) ↔ k' = k ∨ k' ∈ keys m := by
  induction m with
  | nil => simp [assign, keys]
  | cons kv rest ih =>
    obtain ⟨k0, v0⟩ := kv
    simp only [assign]
    split_ifs with h1 h2
    · simp [keys]
    · subst h2; simp [keys]
    · simp only [keys, List.map_cons, List.mem_cons] at ih ⊢
      rw [ih]; tauto

theorem sorted_keys_assign {K V : Type} [LinearOrder K] (m : List (K × V)) (k : K) (v : V)
    (hs : (keys m).Sorted (· < ·)) : (keys (assign m k v)).Sorted (· < ·) := by
  induction m with
  | nil => simp [assign, keys]
  | cons kv rest ih =>
    obtain ⟨k0, v0⟩ := kv
    have hs' : (∀ b ∈ keys rest, k0 < b) ∧ (keys rest).Sorted (· < ·) := by
      simpa [keys, List.sorted_cons] using hs
    simp only [assign]
    split_ifs with h1 h2
    · have : keys ((k, v) :: (k0, v0) :: rest) = k :: keys ((k0, v0) :: rest) := rfl
      rw [this, List.sorted_cons]
      refine ⟨?_, hs⟩
      intro b hb
      have hb' : b = k0 ∨ b ∈ keys rest := by simpa [keys] using hb
      rcases hb' with rfl | hb'
      · exact h1
      · exact lt_trans h1 (hs'.1 b hb')
    · subst h2
      simpa [keys, List.sorted_cons] using hs
    · have : keys ((k0, v0) :: assign rest k v) = k0 :: keys (assign rest k v) := rfl
      rw [this, List.sorted_cons]
      refine ⟨?_, ih hs'.2⟩
      intro b hb
      rcases (mem_keys_assign rest k v b).1 hb with rfl | hb'
      · exact lt_of_le_of_ne (not_lt.1 h1) (Ne.symm h2)
      · exact hs'.1 b hb'

theorem contains_eq_true_iff {K V : Type} [DecidableEq K] (m : List (K × V)) (k : K) :
    contains m k = true ↔ k ∈ keys m := by
  induction m with
  | nil => simp [contains, find?, keys]
  | cons kv rest ih =>
    obtain ⟨k0, v0⟩ := kv
    simp only [contains, find?] at ih ⊢
    split_ifs with h
    · subst h; simp [keys]
    · rw [ih]
      simp only [keys, List.map_cons, List.mem_cons]
      constructor
      · exact Or.inr
      · rintro (h' | h')
        · exact absurd h'.symm h
        · exact h'

theorem contains_eq_false_iff {K V : Type} [DecidableEq K] (m : List (K × V)) (k : K) :
    contains m k = false ↔ k ∉ keys m := by
  rw [← contains_eq_true_iff]; simp

theorem contains_congr {K V W : Type} [DecidableEq K] (m : List (K × V)) (m' : List (K × W))
    (h : keys m = keys m') (k : K) : contains m k = contains m' k := by
  rcases hb : contains m' k with _ | _
  · rw [contains_eq_false_iff] at hb ⊢; rwa [h]
  · rw [contains_eq_true_iff] at hb ⊢; rwa [h]

theorem keys_assign_of_mem {K V : Type} [LinearOrder K] (m : List (K × V)) (k : K) (v : V)
    (hs : (keys m).Sorted (· < ·)) (hk : k ∈ keys m) : keys (assign m k v) = keys m := by
  induction m with
  | nil => simp [keys] at hk
  | cons kv rest ih =>
    obtain ⟨k0, v0⟩ := kv
    have hs' : (∀ b ∈ keys rest, k0 < b) ∧ (keys rest).Sorted (· < ·) := by
      simpa [keys, List.sorted_cons] using hs
    have hk' : k = k0 ∨ k ∈ keys rest := by simpa [keys] using hk
    simp only [assign]
    split_ifs with h1 h2
    · rcases hk' with rfl | hk'
      · exact absurd h1 (lt_irrefl _)
      · exact absurd (lt_trans h1 (hs'.1 k hk')) (lt_irrefl _)
    · subst h2; rfl
    · rcases hk' with rfl | hk'
      · exact absurd rfl h2
      · have := ih hs'.2 hk'
        simp only [keys, List.map_cons] at this ⊢
        rw [this]

end StdMap

namespace StdSet

theorem mem_insert {K : Type} [LinearOrder K] (s : List K) (x y : K) :
    y ∈ insert s x ↔ y = x ∨ y ∈ s := by
  induction s with
  | nil => simp [insert]
  | cons z rest ih =>
    simp only [insert]
    split_ifs with h1 h2
    · simp
    · subst h2; simp
    · simp only [List.mem_cons, ih]; tauto

theorem sorted_insert {K : Type} [LinearOrder K] (s : List K) (x : K)
    (hs : s.Sorted (· < ·)) : (insert s x).Sorted (· < ·) := by
  induction s with
  | nil => simp [insert]
  | cons z rest ih =>
    have hs' : (∀ b ∈ rest, z < b) ∧ rest.Sorted (· < ·) := List.sorted_cons.1 hs
    simp only [insert]
    split_ifs with h1 h2
    · rw [List.sorted_cons]
      refine ⟨?_, hs⟩
      intro b hb
      rcases List.mem_cons.1 hb with rfl | hb'
      · exact h1
      · exact lt_trans h1 (hs'.1 b hb')
    · exact hs
    · rw [List.sorted_cons]
      refine ⟨?_, ih hs'.2⟩
      intro b hb
      rcases (mem_insert rest x b).1 hb with rfl | hb'
      · exact lt_of_le_of_ne (not_lt.1 h1) (Ne.symm h2)
      · exact hs'.1 b hb'

end StdSet

/-- Two strictly ascending lists with the same elements are the same list. -/
theorem sorted_lt_ext {l₁ l₂ : List Nat} (h₁ : l₁.Sorted (· < ·)) (h₂ : l₂.Sorted (· < ·))
    (h : ∀ x, x ∈ l₁ ↔ x ∈ l₂) : l₁ = l₂ :=
  List.eq_of_perm_of_sorted ((List.perm_ext_iff_of_nodup h₁.nodup h₂.nodup).2 h) h₁ h₂

/-- In a strictly ascending list the head is the least element. -/
theorem head_le_of_sorted {l : List Nat} {a : Nat} (hs : l.Sorted (· < ·))
    (hh : l.head? = some a) : a ∈ l ∧ ∀ x ∈ l, a ≤ x := by
  cases l with
  | nil => simp at hh
  | cons b rest =>
    simp only [List.head?_cons, Option.some.injEq] at hh
    subst hh
    refine ⟨List.mem_cons_self _ _, ?_⟩
    intro x hx
    rcases List.mem_cons.1 hx with rfl | hx'
    · exact le_rfl
    · exact le_of_lt ((List.sorted_cons.1 hs).1 x hx')

/-- In a strictly ascending list the last element is the greatest. -/
theorem le_getLast_of_sorted {l : List Nat} {a : Nat} (hs : l.Sorted (· < ·))
    (hl : l.getLast? = some a) : a ∈ l ∧ ∀ x ∈ l, x ≤ a := by
  induction l with
  | nil => simp at hl
  | cons b rest ih =>
    cases rest with
    | nil =>
      simp only [List.getLast?_singleton, Option.some.injEq] at hl
      subst hl
      simp
    | cons c rest' =>
      rw [List.getLast?_cons_cons] at hl
      have hs' := List.sorted_cons.1 hs
      obtain ⟨hmem, hle⟩ := ih hs'.2 hl
      refine ⟨List.mem_cons_of_mem _ hmem, ?_⟩
      intro x hx
      rcases List.mem_cons.1 hx with rfl | hx'
      · exact le_of_lt (hs'.1 a hmem)
      · exact hle x hx'

/-! ## The two loops of `ReliabilityListener::on_data_available` -/

namespace ReliabilityListener

theorem advanceContinuous_spec (recv : List (Nat × Bool)) :
    ∀ (fuel lc r : Nat), lc < UINT32_MOD → advanceContinuous recv fuel lc = some r →
      r < UINT32_MOD ∧ StdMap.contains recv ((r + 1) % UINT32_MOD) = false := by
  intro fuel
  induction fuel with
  | zero => intro lc r _ h; simp [advanceContinuous] at h
  | succ f ih =>
    intro lc r hlc h
    simp only [advanceContinuous] at h
    split_ifs at h with hc
    · exact ih _ r (Nat.mod_lt _ (by unfold UINT32_MOD; omega)) h
    · simp only [Option.some.injEq] at h
      subst h
      exact ⟨hlc, by simpa using hc⟩

theorem advanceContinuous_total (recv : List (Nat × Bool)) (B : Nat)
    (hB : ∀ k ∈ StdMap.keys recv, k < B) (hB2 : B < UINT32_MOD) :
    ∀ (n lc fuel : Nat), B - (lc + 1) % UINT32_MOD ≤ n → n + 1 ≤ fuel →
      ∃ r, advanceContinuous recv fuel lc = some r := by
  intro n
  induction n with
  | zero =>
    intro lc fuel hn hf
    obtain ⟨f, rfl⟩ : ∃ f, fuel = f + 1 := ⟨fuel - 1, by omega⟩
    simp only [advanceContinuous]
    have hc : StdMap.contains recv ((lc + 1) % UINT32_MOD) = false := by
      rw [StdMap.contains_eq_false_iff]
      intro hmem
      have := hB _ hmem
      omega
    simp [hc]
  | succ n ih =>
    intro lc fuel hn hf
    obtain ⟨f, rfl⟩ : ∃ f, fuel = f + 1 := ⟨fuel - 1, by omega⟩
    simp only [advanceContinuous]
    split_ifs with hc
    · have hmem := (StdMap.contains_eq_true_iff _ _).1 hc
      have hlt := hB _ hmem
      apply ih
      · have : ((lc + 1) % UINT32_MOD + 1) % UINT32_MOD = (lc + 1) % UINT32_MOD + 1 :=
          Nat.mod_eq_of_lt (by omega)
        rw [this]; omega
      · omega
    · exact ⟨lc, rfl⟩

theorem advanceContinuous_stay (recv : List (Nat × Bool)) (fuel lc : Nat)
    (hc : StdMap.contains recv ((lc + 1) % UINT32_MOD) = false) :
    advanceContinuous recv (fuel + 1) lc = some lc := by
  simp [advanceContinuous, hc]

theorem findMissing_none_of_max (recv : List (Nat × Bool)) (last : Nat)
    (hl : UINT32_MOD - 1 ≤ last) :
    ∀ (fuel i : Nat) (miss : List Nat), i < UINT32_MOD →
      findMissing recv last fuel i miss = none := by
  intro fuel
  induction fuel with
  | zero => intro i miss _; rfl
  | succ f ih =>
    intro i miss hi
    simp only [findMissing]
    have : i ≤ last := by omega
    rw [if_pos this]
    exact ih _ _ (Nat.mod_lt _ (by unfold UINT32_MOD; omega))

theorem findMissing_spec (recv : List (Nat × Bool)) (last : Nat) (hl : last < UINT32_MOD - 1) :
    ∀ (fuel i : Nat) (miss r : List Nat), findMissing recv last fuel i miss = some r →
      (miss.Sorted (· < ·) → r.Sorted (· < ·)) ∧
      ∀ y, y ∈ r ↔ y ∈ miss ∨ (i ≤ y ∧ y ≤ last ∧ y ∉ StdMap.keys recv) := by
  intro fuel
  induction fuel with
  | zero => intro i miss r h; simp [findMissing] at h
  | succ f ih =>
    intro i miss r h
    simp only [findMissing] at h
    split_ifs at h with hi hc
    · have hmod : (i + 1) % UINT32_MOD = i + 1 := Nat.mod_eq_of_lt (by omega)
      rw [hmod] at h
      obtain ⟨hsort, hmem⟩ := ih _ _ _ h
      refine ⟨hsort, ?_⟩
      intro y
      rw [hmem y]
      have hk := (StdMap.contains_eq_true_iff _ _).1 hc
      constructor
      · rintro (h1 | ⟨h1, h2, h3⟩)
        · exact Or.inl h1
        · exact Or.inr ⟨by omega, h2, h3⟩
      · rintro (h1 | ⟨h1, h2, h3⟩)
        · exact Or.inl h1
        · rcases Nat.eq_or_lt_of_le h1 with rfl | hlt
          · exact absurd hk h3
          · exact Or.inr ⟨hlt, h2, h3⟩
    · have hmod : (i + 1) % UINT32_MOD = i + 1 := Nat.mod_eq_of_lt (by omega)
      rw [hmod] at h
      obtain ⟨hsort, hmem⟩ := ih _ _ _ h
      refine ⟨fun hm => hsort (StdSet.sorted_insert _ _ hm), ?_⟩
      intro y
      rw [hmem y, StdSet.mem_insert]
      have hk : i ∉ StdMap.keys recv := by
        rw [← StdMap.contains_eq_false_iff]; simpa using hc
      constructor
      · rintro ((rfl | h1) | ⟨h1, h2, h3⟩)
        · exact Or.inr ⟨le_rfl, hi, hk⟩
        · exact Or.inl h1
        · exact Or.inr ⟨by omega, h2, h3⟩
      · rintro (h1 | ⟨h1, h2, h3⟩)
        · exact Or.inl (Or.inr h1)
        · rcases Nat.eq_or_lt_of_le h1 with rfl | hlt
          · exact Or.inl (Or.inl rfl)
          · exact Or.inr ⟨hlt, h2, h3⟩
    · simp only [Option.some.injEq] at h
      subst h
      refine ⟨id, ?_⟩
      intro y
      constructor
      · exact Or.inl
      · rintro (h1 | ⟨h1, h2, _⟩)
        · exact h1
        · omega

theorem findMissing_total (recv : List (Nat × Bool)) (last : Nat) (hl : last < UINT32_MOD - 1) :
    ∀ (fuel i : Nat) (miss : List Nat), i ≤ last + 1 → last + 2 ≤ fuel + i →
      ∃ r, findMissing recv last fuel i miss = some r := by
  intro fuel
  induction fuel with
  | zero => intro i miss h1 h2; omega
  | succ f ih =>
    intro i miss h1 h2
    simp only [findMissing]
    by_cases hi : i ≤ last
    · have hmod : (i + 1) % UINT32_MOD = i + 1 := Nat.mod_eq_of_lt (by omega)
      rw [if_pos hi, hmod]
      exact ih _ _ (by omega) (by omega)
    · rw [if_neg hi]
      exact ⟨miss, rfl⟩

theorem assign_ne_nil (m : List (Nat × Bool)) (k : Nat) (v : Bool) :
    StdMap.assign m k v ≠ [] := by
  intro h
  have := (StdMap.mem_keys_assign m k v k).2 (Or.inl rfl)
  rw [h] at this
  simp [StdMap.keys] at this

/-- First and last key of a non-empty map in ascending key order bound all keys. -/
theorem first_last_bounds (recv : List (Nat × Bool)) (hne : recv ≠ [])
    (hs : (StdMap.keys recv).Sorted (· < ·)) :
    ∃ first last, recv.head? = some first ∧ recv.getLast? = some last ∧
      first.1 ∈ StdMap.keys recv ∧ last.1 ∈ StdMap.keys recv ∧
      ∀ k ∈ StdMap.keys recv, first.1 ≤ k ∧ k ≤ last.1 := by
  obtain ⟨first, hfirst⟩ : ∃ a, recv.head? = some a := by
    cases recv with
    | nil => exact absurd rfl hne
    | cons a _ => exact ⟨a, rfl⟩
  obtain ⟨last, hlast⟩ : ∃ a, recv.getLast? = some a := by
    rcases h : recv.getLast? with _ | a
    · exact absurd (List.getLast?_eq_none_iff.1 h) hne
    · exact ⟨a, rfl⟩
  have h1 : (StdMap.keys recv).head? = some first.1 := by
    simp [StdMap.keys, List.head?_map, hfirst]
  have h2 : (StdMap.keys recv).getLast? = some last.1 := by
    simp [StdMap.keys, List.getLast?_map, hlast]
  obtain ⟨hm1, hle1⟩ := head_le_of_sorted hs h1
  obtain ⟨hm2, hle2⟩ := le_getLast_of_sorted hs h2
  exact ⟨first, last, hfirst, hlast, hm1, hm2, fun k hk => ⟨hle1 k hk, hle2 k hk⟩⟩

/-- Whatever `on_data_available` returns is the map with the new key assigned, and consistent. -/
theorem on_data_available_spec (fuel : Nat) (l l' : ReliabilityListener) (seq : Nat)
    (crit : Bool) (hs : (StdMap.keys l.received_sequences_).Sorted (· < ·))
    (hk : ∀ k ∈ StdMap.keys l.received_sequences_, k < UINT32_MOD) (hseq : seq < UINT32_MOD)
    (hlc : l.last_continuous_seq_ < UINT32_MOD)
    (h : on_data_available fuel l seq crit = some l') :
    l'.received_sequences_ = StdMap.assign l.received_sequences_ seq crit ∧ Consistent l' ∧
      advanceContinuous (StdMap.assign l.received_sequences_ seq crit) fuel
        (continuousStart l seq crit) = some l'.last_continuous_seq_ := by
  have hs' := StdMap.sorted_keys_assign l.received_sequences_ seq crit hs
  have hk' : ∀ k ∈ StdMap.keys (StdMap.assign l.received_sequences_ seq crit),
      k < UINT32_MOD := by
    intro k hmem
    rcases (StdMap.mem_keys_assign _ _ _ _).1 hmem with rfl | h'
    · exact hseq
    · exact hk k h'
  obtain ⟨first, last, hfirst, hlast, hfm, hlm, hbnd⟩ :=
    first_last_bounds _ (assign_ne_nil l.received_sequences_ seq crit) hs'
  unfold on_data_available at h
  simp only [hfirst, hlast] at h
  rcases hadv : advanceContinuous (StdMap.assign l.received_sequences_ seq crit) fuel
      (if (StdMap.assign l.received_sequences_ seq crit).length = 1
        then (seq + UINT32_MOD - 1) % UINT32_MOD else l.last_continuous_seq_) with _ | lc
  · rw [hadv] at h; simp at h
  rw [hadv] at h
  simp only at h
  rcases hfind : findMissing (StdMap.assign l.received_sequences_ seq crit) last.1 fuel
      first.1 [] with _ | missing
  · rw [hfind] at h; simp at h
  rw [hfind] at h
  simp only [Option.some.injEq] at h
  subst h
  have hlast_lt : last.1 < UINT32_MOD - 1 := by
    by_contra hcon
    have := findMissing_none_of_max (StdMap.assign l.received_sequences_ seq crit) last.1
      (by omega) fuel first.1 [] (hk' _ hfm)
    rw [this] at hfind
    simp at hfind
  have hstart : (if (StdMap.assign l.received_sequences_ seq crit).length = 1
      then (seq + UINT32_MOD - 1) % UINT32_MOD else l.last_continuous_seq_) < UINT32_MOD := by
    split_ifs
    · exact Nat.mod_lt _ (by unfold UINT32_MOD; omega)
    · exact hlc
  obtain ⟨hlc', hnext⟩ := advanceContinuous_spec _ fuel _ lc hstart hadv
  obtain ⟨hsorted, hmem⟩ := findMissing_spec _ last.1 hlast_lt fuel first.1 [] missing hfind
  refine ⟨rfl, ⟨hs', ?_, hlc', hnext, ?_, hsorted List.sorted_nil, first.1, last.1, ?_, ?_,
    hfm, hlm, hbnd, ?_⟩, hadv⟩
  · intro k hmem'
    have := (hbnd k hmem').2
    omega
  · intro hlen k hmem'
    simp only at hlen hmem'
    rw [if_pos hlen] at hadv
    obtain ⟨a, ha⟩ := List.length_eq_one.1 hlen
    have hseqmem := (StdMap.mem_keys_assign l.received_sequences_ seq crit seq).2 (Or.inl rfl)
    rw [ha] at hadv hseqmem hmem'
    simp only [StdMap.keys, List.map_cons, List.map_nil, List.mem_singleton] at hseqmem hmem'
    have hprobe : ((seq + UINT32_MOD - 1) % UINT32_MOD + 1) % UINT32_MOD = seq := by
      unfold UINT32_MOD at *; omega
    obtain ⟨ak, av⟩ := a
    simp only at hseqmem hmem'
    have hkeq : k = seq := by rw [hmem', hseqmem]
    rw [← hseqmem] at hadv
    rw [hkeq]
    cases fuel with
    | zero => simp [advanceContinuous] at hadv
    | succ f =>
      simp only [advanceContinuous, hprobe, StdMap.contains, StdMap.find?, if_true,
        Option.isSome_some] at hadv
      cases f with
      | zero => simp [advanceContinuous] at hadv
      | succ f' =>
        have hne : ¬ seq = (seq + 1) % UINT32_MOD := by unfold UINT32_MOD at *; omega
        simp only [advanceContinuous, StdMap.contains, StdMap.find?, if_neg hne,
          Option.isSome_none, Bool.false_eq_true, if_false, Option.some.injEq] at hadv
        exact hadv.symm
  · simp [firstSeen, hfirst]
  · simp [lastSeen, hlast]
  · intro i
    rw [hmem i]
    simp

/-- With fuel above every key and the new sequence number, `on_data_available` returns. -/
theorem on_data_available_total (fuel : Nat) (l : ReliabilityListener) (seq : Nat) (crit : Bool)
    (hs : (StdMap.keys l.received_sequences_).Sorted (· < ·))
    (hk : ∀ k ∈ StdMap.keys l.received_sequences_, k < UINT32_MOD - 1 ∧ k + 2 ≤ fuel)
    (hseq : seq < UINT32_MOD - 1) (hfuel : seq + 2 ≤ fuel) :
    ∃ l', on_data_available fuel l seq crit = some l' := by
  have hs' := StdMap.sorted_keys_assign l.received_sequences_ seq crit hs
  have hk' : ∀ k ∈ StdMap.keys (StdMap.assign l.received_sequences_ seq crit),
      k < UINT32_MOD - 1 ∧ k + 2 ≤ fuel := by
    intro k hmem
    rcases (StdMap.mem_keys_assign _ _ _ _).1 hmem with rfl | h'
    · exact ⟨hseq, hfuel⟩
    · exact hk k h'
  obtain ⟨first, last, hfirst, hlast, hfm, hlm, hbnd⟩ :=
    first_last_bounds _ (assign_ne_nil l.received_sequences_ seq crit) hs'
  have hl := hk' _ hlm
  obtain ⟨lc, hadv⟩ := advanceContinuous_total (StdMap.assign l.received_sequences_ seq crit)
    (last.1 + 1) (fun k hmem => by have := (hbnd k hmem).2; omega) (by omega) (last.1 + 1)
    (if (StdMap.assign l.received_sequences_ seq crit).length = 1
      then (seq + UINT32_MOD - 1) % UINT32_MOD else l.last_continuous_seq_) fuel
    (by omega) (by omega)
  obtain ⟨missing, hfind⟩ := findMissing_total (StdMap.assign l.received_sequences_ seq crit)
    last.1 hl.1 fuel first.1 [] (by have := (hbnd _ hfm).2; omega) (by omega)
  unfold on_data_available
  simp only [hfirst, hlast, hadv, hfind]
  exact ⟨_, rfl⟩

theorem firstSeen_eq (l : ReliabilityListener) :
    l.firstSeen = (StdMap.keys l.received_sequences_).head? := by
  simp [firstSeen, StdMap.keys, List.head?_map]

theorem lastSeen_eq (l : ReliabilityListener) :
    l.lastSeen = (StdMap.keys l.received_sequences_).getLast? := by
  simp [lastSeen, StdMap.keys, List.getLast?_map]

/-- Whatever a run of observations returns has exactly the old keys and the observed numbers
as keys, and is consistent when at least one observation was made. -/
theorem observeAll_spec (fuel : Nat) :
    ∀ (xs : List (Nat × Bool)) (l st : ReliabilityListener), WellTyped l →
      (∀ x ∈ xs, x.1 < UINT32_MOD) → observeAll fuel l xs = some st →
      (∀ k, k ∈ StdMap.keys st.received_sequences_ ↔
        k ∈ StdMap.keys l.received_sequences_ ∨ k ∈ xs.map Prod.fst) ∧
      (xs ≠ [] → Consistent st) := by
  intro xs
  induction xs with
  | nil =>
    intro l st _ _ h
    simp only [observeAll, Option.some.injEq] at h
    subst h
    simp
  | cons x rest ih =>
    intro l st hwt hxs h
    obtain ⟨seq, crit⟩ := x
    simp only [observeAll] at h
    rcases hstep : on_data_available fuel l seq crit with _ | l1
    · rw [hstep] at h; simp at h
    rw [hstep] at h
    simp only at h
    obtain ⟨hrecv, hcons, _⟩ := on_data_available_spec fuel l l1 seq crit hwt.1 hwt.2.1
      (hxs (seq, crit) (List.mem_cons_self _ _)) hwt.2.2 hstep
    have hwt1 : WellTyped l1 :=
      ⟨hcons.1, fun k hk => by have := hcons.2.1 k hk; omega, hcons.2.2.1⟩
    obtain ⟨hkeys, hc⟩ := ih l1 st hwt1 (fun y hy => hxs y (List.mem_cons_of_mem _ hy)) h
    refine ⟨?_, ?_⟩
    · intro k
      rw [hkeys k, hrecv, StdMap.mem_keys_assign]
      simp only [List.map_cons, List.mem_cons]
      tauto
    · intro _
      cases rest with
      | nil =>
        simp only [observeAll, Option.some.injEq] at h
        subst h
        exact hcons
      | cons y rest' => exact hc (by simp)

/-- With fuel above every key and every observed number, a run of observations returns. -/
theorem observeAll_total (fuel : Nat) :
    ∀ (xs : List (Nat × Bool)) (l : ReliabilityListener), WellTyped l →
      (∀ k ∈ StdMap.keys l.received_sequences_, k < UINT32_MOD - 1 ∧ k + 2 ≤ fuel) →
      (∀ x ∈ xs, x.1 < UINT32_MOD - 1 ∧ x.1 + 2 ≤ fuel) →
      ∃ st, observeAll fuel l xs = some st := by
  intro xs
  induction xs with
  | nil => intro l _ _ _; exact ⟨l, rfl⟩
  | cons x rest ih =>
    intro l hwt hk hxs
    obtain ⟨seq, crit⟩ := x
    have hx := hxs (seq, crit) (List.mem_cons_self _ _)
    obtain ⟨l1, hstep⟩ := on_data_available_total fuel l seq crit hwt.1 hk hx.1 hx.2
    obtain ⟨hrecv, hcons, _⟩ := on_data_available_spec fuel l l1 seq crit hwt.1 hwt.2.1
      (by have := hx.1; omega) hwt.2.2 hstep
    have hwt1 : WellTyped l1 :=
      ⟨hcons.1, fun k hk => by have := hcons.2.1 k hk; omega, hcons.2.2.1⟩
    have hk1 : ∀ k ∈ StdMap.keys l1.received_sequences_, k < UINT32_MOD - 1 ∧ k + 2 ≤ fuel := by
      intro k hmem
      rw [hrecv] at hmem
      rcases (StdMap.mem_keys_assign _ _ _ _).1 hmem with rfl | h'
      · exact hx
      · exact hk k h'
    obtain ⟨st, hst⟩ := ih l1 hwt1 hk1 (fun y hy => hxs y (List.mem_cons_of_mem _ hy))
    exact ⟨st, by simp only [observeAll, hstep, hst]⟩

theorem wellTyped_new : WellTyped new := by
  simp [WellTyped, new, StdMap.keys, UINT32_MOD]

/-- Two consistent listeners with the same keys have the same gap report. -/
theorem report_eq_of_keys_eq (a b : ReliabilityListener) (ha : Consistent a)
    (hb : Consistent b)
    (hkeys : StdMap.keys a.received_sequences_ = StdMap.keys b.received_sequences_) :
    a.missing_sequences_ = b.missing_sequences_ ∧ a.firstSeen = b.firstSeen ∧
      a.lastSeen = b.lastSeen := by
  obtain ⟨_, _, _, _, _, hsa, fa, la, hfa, hla, _, _, _, hma⟩ := ha
  obtain ⟨_, _, _, _, _, hsb, fb, lb, hfb, hlb, _, _, _, hmb⟩ := hb
  have hf : a.firstSeen = b.firstSeen := by rw [firstSeen_eq, firstSeen_eq, hkeys]
  have hl : a.lastSeen = b.lastSeen := by rw [lastSeen_eq, lastSeen_eq, hkeys]
  have hfe : fa = fb := by rw [hfa, hfb] at hf; exact Option.some.inj hf
  have hle : la = lb := by rw [hla, hlb] at hl; exact Option.some.inj hl
  refine ⟨sorted_lt_ext hsa hsb ?_, hf, hl⟩
  intro i
  rw [hma i, hmb i, hkeys, hfe, hle]

end ReliabilityListener

namespace StdMap

theorem assign_of_find {K V : Type} [LinearOrder K] (m : List (K × V)) (k : K) (v : V)
    (hs : (keys m).Sorted (· < ·)) (hf : find? m k = some v) : assign m k v = m := by
  induction m with
  | nil => simp [find?] at hf
  | cons kv rest ih =>
    obtain ⟨k0, v0⟩ := kv
    have hs' : (∀ b ∈ keys rest, k0 < b) ∧ (keys rest).Sorted (· < ·) := by
      simpa [keys, List.sorted_cons] using hs
    simp only [find?] at hf
    simp only [assign]
    split_ifs at hf with h0
    · subst h0
      simp only [Option.some.injEq] at hf
      subst hf
      simp
    · have hmem : k ∈ keys rest := by
        rw [← contains_eq_true_iff]; simp [contains, hf]
      have hlt := hs'.1 k hmem
      rw [if_neg (not_lt.2 (le_of_lt hlt)), if_neg (fun h => h0 h.symm), ih hs'.2 hf]

end StdMap

/-! ## Ex3 reliability, subscriber side: the gap report -/

/-- C1. Delivering a non-empty sequence `xs` of samples with sequence numbers below `2^32 - 1`
to a fresh `ReliabilityListener` (with fuel above every number) returns a listener whose keys
are the observed numbers, whose `firstSeen` and `lastSeen` are the least and the greatest
observed number, and whose `missing_sequences_` is the ascending list of exactly the numbers
between them that were not observed. Any other delivery `ys` of the same set of numbers, in
any order and multiplicity, ends with the same report. -/
theorem gap_report_exact (xs : List (Nat × Bool)) (fuel : Nat) (hne : xs ≠ [])
    (hmax : ∀ x ∈ xs, x.1 < UINT32_MOD - 1) (hfuel : ∀ x ∈ xs, x.1 + 2 ≤ fuel) :
    ∃ st first last,
      ReliabilityListener.observeAll fuel ReliabilityListener.new xs = some st ∧
      st.firstSeen = some first ∧ st.lastSeen = some last ∧
      (∀ k, k ∈ StdMap.keys st.received_sequences_ ↔ k ∈ xs.map Prod.fst) ∧
      first ∈ xs.map Prod.fst ∧ (∀ x ∈ xs, first ≤ x.1) ∧
      last ∈ xs.map Prod.fst ∧ (∀ x ∈ xs, x.1 ≤ last) ∧
      st.missing_sequences_.Sorted (· < ·) ∧
      (∀ i, i ∈ st.missing_sequences_ ↔
        first ≤ i ∧ i ≤ last ∧ i ∉ StdMap.keys st.received_sequences_) ∧
      ∀ (ys : List (Nat × Bool)) (fuel' : Nat) (st' : ReliabilityListener),
        (∀ v, v ∈ ys.map Prod.fst ↔ v ∈ xs.map Prod.fst) →
        ReliabilityListener.observeAll fuel' ReliabilityListener.new ys = some st' →
        st'.missing_sequences_ = st.missing_sequences_ ∧
          st'.firstSeen = some first ∧ st'.lastSeen = some last := by
  have hnew := ReliabilityListener.wellTyped_new
  obtain ⟨st, hst⟩ := ReliabilityListener.observeAll_total fuel xs ReliabilityListener.new hnew
    (by simp [ReliabilityListener.new, StdMap.keys]) (fun x hx => ⟨hmax x hx, hfuel x hx⟩)
  obtain ⟨hkeys, hcons⟩ := ReliabilityListener.observeAll_spec fuel xs
    ReliabilityListener.new st hnew (fun x hx => by have := hmax x hx; omega) hst
  have hkeys' : ∀ k, k ∈ StdMap.keys st.received_sequences_ ↔ k ∈ xs.map Prod.fst := by
    intro k; rw [hkeys k]; simp [ReliabilityListener.new, StdMap.keys]
  have hc := hcons hne
  obtain ⟨hsk, _, _, _, _, hsm, first, last, hf, hl, hfm, hlm, hbnd, hmiss⟩ := hc
  refine ⟨st, first, last, hst, hf, hl, hkeys', (hkeys' _).1 hfm, ?_, (hkeys' _).1 hlm, ?_,
    hsm, hmiss, ?_⟩
  · intro x hx
    exact (hbnd x.1 ((hkeys' _).2 (List.mem_map_of_mem _ hx))).1
  · intro x hx
    exact (hbnd x.1 ((hkeys' _).2 (List.mem_map_of_mem _ hx))).2
  · intro ys fuel' st' hsame hst'
    have hys : ∀ y ∈ ys, y.1 < UINT32_MOD := by
      intro y hy
      obtain ⟨x, hx, hxy⟩ := List.mem_map.1 ((hsame y.1).1 (List.mem_map_of_mem _ hy))
      have := hmax x hx
      omega
    have hyne : ys ≠ [] := by
      intro h0
      obtain ⟨x, hx⟩ := List.exists_mem_of_ne_nil xs hne
      have := (hsame x.1).2 (List.mem_map_of_mem _ hx)
      rw [h0] at this
      simp at this
    obtain ⟨hkeysy, hconsy⟩ := ReliabilityListener.observeAll_spec fuel' ys
      ReliabilityListener.new st' hnew hys hst'
    have hc' := hconsy hyne
    have hkeq : StdMap.keys st'.received_sequences_ = StdMap.keys st.received_sequences_ := by
      apply sorted_lt_ext hc'.1 hsk
      intro k
      rw [hkeysy k, hkeys' k, ← hsame k]
      simp [ReliabilityListener.new, StdMap.keys]
    obtain ⟨h1, h2, h3⟩ := ReliabilityListener.report_eq_of_keys_eq st' st hc' (hcons hne) hkeq
    exact ⟨h1, h2.trans hf, h3.trans hl⟩

/-- C1, concrete run. Feeding 1, 2, 4, 5, 7 to a fresh listener gives `missing = {3, 6}`,
`firstSeen = 1` and `lastSeen = 7`, and so does every other delivery of these five numbers. -/
theorem gap_report_exact_witness :
    ∃ st, ReliabilityListener.observeAll 9 ReliabilityListener.new
          [(1, false), (2, false), (4, false), (5, true), (7, false)] = some st ∧
      st.missing_sequences_ = [3, 6] ∧ st.firstSeen = some 1 ∧ st.lastSeen = some 7 ∧
      ∀ (ys : List (Nat × Bool)) (fuel' : Nat) (st' : ReliabilityListener),
        (∀ v, v ∈ ys.map Prod.fst ↔ v ∈ [1, 2, 4, 5, 7]) →
        ReliabilityListener.observeAll fuel' ReliabilityListener.new ys = some st' →
        st'.missing_sequences_ = [3, 6] ∧ st'.firstSeen = some 1 ∧ st'.lastSeen = some 7 := by
  obtain ⟨st, first, last, hst, hf, hl, _, _, _, _, _, _, _, hys⟩ :=
    gap_report_exact [(1, false), (2, false), (4, false), (5, true), (7, false)] 9
      (by decide) (by decide) (by decide)
  have hrun : ReliabilityListener.observeAll 9 ReliabilityListener.new
      [(1, false), (2, false), (4, false), (5, true), (7, false)] =
      some { received_sequences_ := [(1, false), (2, false), (4, false), (5, true), (7, false)],
             missing_sequences_ := [3, 6], last_continuous_seq_ := 2 } := by decide
  rw [hrun] at hst
  obtain rfl := Option.some.inj hst
  obtain rfl : 1 = first := Option.some.inj hf
  obtain rfl : 7 = last := Option.some.inj hl
  exact ⟨_, hrun, rfl, rfl, rfl, hys⟩

/-- C8. In a listener reached by at least one observation, observing again a sequence number
that is already a key returns (with fuel above every key) a listener with the same keys, the
same `last_continuous_seq_` and the same `missing_sequences_`; when the sample also carries the
stored `is_critical` flag the listener is the same altogether. -/
theorem duplicate_observation_unchanged (xs : List (Nat × Bool)) (fuel0 : Nat)
    (l : ReliabilityListener) (hne : xs ≠ []) (hxs : ∀ x ∈ xs, x.1 < UINT32_MOD)
    (hreach : ReliabilityListener.observeAll fuel0 ReliabilityListener.new xs = some l)
    (seq : Nat) (crit : Bool) (fuel : Nat)
    (hseq : seq ∈ StdMap.keys l.received_sequences_)
    (hfuel : ∀ k ∈ StdMap.keys l.received_sequences_, k + 2 ≤ fuel) :
    ∃ l', ReliabilityListener.on_data_available fuel l seq crit = some l' ∧
      StdMap.keys l'.received_sequences_ = StdMap.keys l.received_sequences_ ∧
      l'.last_continuous_seq_ = l.last_continuous_seq_ ∧
      l'.missing_sequences_ = l.missing_sequences_ ∧
      (StdMap.find? l.received_sequences_ seq = some crit → l' = l) := by
  have hc := (ReliabilityListener.observeAll_spec fuel0 xs ReliabilityListener.new l
    ReliabilityListener.wellTyped_new hxs hreach).2 hne
  have hsorted := hc.1
  have hlt := hc.2.1
  have hlc := hc.2.2.1
  have hnext := hc.2.2.2.1
  have hone := hc.2.2.2.2.1
  obtain ⟨l', hstep⟩ := ReliabilityListener.on_data_available_total fuel l seq crit hsorted
    (fun k hk => ⟨hlt k hk, hfuel k hk⟩) (hlt seq hseq) (hfuel seq hseq)
  obtain ⟨hrecv, hc', hadv⟩ := ReliabilityListener.on_data_available_spec fuel l l' seq crit
    hsorted (fun k hk => by have := hlt k hk; omega) (by have := hlt seq hseq; omega) hlc hstep
  have hkeq : StdMap.keys l'.received_sequences_ = StdMap.keys l.received_sequences_ := by
    rw [hrecv]; exact StdMap.keys_assign_of_mem _ _ _ hsorted hseq
  have hlen : l'.received_sequences_.length = l.received_sequences_.length := by
    have := congrArg List.length hkeq
    simpa [StdMap.keys] using this
  have hlceq : l'.last_continuous_seq_ = l.last_continuous_seq_ := by
    by_cases h1 : l.received_sequences_.length = 1
    · have ha := hc'.2.2.2.2.1 (hlen.trans h1) seq (by rw [hkeq]; exact hseq)
      have hb := hone h1 seq hseq
      rw [ha, hb]
    · have hstart : ReliabilityListener.continuousStart l seq crit = l.last_continuous_seq_ := by
        unfold ReliabilityListener.continuousStart
        rw [← hrecv, hlen, if_neg h1]
      rw [hstart] at hadv
      have hfalse : StdMap.contains (StdMap.assign l.received_sequences_ seq crit)
          ((l.last_continuous_seq_ + 1) % UINT32_MOD) = false := by
        rw [← hrecv, StdMap.contains_congr _ _ hkeq]; exact hnext
      obtain ⟨f, rfl⟩ : ∃ f, fuel = f + 1 := ⟨fuel - 1, by have := hfuel seq hseq; omega⟩
      rw [ReliabilityListener.advanceContinuous_stay _ _ _ hfalse] at hadv
      exact (Option.some.inj hadv).symm
  have hmeq := (ReliabilityListener.report_eq_of_keys_eq l' l hc' hc hkeq).1
  refine ⟨l', hstep, hkeq, hlceq, hmeq, ?_⟩
  intro hfind
  have hr : l'.received_sequences_ = l.received_sequences_ := by
    rw [hrecv]; exact StdMap.assign_of_find _ _ _ hsorted hfind
  cases l
  cases l'
  simp only at hr hlceq hmeq
  rw [hr, hlceq, hmeq]

/-- C8, concrete run. After 1 and 3 have been observed, observing 3 again changes nothing. -/
theorem duplicate_observation_unchanged_witness :
    ReliabilityListener.observeAll 5 ReliabilityListener.new [(1, false), (3, false)] =
      some { received_sequences_ := [(1, false), (3, false)], missing_sequences_ := [2],
             last_continuous_seq_ := 1 } ∧
    ReliabilityListener.on_data_available 5
        { received_sequences_ := [(1, false), (3, false)], missing_sequences_ := [2],
          last_continuous_seq_ := 1 } 3 false =
      some { received_sequences_ := [(1, false), (3, false)], missing_sequences_ := [2],
             last_continuous_seq_ := 1 } := by
  refine ⟨by decide, ?_⟩
  obtain ⟨l', h1, _, _, _, h5⟩ := duplicate_observation_unchanged [(1, false), (3, false)] 5
    { received_sequences_ := [(1, false), (3, false)], missing_sequences_ := [2],
      last_continuous_seq_ := 1 } (by decide) (by decide) (by decide) 3 false 5
    (by decide) (by decide)
  rw [h1, h5 (by decide)]

/-- C9. Let `l` hold values of its C++ types and `seq` be a `uint32_t`. Whenever
`on_data_available` returns a listener, its first and last key bound every key, and every
element of `missing_sequences_` lies between them and is not a key. It does return when every
key and `seq` are below `2^32 - 1` and the fuel is above them. -/
theorem missing_between_first_and_last (fuel : Nat) (l : ReliabilityListener) (seq : Nat)
    (crit : Bool) (hwt : ReliabilityListener.WellTyped l) (hseq : seq < UINT32_MOD) :
    (∀ l', ReliabilityListener.on_data_available fuel l seq crit = some l' →
      ∃ first last, l'.firstSeen = some first ∧ l'.lastSeen = some last ∧
        (∀ k ∈ StdMap.keys l'.received_sequences_, first ≤ k ∧ k ≤ last) ∧
        ∀ m ∈ l'.missing_sequences_,
          first ≤ m ∧ m ≤ last ∧ m ∉ StdMap.keys l'.received_sequences_) ∧
    ((∀ k ∈ StdMap.keys l.received_sequences_, k < UINT32_MOD - 1 ∧ k + 2 ≤ fuel) →
      seq < UINT32_MOD - 1 → seq + 2 ≤ fuel →
      ∃ l', ReliabilityListener.on_data_available fuel l seq crit = some l') := by
  refine ⟨?_, ?_⟩
  · intro l' hstep
    obtain ⟨_, hc, _⟩ := ReliabilityListener.on_data_available_spec fuel l l' seq crit
      hwt.1 hwt.2.1 hseq hwt.2.2 hstep
    obtain ⟨_, _, _, _, _, _, first, last, hf, hl, _, _, hbnd, hmiss⟩ := hc
    exact ⟨first, last, hf, hl, hbnd, fun m hm => (hmiss m).1 hm⟩
  · intro hk hs hf
    exact ReliabilityListener.on_data_available_total fuel l seq crit hwt.1 hk hs hf

/-- C9, concrete run. A listener holding key 1 that observes 4 reports 2 and 3 missing, both
between the first key 1 and the last key 4. -/
theorem missing_between_first_and_last_witness :
    ∃ l', ReliabilityListener.on_data_available 6
          { received_sequences_ := [(1, false)], missing_sequences_ := [],
            last_continuous_seq_ := 1 } 4 false = some l' ∧
      l'.missing_sequences_ = [2, 3] ∧
      ∃ first last, l'.firstSeen = some first ∧ l'.lastSeen = some last ∧
        (∀ k ∈ StdMap.keys l'.received_sequences_, first ≤ k ∧ k ≤ last) ∧
        ∀ m ∈ l'.missing_sequences_,
          first ≤ m ∧ m ≤ last ∧ m ∉ StdMap.keys l'.received_sequences_ := by
  have h := missing_between_first_and_last 6
    { received_sequences_ := [(1, false)], missing_sequences_ := [], last_continuous_seq_ := 1 }
    4 false (by simp [ReliabilityListener.WellTyped, StdMap.keys, UINT32_MOD])
    (by decide)
  obtain ⟨l', hl'⟩ := h.2 (by decide) (by decide) (by decide)
  refine ⟨l', hl', ?_, h.1 l' hl'⟩
  have hrun : ReliabilityListener.on_data_available 6
      { received_sequences_ := [(1, false)], missing_sequences_ := [],
        last_continuous_seq_ := 1 } 4 false =
      some { received_sequences_ := [(1, false), (4, false)], missing_sequences_ := [2, 3],
             last_continuous_seq_ := 1 } := by decide
  rw [hrun] at hl'
  obtain rfl := Option.some.inj hl'
  rfl

/-! ## Ex3 reliability, publisher side: pause, queue and replay -/

namespace ReliabilityPublisher

theorem flushPaused_eq (write_ok : TestData → Bool) :
    ∀ (q : List TestData) (w : DataWriter),
      flushPaused write_ok w q = ({ written := w.written ++ q }, []) := by
  intro q
  induction q with
  | nil => intro w; simp [flushPaused]
  | cons d rest ih => intro w; simp [flushPaused, ih, DataWriter.write]

theorem sendOrQueue_running (write_ok : TestData → Bool) (p : ReliabilityPublisher) :
    sendOrQueue write_ok false p =
      { p with
        reliable_writer_ :=
          { written := p.reliable_writer_.written ++ p.paused_reliable_messages ++ [p.data_] }
        best_effort_writer_ := { written := p.best_effort_writer_.written ++ [p.data_] }
        paused_reliable_messages := [] } := by
  simp [sendOrQueue, flushPaused_eq, DataWriter.write]

theorem sendOrQueue_paused (write_ok : TestData → Bool) (p : ReliabilityPublisher) :
    sendOrQueue write_ok true p =
      if p.data_.is_critical then
        { p with paused_reliable_messages := p.paused_reliable_messages ++ [p.data_] }
      else p := by
  simp [sendOrQueue]

end ReliabilityPublisher

namespace PublisherProcess

/-- One event either leaves the reliable log alone or appends the whole queue and then the
offered sample to it; log followed by queue grows by at most the offered sample. -/
theorem step_log (write_ok : TestData → Bool) (s : PublisherProcess) (e : PublisherEvent) :
    ∃ later, later.Sublist (offered s e).toList ∧
      (step write_ok s e).publisher.reliable_writer_.written ++
          (step write_ok s e).publisher.paused_reliable_messages =
        s.publisher.reliable_writer_.written ++ s.publisher.paused_reliable_messages ++ later ∧
      ((step write_ok s e).publisher.reliable_writer_.written =
          s.publisher.reliable_writer_.written ∨
        ∃ sent, (step write_ok s e).publisher.reliable_writer_.written =
          s.publisher.reliable_writer_.written ++ s.publisher.paused_reliable_messages ++ sent) := by
  have key : ∀ (d : TestData) (p : ReliabilityPublisher) (paused : Bool),
      ∃ later, later.Sublist [d] ∧
        (ReliabilityPublisher.sendOrQueue write_ok paused { p with data_ := d }).reliable_writer_.written ++
            (ReliabilityPublisher.sendOrQueue write_ok paused
              { p with data_ := d }).paused_reliable_messages =
          p.reliable_writer_.written ++ p.paused_reliable_messages ++ later ∧
        ((ReliabilityPublisher.sendOrQueue write_ok paused
            { p with data_ := d }).reliable_writer_.written = p.reliable_writer_.written ∨
          ∃ sent, (ReliabilityPublisher.sendOrQueue write_ok paused
            { p with data_ := d }).reliable_writer_.written =
            p.reliable_writer_.written ++ p.paused_reliable_messages ++ sent) := by
    intro d p paused
    cases paused with
    | false =>
      rw [ReliabilityPublisher.sendOrQueue_running]
      exact ⟨[d], List.Sublist.refl _, by simp, Or.inr ⟨[d], rfl⟩⟩
    | true =>
      rw [ReliabilityPublisher.sendOrQueue_paused]
      by_cases hc : d.is_critical = true
      · rw [if_pos hc]
        exact ⟨[d], List.Sublist.refl _, by simp, Or.inl rfl⟩
      · rw [if_neg hc]
        exact ⟨[], List.nil_sublist _, by simp, Or.inl rfl⟩
  cases e with
  | key_p => exact ⟨[], List.nil_sublist _, by simp [step], Or.inl rfl⟩
  | publish now =>
    simpa [step, offered, ReliabilityPublisher.publish] using
      key (s.publisher.nextSample now) s.publisher s.g_is_paused
  | offer d =>
    simpa [step, offered, ReliabilityPublisher.offer] using key d s.publisher s.g_is_paused

end PublisherProcess

/-- C2. Take the publisher process in any state `s` (for instance at the resume that ends a
pause, with the samples queued during the pause in `paused_reliable_messages`) and let any
sequence `es` of pause toggles, `publish` calls and offered samples follow. The reliable
writer's log followed by the queue is then the old log, the old queue in its order, and some
of the samples offered by `es` in their order; and the log itself is either unchanged or
starts with the old log followed by the whole old queue, so every queued sample is written
before any sample offered later. If the flag is clear in `s`, the first offered sample already
writes the whole queue and then itself. -/
theorem queued_written_before_later (write_ok : TestData → Bool) (es : List PublisherEvent)
    (s : PublisherProcess) :
    (∃ later, later.Sublist (PublisherProcess.offeredAll write_ok s es) ∧
      (PublisherProcess.run write_ok s es).publisher.reliable_writer_.written ++
          (PublisherProcess.run write_ok s es).publisher.paused_reliable_messages =
        s.publisher.reliable_writer_.written ++ s.publisher.paused_reliable_messages ++ later ∧
      ((PublisherProcess.run write_ok s es).publisher.reliable_writer_.written =
          s.publisher.reliable_writer_.written ∨
        ∃ sent, (PublisherProcess.run write_ok s es).publisher.reliable_writer_.written =
          s.publisher.reliable_writer_.written ++ s.publisher.paused_reliable_messages ++
            sent)) ∧
    (s.g_is_paused = false → ∀ e d, PublisherProcess.offered s e = some d →
      (PublisherProcess.step write_ok s e).publisher.reliable_writer_.written =
        s.publisher.reliable_writer_.written ++ s.publisher.paused_reliable_messages ++ [d] ∧
      (PublisherProcess.step write_ok s e).publisher.paused_reliable_messages = []) := by
  constructor
  · induction es generalizing s with
    | nil => exact ⟨[], List.Sublist.refl _, by simp [PublisherProcess.run], Or.inl rfl⟩
    | cons e rest ih =>
      obtain ⟨l1, hsub1, hcat1, hlog1⟩ := PublisherProcess.step_log write_ok s e
      obtain ⟨l2, hsub2, hcat2, hlog2⟩ := ih (PublisherProcess.step write_ok s e)
      have hrun : PublisherProcess.run write_ok s (e :: rest) =
          PublisherProcess.run write_ok (PublisherProcess.step write_ok s e) rest := rfl
      rw [hrun]
      refine ⟨l1 ++ l2, ?_, ?_, ?_⟩
      · simp only [PublisherProcess.offeredAll]
        exact List.Sublist.append hsub1 hsub2
      · rw [hcat2, hcat1]; simp
      · rcases hlog2 with h2 | ⟨sent2, h2⟩
        · rcases hlog1 with h1 | ⟨sent1, h1⟩
          · exact Or.inl (h2.trans h1)
          · exact Or.inr ⟨sent1, h2.trans h1⟩
        · refine Or.inr ⟨l1 ++ sent2, ?_⟩
          rw [h2, hcat1]; simp
  · intro hp e d he
    cases e with
    | key_p => simp [PublisherProcess.offered] at he
    | publish now =>
      simp only [PublisherProcess.offered, Option.some.injEq] at he
      subst he
      simp [PublisherProcess.step, ReliabilityPublisher.publish, hp,
        ReliabilityPublisher.sendOrQueue_running]
    | offer d' =>
      simp only [PublisherProcess.offered, Option.some.injEq] at he
      subst he
      simp [PublisherProcess.step, ReliabilityPublisher.offer, hp,
        ReliabilityPublisher.sendOrQueue_running]

/-- C2, the spec's scenario: pause, offer critical #1, offer non-critical #2, offer critical #3,
resume, offer #4. The reliable writer receives #1, #3, #4 in this order. With `publish` calls,
which make the samples 0 and 5 critical: pause, seven calls with a resume before the last; the
reliable writer receives 0, 5, 6. -/
theorem queued_written_before_later_witness :
    (PublisherProcess.run (fun _ => true) PublisherProcess.start
        [.key_p, .offer (testSample 1 true), .offer (testSample 2 false),
         .offer (testSample 3 true), .key_p,
         .offer (testSample 4 false)]).publisher.reliable_writer_.written =
      [testSample 1 true, testSample 3 true, testSample 4 false] ∧
    ((PublisherProcess.run (fun _ => true) PublisherProcess.start
        [.key_p, .publish 0, .publish 1, .publish 2, .publish 3, .publish 4, .publish 5,
         .key_p, .publish 6]).publisher.reliable_writer_.written.map
      TestData.sequence_number) = [0, 5, 6] := by
  refine ⟨?_, by decide⟩
  have h := (queued_written_before_later (fun _ => true) []
    (PublisherProcess.run (fun _ => true) PublisherProcess.start
      [.key_p, .offer (testSample 1 true), .offer (testSample 2 false),
       .offer (testSample 3 true), .key_p])).2 (by decide)
    (.offer (testSample 4 false)) (testSample 4 false) rfl
  have hrun : PublisherProcess.run (fun _ => true) PublisherProcess.start
      [.key_p, .offer (testSample 1 true), .offer (testSample 2 false),
       .offer (testSample 3 true), .key_p, .offer (testSample 4 false)] =
      PublisherProcess.step (fun _ => true)
        (PublisherProcess.run (fun _ => true) PublisherProcess.start
          [.key_p, .offer (testSample 1 true), .offer (testSample 2 false),
           .offer (testSample 3 true), .key_p]) (.offer (testSample 4 false)) := rfl
  rw [hrun, h.1]
  decide

/-- C7. One call of `publish` with generated sample `d = nextSample now p`. Flag set and `d`
critical: `d` is appended to the back of the queue and neither writer is written. Flag set and
`d` not critical: queue and writers are unchanged. Flag clear: the reliable writer receives the
whole queue front to back and then `d`, the best-effort writer receives `d`, and the queue is
empty afterwards. -/
theorem publish_queued_dropped_sent (write_ok : TestData → Bool) (now : Int)
    (p : ReliabilityPublisher) :
    ((p.nextSample now).is_critical = true →
      (p.publish write_ok true now).1.paused_reliable_messages =
        p.paused_reliable_messages ++ [p.nextSample now] ∧
      (p.publish write_ok true now).1.reliable_writer_ = p.reliable_writer_ ∧
      (p.publish write_ok true now).1.best_effort_writer_ = p.best_effort_writer_) ∧
    ((p.nextSample now).is_critical = false →
      (p.publish write_ok true now).1.paused_reliable_messages = p.paused_reliable_messages ∧
      (p.publish write_ok true now).1.reliable_writer_ = p.reliable_writer_ ∧
      (p.publish write_ok true now).1.best_effort_writer_ = p.best_effort_writer_) ∧
    ((p.publish write_ok false now).1.reliable_writer_.written =
        p.reliable_writer_.written ++ p.paused_reliable_messages ++ [p.nextSample now] ∧
      (p.publish write_ok false now).1.best_effort_writer_.written =
        p.best_effort_writer_.written ++ [p.nextSample now] ∧
      (p.publish write_ok false now).1.paused_reliable_messages = []) := by
  refine ⟨?_, ?_, ?_⟩
  · intro hc
    simp [ReliabilityPublisher.publish, ReliabilityPublisher.sendOrQueue_paused, hc]
  · intro hc
    simp [ReliabilityPublisher.publish, ReliabilityPublisher.sendOrQueue_paused, hc]
  · simp [ReliabilityPublisher.publish, ReliabilityPublisher.sendOrQueue_running]

/-- C7, concrete calls on a fresh publisher (sequence number 0, a critical sample): while
paused the sample is queued and nothing is written; while running it is written to both
writers. -/
theorem publish_queued_dropped_sent_witness :
    ((ReliabilityPublisher.new.publish (fun _ => true) true 0).1.paused_reliable_messages =
        [ReliabilityPublisher.new.nextSample 0] ∧
      (ReliabilityPublisher.new.publish (fun _ => true) true 0).1.reliable_writer_ =
        ReliabilityPublisher.new.reliable_writer_ ∧
      (ReliabilityPublisher.new.publish (fun _ => true) true 0).1.best_effort_writer_ =
        ReliabilityPublisher.new.best_effort_writer_) ∧
    (ReliabilityPublisher.new.publish (fun _ => true) false 0).1.reliable_writer_.written =
      [ReliabilityPublisher.new.nextSample 0] :=
  ⟨(publish_queued_dropped_sent (fun _ => true) 0 ReliabilityPublisher.new).1 (by decide),
    (publish_queued_dropped_sent (fun _ => true) 0 ReliabilityPublisher.new).2.2.1⟩

/-! ## Ex4 history: the buffer and the window shown -/

namespace HistoryListener

theorem displayRows_eq {R : Type} (history : List (SensorData R)) :
    ∀ (n i : Nat), displayRows history n i = (history.drop i).take n := by
  intro n
  induction n with
  | zero => intro i; simp [displayRows]
  | succ n ih =>
    intro i
    simp only [displayRows]
    by_cases hi : i < history.length
    · rw [List.getElem?_eq_getElem hi]
      simp only
      rw [ih, List.drop_eq_getElem_cons hi, List.take_succ_cons]
    · rw [List.getElem?_eq_none (by omega)]
      simp only
      rw [List.drop_eq_nil_of_le (by omega)]
      simp

/-- One append: the sample goes to the back of `history_`, nothing leaves `history_`, and the
rows shown are the last `min (size) (display_limit_)` entries of `history_`. -/
theorem on_data_available_eq {R : Type} (l : HistoryListener R) (data : SensorData R) :
    (on_data_available l data).1.history_ = l.history_ ++ [data] ∧
    (on_data_available l data).1.display_limit_ = l.display_limit_ ∧
    (on_data_available l data).2 =
      (l.history_ ++ [data]).drop ((l.history_.length + 1) - l.display_limit_) := by
  refine ⟨rfl, rfl, ?_⟩
  simp only [on_data_available, displayRows_eq, start_idx, List.length_append,
    List.length_singleton]
  have hidx : (if l.history_.length + 1 > l.display_limit_
      then l.history_.length + 1 - l.display_limit_ else 0) =
      l.history_.length + 1 - l.display_limit_ := by
    split_ifs <;> omega
  rw [hidx]
  apply List.take_of_length_le
  simp

theorem deliverAll_eq {R : Type} :
    ∀ (xs : List (SensorData R)) (l : HistoryListener R) (screen : List (SensorData R)),
      (deliverAll (l, screen) xs).1.history_ = l.history_ ++ xs ∧
      (deliverAll (l, screen) xs).1.display_limit_ = l.display_limit_ ∧
      (xs ≠ [] → (deliverAll (l, screen) xs).2 =
        (l.history_ ++ xs).drop ((l.history_.length + xs.length) - l.display_limit_)) ∧
      (xs = [] → (deliverAll (l, screen) xs).2 = screen) := by
  intro xs
  induction xs with
  | nil => intro l screen; simp [deliverAll]
  | cons x rest ih =>
    intro l screen
    obtain ⟨h1, h2, h3⟩ := on_data_available_eq l x
    obtain ⟨i1, i2, i3, i4⟩ := ih (on_data_available l x).1 (on_data_available l x).2
    simp only [deliverAll]
    refine ⟨?_, ?_, ?_, ?_⟩
    · rw [i1, h1]; simp
    · rw [i2, h2]
    · intro _
      cases rest with
      | nil =>
        simp only [deliverAll]
        rw [h3]; simp
      | cons y rest' =>
        rw [i3 (by simp), h1, h2]
        have hidx : (l.history_ ++ [x]).length + (y :: rest').length - l.display_limit_ =
            l.history_.length + (x :: y :: rest').length - l.display_limit_ := by
          simp only [List.length_append, List.length_cons, List.length_nil]
          omega
        rw [hidx]
        simp
    · intro h; simp at h

end HistoryListener

/-- C5. A fresh `HistoryListener` whose limit is set to `d` and to which the valid samples `xs`
are delivered one after another shows the last `min n d` of them (`n = xs.length`) in arrival
order: the rows on the screen are the suffix of `xs` of that length, hence at most `d` rows. -/
theorem snapshot_is_last_min {R : Type} (d : Nat) (xs : List (SensorData R)) :
    (HistoryListener.deliverAll ((HistoryListener.new R).setDisplayLimit d, []) xs).2 =
        xs.drop (xs.length - min xs.length d) ∧
    (HistoryListener.deliverAll ((HistoryListener.new R).setDisplayLimit d, []) xs).2.length =
        min xs.length d ∧
    (HistoryListener.deliverAll ((HistoryListener.new R).setDisplayLimit d, []) xs).2.length ≤ d := by
  have hdrop : (HistoryListener.deliverAll ((HistoryListener.new R).setDisplayLimit d, []) xs).2 =
      xs.drop (xs.length - min xs.length d) := by
    obtain ⟨_, _, h3, h4⟩ := HistoryListener.deliverAll_eq xs
      ((HistoryListener.new R).setDisplayLimit d) []
    by_cases hx : xs = []
    · rw [h4 hx, hx]; simp
    · rw [h3 hx]
      simp only [HistoryListener.setDisplayLimit, HistoryListener.new, List.nil_append,
        List.length_nil, Nat.zero_add]
      congr 1
      omega
  refine ⟨hdrop, ?_, ?_⟩
  · rw [hdrop, List.length_drop]; omega
  · rw [hdrop, List.length_drop]; omega

/-- C6 fails as stated: a listener set up by `setupKeepAllReader` that already holds 30 samples
buffers the 31st: `history_` grows to 31 entries ending with the new sample. -/
theorem keep_all_append_not_rejected :
    (HistoryListener.deliverAll ((HistoryListener.new Nat).setupKeepAllReader, [])
        ((List.range 30).map sampleNo)).1.history_.length = 30 ∧
    (HistoryListener.on_data_available
        (HistoryListener.deliverAll ((HistoryListener.new Nat).setupKeepAllReader, [])
          ((List.range 30).map sampleNo)).1 (sampleNo 30)).1.history_ ≠
      (HistoryListener.deliverAll ((HistoryListener.new Nat).setupKeepAllReader, [])
        ((List.range 30).map sampleNo)).1.history_ ∧
    (HistoryListener.on_data_available
        (HistoryListener.deliverAll ((HistoryListener.new Nat).setupKeepAllReader, [])
          ((List.range 30).map sampleNo)).1 (sampleNo 30)).1.history_ =
      (List.range 31).map sampleNo := by
  decide

/-- C6 as amended. After `setupKeepAllReader` no append is rejected, whatever `history_` holds:
the sample is pushed to the back of `history_`, which loses nothing, the sample counter goes
up by one, and only the rows shown are bounded: they are the last `min size 30` entries. -/
theorem keep_all_append_always_buffers {R : Type} (l : HistoryListener R) (data : SensorData R) :
    (HistoryListener.on_data_available l.setupKeepAllReader data).1.history_ =
        l.history_ ++ [data] ∧
    (HistoryListener.on_data_available l.setupKeepAllReader data).1.total_samples_ =
        (l.total_samples_ + 1) % UINT32_MOD ∧
    (HistoryListener.on_data_available l.setupKeepAllReader data).2 =
        (l.history_ ++ [data]).drop ((l.history_.length + 1) - 30) ∧
    (HistoryListener.on_data_available l.setupKeepAllReader data).2.length =
        min (l.history_.length + 1) 30 := by
  obtain ⟨h1, _, h3⟩ := HistoryListener.on_data_available_eq l.setupKeepAllReader data
  refine ⟨h1, rfl, h3, ?_⟩
  rw [h3]
  simp only [HistoryListener.setupKeepAllReader, HistoryListener.setDisplayLimit,
    List.length_drop, List.length_append, List.length_singleton]
  omega

/-- C10 fails as stated: a listener set up by `setupKeepLastReader` (depth 5) to which six
samples are delivered holds all six in `history_`; the oldest is not evicted. -/
theorem keep_last_buffer_exceeds_depth :
    (HistoryListener.deliverAll ((HistoryListener.new Nat).setupKeepLastReader, [])
        ((List.range 6).map sampleNo)).1.history_ = (List.range 6).map sampleNo ∧
    ¬ (HistoryListener.deliverAll ((HistoryListener.new Nat).setupKeepLastReader, [])
        ((List.range 6).map sampleNo)).1.history_.length ≤ 5 := by
  decide

/-- C10 as amended. After `setupKeepLastReader` (depth 5) every append keeps all of `history_`
and adds the sample at its back; it is the window shown that holds at most 5 samples: the
rows are the last `min size 5` entries of `history_`, in arrival order. -/
theorem keep_last_window_bounded {R : Type} (l : HistoryListener R) (data : SensorData R) :
    (HistoryListener.on_data_available l.setupKeepLastReader data).1.history_ =
        l.history_ ++ [data] ∧
    (HistoryListener.on_data_available l.setupKeepLastReader data).2 =
        (l.history_ ++ [data]).drop ((l.history_.length + 1) - 5) ∧
    (HistoryListener.on_data_available l.setupKeepLastReader data).2.length =
        min (l.history_.length + 1) 5 ∧
    (HistoryListener.on_data_available l.setupKeepLastReader data).2.length ≤ 5 := by
  obtain ⟨h1, _, h3⟩ := HistoryListener.on_data_available_eq l.setupKeepLastReader data
  have hlen : (HistoryListener.on_data_available l.setupKeepLastReader data).2.length =
      min (l.history_.length + 1) 5 := by
    rw [h3]
    simp only [HistoryListener.setupKeepLastReader, HistoryListener.setDisplayLimit,
      List.length_drop, List.length_append, List.length_singleton]
    omega
  exact ⟨h1, h3, hlen, by rw [hlen]; omega⟩

/-! ## Ex6 ownership: which samples the listener processes -/

namespace SteeringListener

theorem is_highest_active_eq_true (active_strengths_ : List Nat) (controller_strength : Nat) :
    is_highest_active active_strengths_ controller_strength = true := by
  unfold is_highest_active
  induction active_strengths_ with
  | nil => rfl
  | cons a rest ih => simpa [List.foldl_cons] using ih

theorem on_data_available_of_mem {R : Type} (active_strengths_ : List Nat)
    (l : SteeringListener) (command : SteeringCommand R)
    (h : getStrengthFromName command.controller_name ∈ active_strengths_) :
    on_data_available active_strengths_ l command =
      ({ l with received_count_ := incremented l.received_count_ },
        some { active_controllers :=
                 active_strengths_.map (fun strength => (getControllerName strength, strength))
               command := command
               controller_strength := getStrengthFromName command.controller_name
               total_received := incremented l.received_count_ }) := by
  have hne : active_strengths_.isEmpty = false := by
    cases active_strengths_ with
    | nil => simp at h
    | cons a rest => rfl
  simp [on_data_available, hne, StdSet.count, h, is_highest_active_eq_true]

theorem on_data_available_of_not_mem {R : Type} (active_strengths_ : List Nat)
    (l : SteeringListener) (command : SteeringCommand R)
    (h : getStrengthFromName command.controller_name ∉ active_strengths_) :
    on_data_available active_strengths_ l command = (l, none) := by
  simp [on_data_available, StdSet.count, h]

/-- Below `INT_MAX` the increment adds one. -/
theorem incremented_of_lt (count : Int) (h : count < INT_MAX) : incremented count = count + 1 := by
  unfold incremented
  rw [if_neg (by omega)]

end SteeringListener

/-- C3. Let `A` be `active_strengths_` after any sequence `ids` of `toggleController` calls
made in any subscriber state `s` (in particular the state after the constructor and `init`).
For every listener and sample, `on_data_available` prints the sample exactly when
`getStrengthFromName` of the sample's `controller_name` is in `A`, and, for a counter below
`INT_MAX`, it increments `received_count_` by one, and prints the new count, exactly in that
case; otherwise it changes and prints nothing, which is always the case when `A` is empty. -/
theorem authoritative_iff_strength_active {R : Type} (s : SteeringSubscriber) (ids : List Int)
    (l : SteeringListener) (command : SteeringCommand R) :
    (l.received_count_ < INT_MAX →
      ((SteeringListener.on_data_available (s.toggleAll ids).active_strengths_ l
            command).1.received_count_ = l.received_count_ + 1 ↔
          SteeringListener.getStrengthFromName command.controller_name ∈
            (s.toggleAll ids).active_strengths_) ∧
      ((∃ screen, (SteeringListener.on_data_available (s.toggleAll ids).active_strengths_ l
            command).2 = some screen ∧ screen.command = command ∧
            screen.total_received = l.received_count_ + 1) ↔
          SteeringListener.getStrengthFromName command.controller_name ∈
            (s.toggleAll ids).active_strengths_)) ∧
    ((∃ screen, (SteeringListener.on_data_available (s.toggleAll ids).active_strengths_ l
          command).2 = some screen ∧ screen.command = command ∧
          screen.total_received =
            (SteeringListener.on_data_available (s.toggleAll ids).active_strengths_ l
              command).1.received_count_) ↔
        SteeringListener.getStrengthFromName command.controller_name ∈
          (s.toggleAll ids).active_strengths_) ∧
    (SteeringListener.getStrengthFromName command.controller_name ∉
          (s.toggleAll ids).active_strengths_ →
        SteeringListener.on_data_available (s.toggleAll ids).active_strengths_ l command =
          (l, none)) ∧
    ((s.toggleAll ids).active_strengths_ = [] →
        SteeringListener.on_data_available (s.toggleAll ids).active_strengths_ l command =
          (l, none)) := by
  generalize (s.toggleAll ids).active_strengths_ = A
  by_cases hmem : SteeringListener.getStrengthFromName command.controller_name ∈ A
  · rw [SteeringListener.on_data_available_of_mem A l command hmem]
    refine ⟨?_, by simp [hmem], fun h => absurd hmem h, ?_⟩
    · intro hlt
      rw [SteeringListener.incremented_of_lt _ hlt]
      exact ⟨by simp [hmem], by simp [hmem]⟩
    · intro hA
      rw [hA] at hmem
      simp at hmem
  · rw [SteeringListener.on_data_available_of_not_mem A l command hmem]
    refine ⟨fun _ => ⟨by simp [hmem], by simp [hmem]⟩, by simp [hmem], fun _ => rfl,
      fun _ => rfl⟩

/-- C3, concrete run. After `init`, enabling ADAS and disabling Manual leaves strength 20
active only: an ADAS sample is counted, a Manual sample is not. -/
theorem authoritative_iff_strength_active_witness :
    (SteeringSubscriber.new.init.toggleAll [2, 1]).active_strengths_ = [20] ∧
    (0 : Int) < INT_MAX ∧
    (SteeringListener.on_data_available
        (SteeringSubscriber.new.init.toggleAll [2, 1]).active_strengths_
        { received_count_ := 0 } (commandFrom "ADAS Controller")).1.received_count_ = 0 + 1 ∧
    SteeringListener.on_data_available
        (SteeringSubscriber.new.init.toggleAll [2, 1]).active_strengths_
        { received_count_ := 0 } (commandFrom "Manual Steering") =
      ({ received_count_ := 0 }, none) :=
  ⟨by decide, by decide,
    ((authoritative_iff_strength_active SteeringSubscriber.new.init [2, 1]
      { received_count_ := 0 } (commandFrom "ADAS Controller")).1 (by decide)).1.2 (by decide),
    (authoritative_iff_strength_active SteeringSubscriber.new.init [2, 1]
      { received_count_ := 0 } (commandFrom "Manual Steering")).2.2.1 (by decide)⟩

/-! ## Ex6 service discovery: clearing inactive services -/

namespace ServiceDiscoverySubscriber

theorem elapsed_eq (ty : TimestampType) (now_ns timestamp : Int)
    (hnow : now_ns < 9223372036854775808)
    (hts : 0 ≤ timestamp ∧ timestamp ≤ now_ns) :
    elapsed ty now_ns timestamp = now_ns - timestamp := by
  cases ty with
  | int64 => rfl
  | uint64 =>
    simp only [elapsed]
    apply Int.emod_eq_of_lt <;> omega

end ServiceDiscoverySubscriber

/-- C4. Command `c` at clock reading `now_ns` (an `int64_t`), on a registry whose timestamps
are clock readings (non-negative) not later than `now_ns`: the map afterwards consists of exactly the records with
`now_ns - timestamp ≤ 10^10`, unchanged and in their order, and the keys announced as removed
are exactly those of the records with `now_ns - timestamp > 10^10`. The comparison is strict:
a record stamped exactly `10^10` ns before `now_ns` is kept, one stamped `10^10 + 1` ns before
is removed. This holds for either C++ type of the timestamp field. -/
theorem clear_removes_exactly_expired (ty : TimestampType) (now_ns : Int)
    (m : List (String × ServiceInfo)) (hnow : now_ns < 9223372036854775808)
    (hts : ∀ e ∈ m, 0 ≤ e.2.timestamp ∧ e.2.timestamp ≤ now_ns) :
    (ServiceDiscoverySubscriber.clearInactive ty now_ns m).1 =
        m.filter (fun e =>
          decide (now_ns - e.2.timestamp ≤ ServiceDiscoverySubscriber.LEASE_NS)) ∧
    (ServiceDiscoverySubscriber.clearInactive ty now_ns m).2 =
        (m.filter (fun e =>
          decide (now_ns - e.2.timestamp > ServiceDiscoverySubscriber.LEASE_NS))).map Prod.fst ∧
    (∀ e ∈ m, now_ns = e.2.timestamp + ServiceDiscoverySubscriber.LEASE_NS →
        e ∈ (ServiceDiscoverySubscriber.clearInactive ty now_ns m).1) ∧
    (∀ e ∈ m, now_ns = e.2.timestamp + ServiceDiscoverySubscriber.LEASE_NS + 1 →
        e ∉ (ServiceDiscoverySubscriber.clearInactive ty now_ns m).1 ∧
        e.1 ∈ (ServiceDiscoverySubscriber.clearInactive ty now_ns m).2) := by
  have hfilter : (ServiceDiscoverySubscriber.clearInactive ty now_ns m).1 =
        m.filter (fun e =>
          decide (now_ns - e.2.timestamp ≤ ServiceDiscoverySubscriber.LEASE_NS)) ∧
      (ServiceDiscoverySubscriber.clearInactive ty now_ns m).2 =
        (m.filter (fun e =>
          decide (now_ns - e.2.timestamp > ServiceDiscoverySubscriber.LEASE_NS))).map
            Prod.fst := by
    induction m with
    | nil => simp [ServiceDiscoverySubscriber.clearInactive]
    | cons e rest ih =>
      obtain ⟨key, info⟩ := e
      obtain ⟨ih1, ih2⟩ := ih (fun e he => hts e (List.mem_cons_of_mem _ he))
      have hel := ServiceDiscoverySubscriber.elapsed_eq ty now_ns info.timestamp hnow
        (hts (key, info) (List.mem_cons_self _ _))
      simp only [ServiceDiscoverySubscriber.clearInactive, hel, List.filter_cons]
      by_cases hx : now_ns - info.timestamp > ServiceDiscoverySubscriber.LEASE_NS
      · have hx' : ¬ now_ns - info.timestamp ≤ ServiceDiscoverySubscriber.LEASE_NS := by omega
        simp only [hx, hx', ih1, ih2, decide_True, decide_False, if_true, if_false,
          Bool.false_eq_true, List.map_cons, and_self]
      · have hx' : now_ns - info.timestamp ≤ ServiceDiscoverySubscriber.LEASE_NS := by omega
        simp only [hx, hx', ih1, ih2, decide_True, decide_False, if_true, if_false,
          Bool.false_eq_true, List.map_cons, and_self]
  refine ⟨hfilter.1, hfilter.2, ?_, ?_⟩
  · intro e he hnow'
    rw [hfilter.1, List.mem_filter]
    exact ⟨he, by simp [hnow']⟩
  · intro e he hnow'
    rw [hfilter.1, hfilter.2, List.mem_filter]
    refine ⟨fun h => ?_, ?_⟩
    · have := h.2
      simp only [decide_eq_true_eq] at this
      omega
    · apply List.mem_map_of_mem
      rw [List.mem_filter]
      refine ⟨he, ?_⟩
      simp only [decide_eq_true_eq]
      omega

/-- C4, concrete run at `now_ns = 2 * 10^10`: the record stamped `10^10` (exactly the lease
ago) is kept, the record stamped `10^10 - 1` is removed. -/
theorem clear_removes_exactly_expired_witness :
    ServiceDiscoverySubscriber.clearInactive .uint64 20000000000
        [("a", serviceAt "a" 10000000000), ("b", serviceAt "b" 9999999999)] =
      ([("a", serviceAt "a" 10000000000)], ["b"]) := by
  have h := clear_removes_exactly_expired .uint64 20000000000
    [("a", serviceAt "a" 10000000000), ("b", serviceAt "b" 9999999999)] (by decide)
    (by decide)
  exact Prod.ext (h.1.trans (by decide)) (h.2.1.trans (by decide))

/-! ## Ex4 history: switching the policy -/

/-- C11 fails as stated: under `setupKeepLastReader` with 20 samples delivered the window holds
samples 15 to 19, so sample 0 has left it; after `setupKeepAllReader` the next append shows
sample 0 again, together with all 21 samples. -/
theorem policy_switch_shows_dropped_again :
    sampleNo 0 ∉
      (HistoryListener.deliverAll ((HistoryListener.new Nat).setupKeepLastReader, [])
        ((List.range 20).map sampleNo)).2 ∧
    sampleNo 0 ∈
      (HistoryListener.on_data_available
        (HistoryListener.deliverAll ((HistoryListener.new Nat).setupKeepLastReader, [])
          ((List.range 20).map sampleNo)).1.setupKeepAllReader (sampleNo 20)).2 ∧
    (HistoryListener.on_data_available
        (HistoryListener.deliverAll ((HistoryListener.new Nat).setupKeepLastReader, [])
          ((List.range 20).map sampleNo)).1.setupKeepAllReader (sampleNo 20)).2.length = 21 := by
  decide

/-- C11 as amended. A policy switch only sets `display_limit_`: `history_` and the sample
counter are as before, nothing is dropped from the buffer. The window shown at the next append
is the last `min size limit` entries of `history_` in arrival order, so older entries beyond
the new limit are left out of it, oldest first; and after a switch to `setupKeepAllReader`
with fewer than 30 samples buffered the next window is all of `history_`, including every
sample that the earlier, smaller limit had left out. -/
theorem policy_switch_keeps_history {R : Type} (l : HistoryListener R) (data : SensorData R) :
    (l.setupKeepLastReader.history_ = l.history_ ∧
      l.setupKeepLastReader.total_samples_ = l.total_samples_ ∧
      l.setupKeepLastReader.display_limit_ = 5) ∧
    (l.setupKeepAllReader.history_ = l.history_ ∧
      l.setupKeepAllReader.total_samples_ = l.total_samples_ ∧
      l.setupKeepAllReader.display_limit_ = 30) ∧
    (∀ limit, (HistoryListener.on_data_available (l.setDisplayLimit limit) data).2 =
        (l.history_ ++ [data]).drop ((l.history_.length + 1) - limit) ∧
      (HistoryListener.on_data_available (l.setDisplayLimit limit) data).2.length =
        min (l.history_.length + 1) limit) ∧
    (l.history_.length < 30 →
      (HistoryListener.on_data_available l.setupKeepAllReader data).2 = l.history_ ++ [data]) := by
  refine ⟨⟨rfl, rfl, rfl⟩, ⟨rfl, rfl, rfl⟩, ?_, ?_⟩
  · intro limit
    obtain ⟨_, _, h3⟩ := HistoryListener.on_data_available_eq (l.setDisplayLimit limit) data
    have h3' : (HistoryListener.on_data_available (l.setDisplayLimit limit) data).2 =
        (l.history_ ++ [data]).drop ((l.history_.length + 1) - limit) := h3
    refine ⟨h3', ?_⟩
    rw [h3']
    simp only [List.length_drop, List.length_append, List.length_cons, List.length_nil]
    omega
  · intro hlen
    obtain ⟨_, _, h3⟩ := HistoryListener.on_data_available_eq l.setupKeepAllReader data
    have h3' : (HistoryListener.on_data_available l.setupKeepAllReader data).2 =
        (l.history_ ++ [data]).drop ((l.history_.length + 1) - 30) := h3
    rw [h3']
    have : l.history_.length + 1 - 30 = 0 := by omega
    rw [this, List.drop_zero]

/-- C11, concrete run: KeepLast(5), 20 samples, then KeepAll(30): the next append shows all 21
samples delivered so far. -/
theorem policy_switch_keeps_history_witness :
    (HistoryListener.deliverAll ((HistoryListener.new Nat).setupKeepLastReader, [])
        ((List.range 20).map sampleNo)).1.history_.length < 30 ∧
    (HistoryListener.on_data_available
        (HistoryListener.deliverAll ((HistoryListener.new Nat).setupKeepLastReader, [])
          ((List.range 20).map sampleNo)).1.setupKeepAllReader (sampleNo 20)).2 =
      (HistoryListener.deliverAll ((HistoryListener.new Nat).setupKeepLastReader, [])
        ((List.range 20).map sampleNo)).1.history_ ++ [sampleNo 20] :=
  ⟨by decide,
    (policy_switch_keeps_history
      (HistoryListener.deliverAll ((HistoryListener.new Nat).setupKeepLastReader, [])
        ((List.range 20).map sampleNo)).1 (sampleNo 20)).2.2.2 (by decide)⟩

/-! ## Ex3 reliability, publisher side: the pause toggle -/

/-- C12. Reading a `p` on the keyboard only flips `g_is_paused`: the publisher object, with both
writers and the queue, is as before. A `publish` made while the flag is set writes to neither
writer and keeps the queued samples at the front of the queue. The queued samples are written
by the first `publish` after the flag is cleared: resume followed by `publish` sends the whole
queue and then the new sample to the reliable writer and leaves the queue empty. -/
theorem toggle_only_flips_flag (write_ok : TestData → Bool) (s : PublisherProcess) (now : Int) :
    (PublisherProcess.step write_ok s .key_p).g_is_paused = (!s.g_is_paused) ∧
    (PublisherProcess.step write_ok s .key_p).publisher = s.publisher ∧
    (s.g_is_paused = true →
      (PublisherProcess.step write_ok s (.publish now)).publisher.reliable_writer_ =
        s.publisher.reliable_writer_ ∧
      (PublisherProcess.step write_ok s (.publish now)).publisher.best_effort_writer_ =
        s.publisher.best_effort_writer_ ∧
      ∃ added, (PublisherProcess.step write_ok s (.publish now)).publisher.paused_reliable_messages =
        s.publisher.paused_reliable_messages ++ added) ∧
    (s.g_is_paused = true →
      (PublisherProcess.run write_ok s [.key_p, .publish now]).publisher.reliable_writer_.written =
        s.publisher.reliable_writer_.written ++ s.publisher.paused_reliable_messages ++
          [s.publisher.nextSample now] ∧
      (PublisherProcess.run write_ok s
        [.key_p, .publish now]).publisher.paused_reliable_messages = []) := by
  refine ⟨rfl, rfl, ?_, ?_⟩
  · intro hp
    simp only [PublisherProcess.step, ReliabilityPublisher.publish, hp,
      ReliabilityPublisher.sendOrQueue_paused]
    by_cases hc : (s.publisher.nextSample now).is_critical = true
    · rw [if_pos hc]
      exact ⟨rfl, rfl, [s.publisher.nextSample now], rfl⟩
    · rw [if_neg hc]
      exact ⟨rfl, rfl, [], by simp⟩
  · intro hp
    simp [PublisherProcess.run, PublisherProcess.step, ReliabilityPublisher.publish, hp,
      ReliabilityPublisher.sendOrQueue_running, ReliabilityPublisher.nextSample]

/-- C12, concrete run: pause, a critical sample queued, resume: the toggle itself writes
nothing; the following `publish` writes the queued sample 0 and then sample 1. -/
theorem toggle_only_flips_flag_witness :
    (PublisherProcess.run (fun _ => true) PublisherProcess.start
        [.key_p, .publish 0]).g_is_paused = true ∧
    (PublisherProcess.run (fun _ => true) PublisherProcess.start
        [.key_p, .publish 0, .key_p]).publisher.reliable_writer_.written = [] ∧
    ((PublisherProcess.run (fun _ => true) PublisherProcess.start
        [.key_p, .publish 0, .key_p, .publish 7]).publisher.reliable_writer_.written.map
      TestData.sequence_number) = [0, 1] := by
  have h := toggle_only_flips_flag (fun _ => true)
    (PublisherProcess.run (fun _ => true) PublisherProcess.start [.key_p, .publish 0]) 7
  refine ⟨by decide, ?_, ?_⟩
  · have h2 := h.2.1
    have hrun : PublisherProcess.run (fun _ => true) PublisherProcess.start
        [.key_p, .publish 0, .key_p] =
        PublisherProcess.step (fun _ => true)
          (PublisherProcess.run (fun _ => true) PublisherProcess.start [.key_p, .publish 0])
          .key_p := rfl
    rw [hrun, h2]
    decide
  · have h4 := (h.2.2.2 (by decide)).1
    have hrun : PublisherProcess.run (fun _ => true) PublisherProcess.start
        [.key_p, .publish 0, .key_p, .publish 7] =
        PublisherProcess.run (fun _ => true)
          (PublisherProcess.run (fun _ => true) PublisherProcess.start [.key_p, .publish 0])
          [.key_p, .publish 7] := rfl
    rw [hrun, h4]
    decide

/-! ## Ex3 reliability, publisher side: what is retained during a pause -/

namespace PublisherProcess

theorem run_append (write_ok : TestData → Bool) (s : PublisherProcess)
    (es fs : List PublisherEvent) :
    run write_ok s (es ++ fs) = run write_ok (run write_ok s es) fs := by
  simp [run, List.foldl_append]

theorem publishCalls_append (es fs : List PublisherEvent) :
    publishCalls (es ++ fs) = publishCalls es + publishCalls fs := by
  induction es with
  | nil => simp [publishCalls]
  | cons e rest ih =>
    cases e with
    | key_p => simp [publishCalls, ih]
    | publish now =>
      show publishCalls (rest ++ fs) + 1 = publishCalls rest + 1 + publishCalls fs
      rw [ih]; omega
    | offer d => simp [publishCalls, ih]

/-- Only critical samples enter the queue. -/
theorem step_queue_critical (write_ok : TestData → Bool) (s : PublisherProcess)
    (e : PublisherEvent)
    (h : ∀ q ∈ s.publisher.paused_reliable_messages, q.is_critical = true) :
    ∀ q ∈ (step write_ok s e).publisher.paused_reliable_messages, q.is_critical = true := by
  have key : ∀ (d : TestData) (paused : Bool),
      ∀ q ∈ (ReliabilityPublisher.sendOrQueue write_ok paused
        { s.publisher with data_ := d }).paused_reliable_messages, q.is_critical = true := by
    intro d paused
    cases paused with
    | false =>
      rw [ReliabilityPublisher.sendOrQueue_running]
      intro q hq
      simp at hq
    | true =>
      rw [ReliabilityPublisher.sendOrQueue_paused]
      by_cases hc : d.is_critical = true
      · rw [if_pos hc]
        intro q hq
        rcases List.mem_append.1 hq with hq' | hq'
        · exact h q hq'
        · rw [List.mem_singleton.1 hq']; exact hc
      · rw [if_neg hc]
        exact h
  cases e with
  | key_p => exact h
  | publish now => exact key (s.publisher.nextSample now) s.g_is_paused
  | offer d => exact key d s.g_is_paused

theorem run_queue_critical (write_ok : TestData → Bool) (es : List PublisherEvent) :
    ∀ (s : PublisherProcess),
      (∀ q ∈ s.publisher.paused_reliable_messages, q.is_critical = true) →
      ∀ q ∈ (run write_ok s es).publisher.paused_reliable_messages, q.is_critical = true := by
  induction es with
  | nil => intro s h; exact h
  | cons e rest ih =>
    intro s h
    exact ih (step write_ok s e) (step_queue_critical write_ok s e h)

/-- A `publish()` call adds at most its own sample, which carries `sequence_number_`, to what
the publisher has written or queued, and moves `sequence_number_` on by one. -/
theorem step_publish_held (write_ok : TestData → Bool) (s : PublisherProcess) (now : Int) :
    (step write_ok s (.publish now)).publisher.sequence_number_ =
        (s.publisher.sequence_number_ + 1) % UINT32_MOD ∧
    (step write_ok s (.publish now)).g_is_paused = s.g_is_paused ∧
    ∀ w ∈ (step write_ok s (.publish now)).held,
      w ∈ s.held ∨ w.sequence_number = s.publisher.sequence_number_ := by
  refine ⟨?_, rfl, ?_⟩
  · cases hp : s.g_is_paused with
    | false =>
      simp [step, ReliabilityPublisher.publish, ReliabilityPublisher.sendOrQueue_running, hp]
    | true =>
      simp only [step, ReliabilityPublisher.publish, ReliabilityPublisher.sendOrQueue_paused, hp]
      split_ifs <;> rfl
  · intro w hw
    cases hp : s.g_is_paused with
    | false =>
      simp only [held, step, ReliabilityPublisher.publish,
        ReliabilityPublisher.sendOrQueue_running, hp, List.mem_append, List.mem_singleton,
        List.not_mem_nil, or_false] at hw ⊢
      rcases hw with ((h1 | h1) | h1) | (h1 | h1)
      · exact Or.inl (Or.inl (Or.inl h1))
      · exact Or.inl (Or.inr h1)
      · exact Or.inr (by rw [h1]; rfl)
      · exact Or.inl (Or.inl (Or.inr h1))
      · exact Or.inr (by rw [h1]; rfl)
    | true =>
      simp only [held, step, ReliabilityPublisher.publish,
        ReliabilityPublisher.sendOrQueue_paused, hp] at hw ⊢
      by_cases hc : (s.publisher.nextSample now).is_critical = true
      · rw [if_pos hc] at hw
        simp only [List.mem_append, List.mem_singleton] at hw ⊢
        rcases hw with (h1 | h1) | (h1 | h1)
        · exact Or.inl (Or.inl (Or.inl h1))
        · exact Or.inl (Or.inl (Or.inr h1))
        · exact Or.inl (Or.inr h1)
        · exact Or.inr (by rw [h1]; rfl)
      · rw [if_neg hc] at hw
        exact Or.inl hw

/-- After `publish()` calls and pause toggles that do not wrap the counter, everything written
or queued was there before or carries one of the sequence numbers used by these calls. -/
theorem run_held (write_ok : TestData → Bool) (s : PublisherProcess)
    (hs : s.publisher.sequence_number_ < UINT32_MOD) (es : List PublisherEvent) :
    (∀ e ∈ es, isOffer e = false) →
    s.publisher.sequence_number_ + publishCalls es ≤ UINT32_MOD →
    (run write_ok s es).publisher.sequence_number_ =
        (s.publisher.sequence_number_ + publishCalls es) % UINT32_MOD ∧
    (run write_ok s es).publisher.sequence_number_ < UINT32_MOD ∧
    ∀ w ∈ (run write_ok s es).held,
      w ∈ s.held ∨ (s.publisher.sequence_number_ ≤ w.sequence_number ∧
        w.sequence_number < s.publisher.sequence_number_ + publishCalls es) := by
  induction es using List.reverseRecOn with
  | nil =>
    intro _ _
    refine ⟨?_, hs, fun w hw => Or.inl hw⟩
    simp only [run, List.foldl_nil, publishCalls, Nat.add_zero]
    exact (Nat.mod_eq_of_lt hs).symm
  | append_singleton es e ih =>
    intro hno hle
    rw [publishCalls_append] at hle ⊢
    have hrun : run write_ok s (es ++ [e]) = step write_ok (run write_ok s es) e := by
      rw [run_append]; rfl
    rw [hrun]
    have hno' : ∀ e' ∈ es, isOffer e' = false :=
      fun e' he' => hno e' (List.mem_append_left _ he')
    cases e with
    | key_p =>
      simp only [publishCalls, Nat.add_zero] at hle ⊢
      exact ih hno' hle
    | offer d =>
      have := hno (.offer d) (by simp)
      simp [isOffer] at this
    | publish now =>
      simp only [publishCalls] at hle ⊢
      obtain ⟨ihseq, _, ihheld⟩ := ih hno' (by omega)
      have hmod : (s.publisher.sequence_number_ + publishCalls es) % UINT32_MOD =
          s.publisher.sequence_number_ + publishCalls es := Nat.mod_eq_of_lt (by omega)
      rw [hmod] at ihseq
      obtain ⟨hseq, _, hheld⟩ := step_publish_held write_ok (run write_ok s es) now
      refine ⟨?_, ?_, ?_⟩
      · rw [hseq, ihseq]; rfl
      · rw [hseq]; exact Nat.mod_lt _ (by unfold UINT32_MOD; omega)
      · intro w hw
        rcases hheld w hw with h1 | h1
        · rcases ihheld w h1 with h2 | h2
          · exact Or.inl h2
          · exact Or.inr ⟨h2.1, by omega⟩
        · rw [ihseq] at h1
          exact Or.inr ⟨by omega, by omega⟩

/-- Whatever is on a writer or in the queue after an event was there before or is the sample
the event offers. -/
theorem step_held_from (write_ok : TestData → Bool) (s : PublisherProcess)
    (e : PublisherEvent) :
    ∀ w ∈ (step write_ok s e).held, w ∈ s.held ∨ w ∈ (offered s e).toList := by
  have key : ∀ (d : TestData) (paused : Bool) (w : TestData),
      (w ∈ (ReliabilityPublisher.sendOrQueue write_ok paused
            { s.publisher with data_ := d }).reliable_writer_.written ∨
        w ∈ (ReliabilityPublisher.sendOrQueue write_ok paused
            { s.publisher with data_ := d }).best_effort_writer_.written ∨
        w ∈ (ReliabilityPublisher.sendOrQueue write_ok paused
            { s.publisher with data_ := d }).paused_reliable_messages) →
      w ∈ s.held ∨ w = d := by
    intro d paused w hw
    cases paused with
    | false =>
      rw [ReliabilityPublisher.sendOrQueue_running] at hw
      simp only [held, List.mem_append, List.mem_singleton, List.not_mem_nil, or_false] at hw ⊢
      tauto
    | true =>
      rw [ReliabilityPublisher.sendOrQueue_paused] at hw
      by_cases hc : d.is_critical = true
      · rw [if_pos hc] at hw
        simp only [held, List.mem_append, List.mem_singleton] at hw ⊢
        tauto
      · rw [if_neg hc] at hw
        simp only [held, List.mem_append] at hw ⊢
        tauto
  intro w hw
  cases e with
  | key_p => exact Or.inl hw
  | publish now =>
    have := key (s.publisher.nextSample now) s.g_is_paused w
      (by simpa [held, step, ReliabilityPublisher.publish, or_assoc] using hw)
    simpa [offered] using this
  | offer d =>
    have := key d s.g_is_paused w
      (by simpa [held, step, ReliabilityPublisher.offer, or_assoc] using hw)
    simpa [offered] using this

theorem run_held_from (write_ok : TestData → Bool) (es : List PublisherEvent) :
    ∀ (s : PublisherProcess), ∀ w ∈ (run write_ok s es).held,
      w ∈ s.held ∨ w ∈ offeredAll write_ok s es := by
  induction es with
  | nil => intro s w hw; exact Or.inl hw
  | cons e rest ih =>
    intro s w hw
    have hrun : run write_ok s (e :: rest) = run write_ok (step write_ok s e) rest := rfl
    rw [hrun] at hw
    simp only [offeredAll, List.mem_append]
    rcases ih (step write_ok s e) w hw with h1 | h1
    · rcases step_held_from write_ok s e w h1 with h2 | h2
      · exact Or.inl h2
      · exact Or.inr (Or.inl h2)
    · exact Or.inr (Or.inr h1)

/-- A `publish()` call made while paused that generates a non-critical sample leaves writers
and queue as they were. -/
theorem step_publish_dropped (write_ok : TestData → Bool) (s : PublisherProcess) (now : Int)
    (hp : s.g_is_paused = true) (hc : (s.publisher.nextSample now).is_critical = false) :
    (step write_ok s (.publish now)).held = s.held := by
  simp [held, step, ReliabilityPublisher.publish, ReliabilityPublisher.sendOrQueue_paused, hp,
    hc]

end PublisherProcess

/-- C13. After any sequence of events from process start every sample in
`paused_reliable_messages` has its `is_critical` flag set. A `publish()` call made while the
flag is set that generates a non-critical sample leaves both writers and the queue exactly as
they were, and whatever is on a writer or in the queue after any further events was there
before that call or was offered by one of the further events: the dropped sample is the source
of no later write. In particular, in a run of `publish()` calls and pause toggles with at most
`2^32` calls (so that no sequence number is used twice), at the end no sample on the reliable
writer, on the best-effort writer or in the queue carries the dropped sample's sequence
number. -/
theorem dropped_sample_never_written (write_ok : TestData → Bool)
    (es1 es2 : List PublisherEvent) (now : Int) :
    (∀ q ∈ (PublisherProcess.run write_ok PublisherProcess.start
        es1).publisher.paused_reliable_messages, q.is_critical = true) ∧
    ((PublisherProcess.run write_ok PublisherProcess.start es1).g_is_paused = true →
      ((PublisherProcess.run write_ok PublisherProcess.start es1).publisher.nextSample
        now).is_critical = false →
      (PublisherProcess.run write_ok PublisherProcess.start
          (es1 ++ [.publish now])).publisher.reliable_writer_ =
        (PublisherProcess.run write_ok PublisherProcess.start es1).publisher.reliable_writer_ ∧
      (PublisherProcess.run write_ok PublisherProcess.start
          (es1 ++ [.publish now])).publisher.best_effort_writer_ =
        (PublisherProcess.run write_ok PublisherProcess.start
          es1).publisher.best_effort_writer_ ∧
      (PublisherProcess.run write_ok PublisherProcess.start
          (es1 ++ [.publish now])).publisher.paused_reliable_messages =
        (PublisherProcess.run write_ok PublisherProcess.start
          es1).publisher.paused_reliable_messages ∧
      ∀ w,
        (w ∈ (PublisherProcess.run write_ok PublisherProcess.start
            (es1 ++ .publish now :: es2)).publisher.reliable_writer_.written ∨
          w ∈ (PublisherProcess.run write_ok PublisherProcess.start
            (es1 ++ .publish now :: es2)).publisher.best_effort_writer_.written ∨
          w ∈ (PublisherProcess.run write_ok PublisherProcess.start
            (es1 ++ .publish now :: es2)).publisher.paused_reliable_messages) →
        (w ∈ (PublisherProcess.run write_ok PublisherProcess.start
            es1).publisher.reliable_writer_.written ∨
          w ∈ (PublisherProcess.run write_ok PublisherProcess.start
            es1).publisher.best_effort_writer_.written ∨
          w ∈ (PublisherProcess.run write_ok PublisherProcess.start
            es1).publisher.paused_reliable_messages) ∨
        w ∈ PublisherProcess.offeredAll write_ok
          (PublisherProcess.run write_ok PublisherProcess.start (es1 ++ [.publish now])) es2) ∧
    ((∀ e ∈ es1 ++ es2, PublisherProcess.isOffer e = false) →
      PublisherProcess.publishCalls es1 + 1 + PublisherProcess.publishCalls es2 ≤ UINT32_MOD →
      (PublisherProcess.run write_ok PublisherProcess.start es1).g_is_paused = true →
      ((PublisherProcess.run write_ok PublisherProcess.start es1).publisher.nextSample
        now).is_critical = false →
      ∀ w,
        (w ∈ (PublisherProcess.run write_ok PublisherProcess.start
            (es1 ++ .publish now :: es2)).publisher.reliable_writer_.written ∨
          w ∈ (PublisherProcess.run write_ok PublisherProcess.start
            (es1 ++ .publish now :: es2)).publisher.best_effort_writer_.written ∨
          w ∈ (PublisherProcess.run write_ok PublisherProcess.start
            (es1 ++ .publish now :: es2)).publisher.paused_reliable_messages) →
        w.sequence_number ≠
          ((PublisherProcess.run write_ok PublisherProcess.start es1).publisher.nextSample
            now).sequence_number) := by
  have hrun1 : PublisherProcess.run write_ok PublisherProcess.start (es1 ++ [.publish now]) =
      PublisherProcess.step write_ok
        (PublisherProcess.run write_ok PublisherProcess.start es1) (.publish now) := by
    rw [PublisherProcess.run_append]; rfl
  have hrun : PublisherProcess.run write_ok PublisherProcess.start
      (es1 ++ .publish now :: es2) =
      PublisherProcess.run write_ok
        (PublisherProcess.step write_ok
          (PublisherProcess.run write_ok PublisherProcess.start es1) (.publish now)) es2 := by
    rw [PublisherProcess.run_append]; rfl
  refine ⟨?_, ?_, ?_⟩
  · exact PublisherProcess.run_queue_critical write_ok es1 PublisherProcess.start
      (by simp [PublisherProcess.start, ReliabilityPublisher.new])
  · intro hp hc
    rw [hrun1, hrun]
    refine ⟨?_, ?_, ?_, ?_⟩
    · simp [PublisherProcess.step, ReliabilityPublisher.publish,
        ReliabilityPublisher.sendOrQueue_paused, hp, hc]
    · simp [PublisherProcess.step, ReliabilityPublisher.publish,
        ReliabilityPublisher.sendOrQueue_paused, hp, hc]
    · simp [PublisherProcess.step, ReliabilityPublisher.publish,
        ReliabilityPublisher.sendOrQueue_paused, hp, hc]
    · intro w hw
      have hwheld : w ∈ (PublisherProcess.run write_ok
          (PublisherProcess.step write_ok
            (PublisherProcess.run write_ok PublisherProcess.start es1) (.publish now))
          es2).held := by
        simp only [PublisherProcess.held, List.mem_append]
        tauto
      rcases PublisherProcess.run_held_from write_ok es2 _ w hwheld with h1 | h1
      · rw [PublisherProcess.step_publish_dropped write_ok _ now hp hc] at h1
        simp only [PublisherProcess.held, List.mem_append] at h1
        left
        tauto
      · exact Or.inr h1
  · intro hno hcount hp hc w hw
    have hstart : PublisherProcess.start.publisher.sequence_number_ = 0 := rfl
    obtain ⟨hseq1, hlt1, hheld1⟩ := PublisherProcess.run_held write_ok PublisherProcess.start
      (by rw [hstart]; unfold UINT32_MOD; omega) es1
      (fun e he => hno e (List.mem_append_left _ he)) (by rw [hstart]; omega)
    rw [hstart, Nat.zero_add, Nat.mod_eq_of_lt (by omega)] at hseq1
    have hd : ((PublisherProcess.run write_ok PublisherProcess.start es1).publisher.nextSample
        now).sequence_number = PublisherProcess.publishCalls es1 := hseq1
    rw [hd]
    rw [hrun] at hw
    obtain ⟨hseq', _, _⟩ := PublisherProcess.step_publish_held write_ok
      (PublisherProcess.run write_ok PublisherProcess.start es1) now
    rw [hseq1] at hseq'
    have hdrop := PublisherProcess.step_publish_dropped write_ok
      (PublisherProcess.run write_ok PublisherProcess.start es1) now hp hc
    have hmodlt : (PublisherProcess.publishCalls es1 + 1) % UINT32_MOD < UINT32_MOD :=
      Nat.mod_lt _ (by unfold UINT32_MOD; omega)
    have hcases : (PublisherProcess.publishCalls es1 + 1) % UINT32_MOD =
          PublisherProcess.publishCalls es1 + 1 ∨
        ((PublisherProcess.publishCalls es1 + 1) % UINT32_MOD = 0 ∧
          PublisherProcess.publishCalls es2 = 0) := by
      by_cases hlt : PublisherProcess.publishCalls es1 + 1 < UINT32_MOD
      · exact Or.inl (Nat.mod_eq_of_lt hlt)
      · have heq : PublisherProcess.publishCalls es1 + 1 = UINT32_MOD := by omega
        exact Or.inr ⟨by rw [heq]; exact Nat.mod_self _, by omega⟩
    obtain ⟨_, _, hheld2⟩ := PublisherProcess.run_held write_ok
      (PublisherProcess.step write_ok
        (PublisherProcess.run write_ok PublisherProcess.start es1) (.publish now))
      (by rw [hseq']; exact hmodlt) es2
      (fun e he => hno e (List.mem_append_right _ he))
      (by rw [hseq']; rcases hcases with h | ⟨h, h0⟩ <;> rw [h] <;> omega)
    have hwheld : w ∈ (PublisherProcess.run write_ok
        (PublisherProcess.step write_ok
          (PublisherProcess.run write_ok PublisherProcess.start es1) (.publish now)) es2).held := by
      simp only [PublisherProcess.held, List.mem_append]
      tauto
    rcases hheld2 w hwheld with h1 | ⟨h1, h2⟩
    · rw [hdrop] at h1
      rcases hheld1 w h1 with h3 | ⟨_, h3⟩
      · simp [PublisherProcess.held, PublisherProcess.start, ReliabilityPublisher.new] at h3
      · rw [hstart] at h3; omega
    · rw [hseq'] at h1 h2
      rcases hcases with h | ⟨h, h0⟩
      · rw [h] at h1; omega
      · rw [h, h0] at h2; omega

/-- C13, concrete run: pause, then `publish()` calls 0 (critical, queued) and 1 (non-critical,
dropped), resume, call 2. The reliable writer receives samples 0 and 2, the best-effort writer
sample 2, and sample 1 is on neither writer and not queued. -/
theorem dropped_sample_never_written_witness :
    ((PublisherProcess.run (fun _ => true) PublisherProcess.start
        ([.key_p, .publish 0] ++ .publish 1 ::
          [.key_p, .publish 2])).publisher.reliable_writer_.written.map
      TestData.sequence_number) = [0, 2] ∧
    ((PublisherProcess.run (fun _ => true) PublisherProcess.start
        ([.key_p, .publish 0] ++ .publish 1 ::
          [.key_p, .publish 2])).publisher.best_effort_writer_.written.map
      TestData.sequence_number) = [2] ∧
    ¬ ∃ w,
      (w ∈ (PublisherProcess.run (fun _ => true) PublisherProcess.start
          ([.key_p, .publish 0] ++ .publish 1 ::
            [.key_p, .publish 2])).publisher.reliable_writer_.written ∨
        w ∈ (PublisherProcess.run (fun _ => true) PublisherProcess.start
          ([.key_p, .publish 0] ++ .publish 1 ::
            [.key_p, .publish 2])).publisher.best_effort_writer_.written ∨
        w ∈ (PublisherProcess.run (fun _ => true) PublisherProcess.start
          ([.key_p, .publish 0] ++ .publish 1 ::
            [.key_p, .publish 2])).publisher.paused_reliable_messages) ∧
      w.sequence_number = 1 :=
  ⟨by decide, by decide, fun ⟨w, hw, h1⟩ =>
    (dropped_sample_never_written (fun _ => true) [.key_p, .publish 0] [.key_p, .publish 2]
      1).2.2 (by decide) (by decide) (by decide) (by decide) w hw h1⟩

/-! ## Ex6 ownership: `toggleController` -/

namespace StdMap

theorem find?_assign_self {K V : Type} [LinearOrder K] [DecidableEq K] (m : List (K × V))
    (k : K) (v : V) :
    find? (assign m k v) k = some v := by
  induction m with
  | nil => simp [assign, find?]
  | cons kv rest ih =>
    obtain ⟨k0, v0⟩ := kv
    simp only [assign]
    split_ifs with h1 h2
    · simp [find?]
    · simp [find?]
    · simp only [find?]
      rw [if_neg (fun h => h2 h.symm)]
      exact ih

theorem find?_assign_ne {K V : Type} [LinearOrder K] [DecidableEq K] (m : List (K × V))
    (k k' : K) (v : V) (hne : k' ≠ k) : find? (assign m k v) k' = find? m k' := by
  induction m with
  | nil => simp [assign, find?, Ne.symm hne]
  | cons kv rest ih =>
    obtain ⟨k0, v0⟩ := kv
    simp only [assign]
    split_ifs with h1 h2
    · simp [find?, Ne.symm hne]
    · subst h2
      simp [find?, Ne.symm hne]
    · simp only [find?]
      rw [ih]

theorem find?_eq_none_of_not_mem {K V : Type} [DecidableEq K] (m : List (K × V)) (k : K)
    (h : k ∉ keys m) : find? m k = none := by
  have := (contains_eq_false_iff m k).2 h
  simpa [contains] using this

end StdMap

namespace StdSet

theorem mem_erase {K : Type} [LinearOrder K] (s : List K) (x y : K)
    (hs : s.Sorted (· < ·)) : y ∈ erase s x ↔ y ≠ x ∧ y ∈ s := by
  induction s with
  | nil => simp [erase]
  | cons z rest ih =>
    have hs' : (∀ b ∈ rest, z < b) ∧ rest.Sorted (· < ·) := List.sorted_cons.1 hs
    simp only [erase]
    split_ifs with h
    · subst h
      constructor
      · intro hy
        exact ⟨ne_of_gt (hs'.1 y hy), List.mem_cons_of_mem _ hy⟩
      · rintro ⟨hne, hy⟩
        rcases List.mem_cons.1 hy with rfl | hy'
        · exact absurd rfl hne
        · exact hy'
    · simp only [List.mem_cons, ih hs'.2]
      constructor
      · rintro (rfl | ⟨h1, h2⟩)
        · exact ⟨fun h' => h h'.symm, Or.inl rfl⟩
        · exact ⟨h1, Or.inr h2⟩
      · rintro ⟨h1, rfl | h2⟩
        · exact Or.inl rfl
        · exact Or.inr ⟨h1, h2⟩

theorem insert_of_mem {K : Type} [LinearOrder K] (s : List K) (x : K)
    (hs : s.Sorted (· < ·)) (hx : x ∈ s) : insert s x = s := by
  induction s with
  | nil => simp at hx
  | cons z rest ih =>
    have hs' : (∀ b ∈ rest, z < b) ∧ rest.Sorted (· < ·) := List.sorted_cons.1 hs
    simp only [insert]
    rcases List.mem_cons.1 hx with rfl | hx'
    · simp
    · have hlt := hs'.1 x hx'
      rw [if_neg (not_lt.2 (le_of_lt hlt)), if_neg (ne_of_gt hlt), ih hs'.2 hx']

theorem erase_of_not_mem {K : Type} [LinearOrder K] (s : List K) (x : K) (hx : x ∉ s) :
    erase s x = s := by
  induction s with
  | nil => rfl
  | cons z rest ih =>
    simp only [erase]
    have h1 : x ≠ z := fun h => hx (h ▸ List.mem_cons_self _ _)
    rw [if_neg h1, ih (fun h => hx (List.mem_cons_of_mem _ h))]

theorem sorted_erase {K : Type} [LinearOrder K] (s : List K) (x : K)
    (hs : s.Sorted (· < ·)) : (erase s x).Sorted (· < ·) := by
  induction s with
  | nil => simp [erase]
  | cons z rest ih =>
    have hs' : (∀ b ∈ rest, z < b) ∧ rest.Sorted (· < ·) := List.sorted_cons.1 hs
    simp only [erase]
    split_ifs with h
    · exact hs'.2
    · rw [List.sorted_cons]
      exact ⟨fun b hb => hs'.1 b (((mem_erase rest x b hs'.2).1 hb).2), ih hs'.2⟩

end StdSet

namespace SteeringSubscriber

theorem controllerAt_toggle (s : SteeringSubscriber) (id : Int) :
    (s.toggleController id).controllerAt id =
      { s.controllerAt id with active := !(s.controllerAt id).active } := by
  unfold toggleController
  simp only
  split_ifs <;> simp [controllerAt, StdMap.find?_assign_self]

theorem active_strengths_toggle (s : SteeringSubscriber) (id : Int) :
    (s.toggleController id).active_strengths_ =
      if (s.controllerAt id).active = false
      then StdSet.insert s.active_strengths_ (s.controllerAt id).strength
      else StdSet.erase s.active_strengths_ (s.controllerAt id).strength := by
  unfold toggleController
  simp only
  cases h : (s.controllerAt id).active <;> simp

theorem toggle_withFlags (a1 a2 a3 : Bool) :
    (withFlags a1 a2 a3).toggleController 1 = withFlags (!a1) a2 a3 ∧
    (withFlags a1 a2 a3).toggleController 2 = withFlags a1 (!a2) a3 ∧
    (withFlags a1 a2 a3).toggleController 3 = withFlags a1 a2 (!a3) := by
  cases a1 <;> cases a2 <;> cases a3 <;> decide

theorem toggleAll_withFlags (ids : List Int) (hids : ∀ id ∈ ids, id = 1 ∨ id = 2 ∨ id = 3) :
    ∀ a1 a2 a3, ∃ b1 b2 b3, (withFlags a1 a2 a3).toggleAll ids = withFlags b1 b2 b3 := by
  induction ids with
  | nil => intro a1 a2 a3; exact ⟨a1, a2, a3, rfl⟩
  | cons id rest ih =>
    intro a1 a2 a3
    have hrest := ih (fun i hi => hids i (List.mem_cons_of_mem _ hi))
    have hstep : (withFlags a1 a2 a3).toggleAll (id :: rest) =
        ((withFlags a1 a2 a3).toggleController id).toggleAll rest := rfl
    rw [hstep]
    rcases hids id (List.mem_cons_self _ _) with rfl | rfl | rfl
    · rw [(toggle_withFlags a1 a2 a3).1]; exact hrest _ _ _
    · rw [(toggle_withFlags a1 a2 a3).2.1]; exact hrest _ _ _
    · rw [(toggle_withFlags a1 a2 a3).2.2]; exact hrest _ _ _

theorem init_eq_withFlags : new.init = withFlags true false false := by decide

end SteeringSubscriber

/-- C14 fails as stated: after `init`, one `toggleController(2)` makes ADAS active with
strengths {10, 20}, a second one makes it inactive again with strengths {10}; likewise one
`toggleController(1)` deactivates Manual and a second one activates it again. -/
theorem toggle_twice_differs_from_once :
    ((SteeringSubscriber.new.init.toggleController 2).controllerAt 2).active = true ∧
    (SteeringSubscriber.new.init.toggleController 2).active_strengths_ = [10, 20] ∧
    (((SteeringSubscriber.new.init.toggleController 2).toggleController 2).controllerAt
      2).active = false ∧
    ((SteeringSubscriber.new.init.toggleController 2).toggleController 2).active_strengths_ =
      [10] ∧
    ((SteeringSubscriber.new.init.toggleController 1).controllerAt 1).active = false ∧
    (SteeringSubscriber.new.init.toggleController 1).active_strengths_ = [] ∧
    (((SteeringSubscriber.new.init.toggleController 1).toggleController 1).controllerAt
      1).active = true ∧
    ((SteeringSubscriber.new.init.toggleController 1).toggleController 1).active_strengths_ =
      [10] := by
  decide

/-- C14 as amended. `toggleController` is a toggle: one call negates the controller's `active`
flag and a second call restores it; after one call the controller's strength is a member of
`active_strengths_` exactly when the controller was inactive before, after two calls exactly
when it was active before. What is idempotent are the set operations it uses: inserting a
strength twice, or erasing it twice, is the same as doing so once. -/
theorem toggle_flips_flag_and_membership (s : SteeringSubscriber) (id : Int)
    (hs : s.active_strengths_.Sorted (· < ·)) :
    ((s.toggleController id).controllerAt id).active = (!(s.controllerAt id).active) ∧
    (((s.toggleController id).toggleController id).controllerAt id).active =
      (s.controllerAt id).active ∧
    ((s.controllerAt id).strength ∈ (s.toggleController id).active_strengths_ ↔
      (s.controllerAt id).active = false) ∧
    ((s.controllerAt id).strength ∈
        ((s.toggleController id).toggleController id).active_strengths_ ↔
      (s.controllerAt id).active = true) ∧
    (∀ x, StdSet.insert (StdSet.insert s.active_strengths_ x) x =
        StdSet.insert s.active_strengths_ x ∧
      StdSet.erase (StdSet.erase s.active_strengths_ x) x =
        StdSet.erase s.active_strengths_ x) := by
  have h1 := SteeringSubscriber.controllerAt_toggle s id
  have h2 := SteeringSubscriber.controllerAt_toggle (s.toggleController id) id
  have a1 := SteeringSubscriber.active_strengths_toggle s id
  have a2 := SteeringSubscriber.active_strengths_toggle (s.toggleController id) id
  rw [h1] at h2 a2
  simp only at a2
  refine ⟨by rw [h1], by rw [h2]; simp, ?_, ?_, ?_⟩
  · rw [a1]
    cases hflag : (s.controllerAt id).active with
    | false => simp [StdSet.mem_insert]
    | true => simp [StdSet.mem_erase _ _ _ hs]
  · rw [a2, a1]
    cases hflag : (s.controllerAt id).active with
    | false =>
      simp [StdSet.mem_erase _ _ _ (StdSet.sorted_insert _ _ hs)]
    | true => simp [StdSet.mem_insert]
  · intro x
    refine ⟨?_, ?_⟩
    · exact StdSet.insert_of_mem _ _ (StdSet.sorted_insert _ _ hs)
        ((StdSet.mem_insert _ _ _).2 (Or.inl rfl))
    · exact StdSet.erase_of_not_mem _ _
        (fun h => ((StdSet.mem_erase _ _ _ hs).1 h).1 rfl)

/-- C14, concrete run on the state after `init`: toggling ADAS twice. -/
theorem toggle_flips_flag_and_membership_witness :
    (SteeringSubscriber.new.init.active_strengths_.Sorted (· < ·)) ∧
    ((SteeringSubscriber.new.init.toggleController 2).controllerAt 2).active =
      (!(SteeringSubscriber.new.init.controllerAt 2).active) ∧
    (((SteeringSubscriber.new.init.toggleController 2).toggleController 2).controllerAt
        2).active = (SteeringSubscriber.new.init.controllerAt 2).active :=
  ⟨by decide,
    (toggle_flips_flag_and_membership SteeringSubscriber.new.init 2 (by decide)).1,
    (toggle_flips_flag_and_membership SteeringSubscriber.new.init 2 (by decide)).2.1⟩

/-- C15. After the constructor, `init()` and any sequence of `toggleController(id)` calls with
`id` in {1, 2, 3}, `active_strengths_` is exactly the set of strengths of the records of
`controllers_` whose `active` flag is true; as lists in iteration order the two are equal.
After `init()` alone it is {10}. -/
theorem active_strengths_match_flags (ids : List Int)
    (hids : ∀ id ∈ ids, id = 1 ∨ id = 2 ∨ id = 3) :
    (∀ x, x ∈ (SteeringSubscriber.new.init.toggleAll ids).active_strengths_ ↔
      ∃ c ∈ (SteeringSubscriber.new.init.toggleAll ids).controllers_,
        c.2.active = true ∧ c.2.strength = x) ∧
    (SteeringSubscriber.new.init.toggleAll ids).active_strengths_ =
      ((SteeringSubscriber.new.init.toggleAll ids).controllers_.filter
        (fun c => c.2.active)).map (fun c => c.2.strength) ∧
    SteeringSubscriber.new.init.active_strengths_ = [10] := by
  have hlist : (SteeringSubscriber.new.init.toggleAll ids).active_strengths_ =
      ((SteeringSubscriber.new.init.toggleAll ids).controllers_.filter
        (fun c => c.2.active)).map (fun c => c.2.strength) := by
    rw [SteeringSubscriber.init_eq_withFlags]
    obtain ⟨b1, b2, b3, hb⟩ := SteeringSubscriber.toggleAll_withFlags ids hids true false false
    rw [hb]
    cases b1 <;> cases b2 <;> cases b3 <;> decide
  refine ⟨?_, hlist, by decide⟩
  intro x
  rw [hlist]
  simp only [List.mem_map, List.mem_filter]
  constructor
  · rintro ⟨c, ⟨hc, ha⟩, hx⟩
    exact ⟨c, hc, ha, hx⟩
  · rintro ⟨c, hc, ha, hx⟩
    exact ⟨c, ⟨hc, ha⟩, hx⟩

/-- C15, concrete run: after `init()` and the toggles 2, 3, 1, 3 the active strengths are {20},
the strength of the one controller whose flag is true. -/
theorem active_strengths_match_flags_witness :
    (SteeringSubscriber.new.init.toggleAll [2, 3, 1, 3]).active_strengths_ = [20] ∧
    (SteeringSubscriber.new.init.toggleAll [2, 3, 1, 3]).active_strengths_ =
      ((SteeringSubscriber.new.init.toggleAll [2, 3, 1, 3]).controllers_.filter
        (fun c => c.2.active)).map (fun c => c.2.strength) :=
  ⟨by decide, (active_strengths_match_flags [2, 3, 1, 3] (by decide)).2.1⟩

/-- C19. `toggleController(id)` for an `id` that is not a key of `controllers_` creates the
default record for `id` (empty type, strength 0), sets its `active` flag, and inserts strength
0 into `active_strengths_`: every other record of `controllers_` is as before, and the members
of `active_strengths_` are the old ones and 0. -/
theorem unknown_toggle_registers_default (s : SteeringSubscriber) (id : Int)
    (hid : id ∉ StdMap.keys s.controllers_) :
    StdMap.find? (s.toggleController id).controllers_ id =
        some { type := "", active := true, strength := 0 } ∧
    (∀ k, k ≠ id →
      StdMap.find? (s.toggleController id).controllers_ k = StdMap.find? s.controllers_ k) ∧
    (s.toggleController id).active_strengths_ = StdSet.insert s.active_strengths_ 0 ∧
    (∀ x, x ∈ (s.toggleController id).active_strengths_ ↔ x = 0 ∨ x ∈ s.active_strengths_) := by
  have hnone := StdMap.find?_eq_none_of_not_mem s.controllers_ id hid
  have hat : s.controllerAt id = SteeringSubscriber.mkInfo "" 0 := by
    simp [SteeringSubscriber.controllerAt, hnone]
  have hact : (s.toggleController id).active_strengths_ =
      StdSet.insert s.active_strengths_ 0 := by
    rw [SteeringSubscriber.active_strengths_toggle, hat]
    simp [SteeringSubscriber.mkInfo]
  have hctl : (s.toggleController id).controllers_ =
      StdMap.assign s.controllers_ id { type := "", active := true, strength := 0 } := by
    unfold SteeringSubscriber.toggleController
    simp only [hat]
    simp [SteeringSubscriber.mkInfo]
  refine ⟨?_, ?_, hact, ?_⟩
  · rw [hctl, StdMap.find?_assign_self]
  · intro k hk
    rw [hctl, StdMap.find?_assign_ne _ _ _ _ hk]
  · intro x
    rw [hact, StdSet.mem_insert]

/-- C19, concrete run: after `init()`, `toggleController(7)` adds the record of 7 and strength
0; the three configured controllers and strength 10 stay. -/
theorem unknown_toggle_registers_default_witness :
    (SteeringSubscriber.new.init.toggleController 7).active_strengths_ = [0, 10] ∧
    StdMap.find? (SteeringSubscriber.new.init.toggleController 7).controllers_ 7 =
      some { type := "", active := true, strength := 0 } ∧
    StdMap.find? (SteeringSubscriber.new.init.toggleController 7).controllers_ 1 =
      StdMap.find? SteeringSubscriber.new.init.controllers_ 1 :=
  ⟨by decide,
    (unknown_toggle_registers_default SteeringSubscriber.new.init 7 (by decide)).1,
    (unknown_toggle_registers_default SteeringSubscriber.new.init 7 (by decide)).2.1 1
      (by decide)⟩

/-! ## Ex6 service discovery: storing an update -/

namespace StdMap

theorem length_assign {K V : Type} [LinearOrder K] (m : List (K × V)) (k : K) (v : V) :
    (k ∈ keys m → (keys m).Sorted (· < ·) → (assign m k v).length = m.length) ∧
    (k ∉ keys m → (assign m k v).length = m.length + 1) ∧
    m.length ≤ (assign m k v).length := by
  induction m with
  | nil => simp [assign, keys]
  | cons kv rest ih =>
    obtain ⟨k0, v0⟩ := kv
    obtain ⟨ih1, ih2, ih3⟩ := ih
    simp only [assign]
    split_ifs with h1 h2
    · refine ⟨?_, by simp, by simp⟩
      intro hk hs
      have hs' : (∀ b ∈ keys rest, k0 < b) ∧ (keys rest).Sorted (· < ·) := by
        simpa [keys, List.sorted_cons] using hs
      have hk' : k = k0 ∨ k ∈ keys rest := by simpa [keys] using hk
      rcases hk' with rfl | hk'
      · exact absurd h1 (lt_irrefl _)
      · exact absurd (lt_trans h1 (hs'.1 k hk')) (lt_irrefl _)
    · subst h2
      refine ⟨by simp, ?_, by simp⟩
      intro hk
      exact absurd (by simp [keys]) hk
    · refine ⟨?_, ?_, by simpa using ih3⟩
      · intro hk hs
        have hs' : (∀ b ∈ keys rest, k0 < b) ∧ (keys rest).Sorted (· < ·) := by
          simpa [keys, List.sorted_cons] using hs
        have hk' : k = k0 ∨ k ∈ keys rest := by simpa [keys] using hk
        rcases hk' with rfl | hk'
        · exact absurd rfl h2
        · simp [ih1 hk' hs'.2]
      · intro hk
        have hk' : k ∉ keys rest := fun h => hk (by simp [keys] at h ⊢; exact Or.inr h)
        simp [ih2 hk']

end StdMap

/-- C16. Storing an update `info` changes only the record of `info.service_name`: the lookup
of every other key gives what it gave before, whatever the timestamps are; every key of the
map is still a key afterwards and the number of records does not go down. -/
theorem update_changes_only_its_key (services_ : List (String × ServiceInfo))
    (info : ServiceInfo) :
    (∀ k, k ≠ info.service_name →
      StdMap.find? (ServiceListener.on_data_available services_ info) k =
        StdMap.find? services_ k) ∧
    (∀ k ∈ StdMap.keys services_,
      k ∈ StdMap.keys (ServiceListener.on_data_available services_ info)) ∧
    services_.length ≤ (ServiceListener.on_data_available services_ info).length := by
  refine ⟨?_, ?_, ?_⟩
  · intro k hk
    exact StdMap.find?_assign_ne _ _ _ _ hk
  · intro k hk
    exact (StdMap.mem_keys_assign _ _ _ _).2 (Or.inr hk)
  · exact (StdMap.length_assign services_ info.service_name info).2.2

/-- C16, concrete run: with a stale record of `a` (stamped 1) in the map, an update for `b`
stamped far later leaves the record of `a` in place. -/
theorem update_changes_only_its_key_witness :
    StdMap.find?
        (ServiceListener.on_data_available [("a", serviceAt "a" 1)]
          (serviceAt "b" 90000000000)) "a" =
      some (serviceAt "a" 1) :=
  ((update_changes_only_its_key [("a", serviceAt "a" 1)] (serviceAt "b" 90000000000)).1 "a"
    (by decide)).trans (by decide)

/-- C17. After an update `info` is stored in a map with its keys in ascending order, looking
up `info.service_name` returns `info`, so the timestamp found is the one the update carries. If
the key was present the number of records is unchanged, otherwise it grows by one. -/
theorem update_then_lookup (services_ : List (String × ServiceInfo)) (info : ServiceInfo)
    (hs : (StdMap.keys services_).Sorted (· < ·)) :
    StdMap.find? (ServiceListener.on_data_available services_ info) info.service_name =
        some info ∧
    (StdMap.find? (ServiceListener.on_data_available services_ info) info.service_name).map
        ServiceInfo.timestamp = some info.timestamp ∧
    (info.service_name ∈ StdMap.keys services_ →
      (ServiceListener.on_data_available services_ info).length = services_.length) ∧
    (info.service_name ∉ StdMap.keys services_ →
      (ServiceListener.on_data_available services_ info).length = services_.length + 1) := by
  have hfind : StdMap.find? (ServiceListener.on_data_available services_ info)
      info.service_name = some info := StdMap.find?_assign_self _ _ _
  refine ⟨hfind, by rw [hfind]; rfl, ?_, ?_⟩
  · intro hk
    exact (StdMap.length_assign services_ info.service_name info).1 hk hs
  · intro hk
    exact (StdMap.length_assign services_ info.service_name info).2.1 hk

/-- C17, concrete run: a refresh of the only record `a` keeps one record and returns the new
timestamp; a first update for `b` makes two records. -/
theorem update_then_lookup_witness :
    (StdMap.find? (ServiceListener.on_data_available [("a", serviceAt "a" 1)]
        (serviceAt "a" 2)) "a").map ServiceInfo.timestamp = some 2 ∧
    (ServiceListener.on_data_available [("a", serviceAt "a" 1)] (serviceAt "a" 2)).length = 1 ∧
    (ServiceListener.on_data_available [("a", serviceAt "a" 1)] (serviceAt "b" 2)).length = 2 :=
  ⟨(update_then_lookup [("a", serviceAt "a" 1)] (serviceAt "a" 2)
      (List.sorted_singleton _)).2.1,
    (update_then_lookup [("a", serviceAt "a" 1)] (serviceAt "a" 2)
      (List.sorted_singleton _)).2.2.1 (by decide),
    (update_then_lookup [("a", serviceAt "a" 1)] (serviceAt "b" 2)
      (List.sorted_singleton _)).2.2.2 (by decide)⟩

/-! ## Ex3 reliability, subscriber side: the largest sequence number -/

/-- C18, the code at the failing input. For a listener holding values of its C++ types,
processing sequence number 4294967295 never returns, whatever the fuel: the new key is the
largest key, and the scan `for (uint32_t i = first_seq; i <= last_seq; i++)` with
`last_seq = 4294967295` has a condition that is true for every `uint32_t`. -/
theorem scan_never_ends_at_uint32_max (fuel : Nat) (l : ReliabilityListener) (crit : Bool)
    (hwt : ReliabilityListener.WellTyped l) :
    ReliabilityListener.on_data_available fuel l 4294967295 crit = none := by
  rcases h : ReliabilityListener.on_data_available fuel l 4294967295 crit with _ | l'
  · rfl
  · exfalso
    obtain ⟨hrecv, hc, _⟩ := ReliabilityListener.on_data_available_spec fuel l l' 4294967295
      crit hwt.1 hwt.2.1 (by unfold UINT32_MOD; omega) hwt.2.2 h
    have hmem : 4294967295 ∈ StdMap.keys l'.received_sequences_ := by
      rw [hrecv]; exact (StdMap.mem_keys_assign _ _ _ _).2 (Or.inl rfl)
    have := hc.2.1 _ hmem
    unfold UINT32_MOD at this
    omega

/-- C18, concrete run: a fresh listener given 4294967295 as its first sequence number does not
return with fuel 1000; given 0 it returns with an empty gap report. -/
theorem scan_never_ends_at_uint32_max_witness :
    ReliabilityListener.on_data_available 1000 ReliabilityListener.new 4294967295 true = none ∧
    ReliabilityListener.on_data_available 1000 ReliabilityListener.new 0 true =
      some { received_sequences_ := [(0, true)], missing_sequences_ := [],
             last_continuous_seq_ := 0 } :=
  ⟨scan_never_ends_at_uint32_max 1000 ReliabilityListener.new true
      (by simp [ReliabilityListener.WellTyped, ReliabilityListener.new, StdMap.keys,
        UINT32_MOD]),
    by decide⟩

/-! ## Ex3 reliability, publisher side: the result of `publish` -/

/-- C20 fails as stated: when the transport refuses every write, `publish` on a fresh publisher
with the flag clear still returns `true`. -/
theorem publish_reports_success_on_failed_write :
    (DataWriter.write (fun _ => false) ReliabilityPublisher.new.reliable_writer_
        (ReliabilityPublisher.new.nextSample 0)).2 = false ∧
    (ReliabilityPublisher.new.publish (fun _ => false) false 0).2 = true := by
  decide

/-- C20 as amended. `publish` returns `true` whatever the transport answers to the writes, and
the publisher afterwards does not depend on these answers: it is the same as when every write
succeeds. Nothing is retried: with the flag clear the reliable writer is handed each queued
sample once and then the new sample once, the best-effort writer the new sample once, and the
queue is emptied even if writes failed. -/
theorem publish_ignores_write_result (write_ok : TestData → Bool) (g_is_paused : Bool)
    (now : Int) (p : ReliabilityPublisher) :
    (p.publish write_ok g_is_paused now).2 = true ∧
    p.publish write_ok g_is_paused now = p.publish (fun _ => true) g_is_paused now ∧
    (p.publish write_ok false now).1.reliable_writer_.written =
      p.reliable_writer_.written ++ p.paused_reliable_messages ++ [p.nextSample now] ∧
    (p.publish write_ok false now).1.best_effort_writer_.written =
      p.best_effort_writer_.written ++ [p.nextSample now] ∧
    (p.publish write_ok false now).1.paused_reliable_messages = [] := by
  refine ⟨rfl, ?_, ?_, ?_, ?_⟩
  · cases g_is_paused with
    | false =>
      simp [ReliabilityPublisher.publish, ReliabilityPublisher.sendOrQueue_running]
    | true =>
      simp [ReliabilityPublisher.publish, ReliabilityPublisher.sendOrQueue_paused]
  · simp [ReliabilityPublisher.publish, ReliabilityPublisher.sendOrQueue_running]
  · simp [ReliabilityPublisher.publish, ReliabilityPublisher.sendOrQueue_running]
  · simp [ReliabilityPublisher.publish, ReliabilityPublisher.sendOrQueue_running]

/-! ## Ex6 ownership: eligibility, not a single winner -/

namespace StdSet

theorem mem_foldl_insert {K : Type} [LinearOrder K] (extra : List K) :
    ∀ (s : List K) (x : K), x ∈ extra.foldl insert s ↔ x ∈ s ∨ x ∈ extra := by
  induction extra with
  | nil => intro s x; simp
  | cons y rest ih =>
    intro s x
    rw [List.foldl_cons, ih, mem_insert]
    simp only [List.mem_cons]
    tauto

end StdSet

/-- C23. The flag `is_highest_active` is true for every active set and every strength. A sample
whose strength is in `A` is accepted also after any further strengths `extra`, smaller or
greater, have been inserted into `A`: it is printed, and a counter below `INT_MAX` goes up by
one. And for two active sets that agree on membership of the sample's own strength the
listener ends in the same state and prints in the one case exactly when it prints in the
other. -/
theorem acceptance_depends_on_own_strength {R : Type} (A extra : List Nat)
    (l : SteeringListener) (command : SteeringCommand R) :
    (∀ (B : List Nat) (c : Nat), SteeringListener.is_highest_active B c = true) ∧
    (SteeringListener.getStrengthFromName command.controller_name ∈ A →
      (l.received_count_ < INT_MAX →
        (SteeringListener.on_data_available (extra.foldl StdSet.insert A) l
          command).1.received_count_ = l.received_count_ + 1) ∧
      ∃ screen, (SteeringListener.on_data_available (extra.foldl StdSet.insert A) l
          command).2 = some screen ∧ screen.command = command) ∧
    (∀ B : List Nat,
      (SteeringListener.getStrengthFromName command.controller_name ∈ A ↔
        SteeringListener.getStrengthFromName command.controller_name ∈ B) →
      (SteeringListener.on_data_available A l command).1 =
        (SteeringListener.on_data_available B l command).1 ∧
      (SteeringListener.on_data_available A l command).2.isSome =
        (SteeringListener.on_data_available B l command).2.isSome) := by
  refine ⟨SteeringListener.is_highest_active_eq_true, ?_, ?_⟩
  · intro hmem
    have hmem' : SteeringListener.getStrengthFromName command.controller_name ∈
        extra.foldl StdSet.insert A := (StdSet.mem_foldl_insert extra A _).2 (Or.inl hmem)
    rw [SteeringListener.on_data_available_of_mem _ l command hmem']
    exact ⟨fun hlt => SteeringListener.incremented_of_lt _ hlt, _, rfl, rfl⟩
  · intro B hiff
    by_cases hA : SteeringListener.getStrengthFromName command.controller_name ∈ A
    · rw [SteeringListener.on_data_available_of_mem A l command hA,
        SteeringListener.on_data_available_of_mem B l command (hiff.1 hA)]
      exact ⟨rfl, rfl⟩
    · rw [SteeringListener.on_data_available_of_not_mem A l command hA,
        SteeringListener.on_data_available_of_not_mem B l command (fun h => hA (hiff.2 h))]
      exact ⟨rfl, rfl⟩

/-- C23, concrete run: a Manual sample (strength 10) is accepted with only strength 10 active
and still accepted after the greater strengths 20 and 30 have been added. -/
theorem acceptance_depends_on_own_strength_witness :
    SteeringListener.getStrengthFromName (commandFrom "Manual Steering").controller_name ∈
        [10] ∧
    [20, 30].foldl StdSet.insert [10] = [10, 20, 30] ∧
    (0 : Int) < INT_MAX ∧
    (SteeringListener.on_data_available ([20, 30].foldl StdSet.insert [10])
        { received_count_ := 0 } (commandFrom "Manual Steering")).1.received_count_ = 0 + 1 :=
  ⟨by decide, by decide, by decide,
    ((acceptance_depends_on_own_strength [10] [20, 30] { received_count_ := 0 }
      (commandFrom "Manual Steering")).2.1 (by decide)).1 (by decide)⟩

/-! ## Ex4 history: limit 0 -/

/-- The rows on the screen after `xs` have been delivered to a fresh listener with limit `d`. -/
theorem snapshot_rows_of_limit {R : Type} (d : Nat) (xs : List (SensorData R)) :
    (HistoryListener.deliverAll ((HistoryListener.new R).setDisplayLimit d, []) xs).2 =
        xs.drop (xs.length - d) ∧
    (HistoryListener.deliverAll ((HistoryListener.new R).setDisplayLimit d, []) xs).1.history_ =
        xs ∧
    (HistoryListener.deliverAll ((HistoryListener.new R).setDisplayLimit d,
        []) xs).1.display_limit_ = d := by
  obtain ⟨h1, h2, h3, h4⟩ := HistoryListener.deliverAll_eq xs
    ((HistoryListener.new R).setDisplayLimit d) []
  refine ⟨?_, by simpa [HistoryListener.setDisplayLimit, HistoryListener.new] using h1,
    by simpa [HistoryListener.setDisplayLimit, HistoryListener.new] using h2⟩
  by_cases hx : xs = []
  · rw [h4 hx, hx]; simp
  · rw [h3 hx]
    simp [HistoryListener.setDisplayLimit, HistoryListener.new]

/-- C24. With `display_limit_` set to 0 every append shows an empty window: after the sample
is pushed, `start_idx` equals `history_.size()`, the loop of lines 72-85 started there prints no
row, and so the screen is empty after any number of samples delivered to a fresh listener. -/
theorem zero_limit_window_empty {R : Type} (l : HistoryListener R) (data : SensorData R)
    (xs : List (SensorData R)) :
    (HistoryListener.on_data_available (l.setDisplayLimit 0) data).1.start_idx =
      (HistoryListener.on_data_available (l.setDisplayLimit 0) data).1.history_.length ∧
    (∀ n, HistoryListener.displayRows
      (HistoryListener.on_data_available (l.setDisplayLimit 0) data).1.history_ n
      (HistoryListener.on_data_available (l.setDisplayLimit 0) data).1.history_.length = []) ∧
    (HistoryListener.on_data_available (l.setDisplayLimit 0) data).2 = [] ∧
    (HistoryListener.deliverAll ((HistoryListener.new R).setDisplayLimit 0, []) xs).2 = [] := by
  refine ⟨?_, ?_, ?_, ?_⟩
  · simp [HistoryListener.on_data_available, HistoryListener.start_idx,
      HistoryListener.setDisplayLimit]
  · intro n
    rw [HistoryListener.displayRows_eq]
    simp
  · obtain ⟨_, _, h3⟩ := HistoryListener.on_data_available_eq (l.setDisplayLimit 0) data
    rw [h3]
    simp [HistoryListener.setDisplayLimit]
  · rw [(snapshot_rows_of_limit 0 xs).1]
    simp

/-! ## Ex1 domain: the command-line argument -/

/-- C25, the code at the failing input and in general. Given the argument `12`, both `main`
functions go on with domain id 1 instead of returning 1. In general `main` returns 1 when the
number of arguments is not one or the first character of the argument is not a digit, and
otherwise starts with the value of that first digit, whatever follows it: only `argv[1][0]` is
read. -/
theorem main_reads_only_first_character :
    DomainTestPublisher.main ["DomainTestPublisher", "12"] = .started 1 ∧
    DomainTestSubscriber.main ["DomainTestSubscriber", "12"] = .started 1 ∧
    (∀ argv, DomainTestSubscriber.main argv = DomainTestPublisher.main argv) ∧
    (∀ argv d, DomainTestPublisher.main argv = .started d ↔
      argv.length = 2 ∧ 0 ≤ d ∧ d ≤ 9 ∧ firstCharCode (argv.getD 1 "") = 48 + d) ∧
    (∀ argv, (¬ ∃ d, DomainTestPublisher.main argv = .started d) →
      DomainTestPublisher.main argv = .returned 1) ∧
    (∀ (prog : String) (c : Char) (rest : List Char), 48 ≤ c.toNat → c.toNat ≤ 57 →
      DomainTestPublisher.main [prog, String.mk (c :: rest)] =
        .started ((c.toNat : Int) - 48)) := by
  refine ⟨by decide, by decide, fun _ => rfl, ?_, ?_, ?_⟩
  · intro argv d
    unfold DomainTestPublisher.main
    by_cases hlen : argv.length = 2
    · simp only [hlen, ne_eq, not_true_eq_false, if_false]
      by_cases hd : firstCharCode (argv.getD 1 "") - 48 < 0 ∨
          firstCharCode (argv.getD 1 "") - 48 > 9
      · rw [if_pos hd]
        constructor
        · intro h; cases h
        · rintro ⟨_, h0, h9, hc⟩
          omega
      · rw [if_neg hd]
        constructor
        · intro h
          have hd' : firstCharCode (argv.getD 1 "") - 48 = d := by
            injection h
          refine ⟨trivial, ?_, ?_, ?_⟩ <;> omega
        · rintro ⟨_, h0, h9, hc⟩
          have : firstCharCode (argv.getD 1 "") - 48 = d := by omega
          rw [this]
    · simp only [ne_eq, hlen, not_false_eq_true, if_true, false_and, iff_false]
      intro h; cases h
  · intro argv hno
    unfold DomainTestPublisher.main at hno ⊢
    by_cases hlen : argv.length = 2
    · simp only [hlen, ne_eq, not_true_eq_false, if_false] at hno ⊢
      by_cases hd : firstCharCode (argv.getD 1 "") - 48 < 0 ∨
          firstCharCode (argv.getD 1 "") - 48 > 9
      · rw [if_pos hd]
      · rw [if_neg hd] at hno
        exact absurd ⟨_, rfl⟩ hno
    · simp [hlen]
  · intro prog c rest h1 h2
    unfold DomainTestPublisher.main
    have hcode : firstCharCode ([prog, String.mk (c :: rest)].getD 1 "") = (c.toNat : Int) := by
      simp [firstCharCode]
    simp only [List.length_cons, List.length_nil, ne_eq, hcode]
    have hd : ¬ (((c.toNat : Int) - 48 < 0) ∨ ((c.toNat : Int) - 48 > 9)) := by omega
    rw [if_neg (by decide), if_neg hd]

/-! ## Ex5/Ex6 ownership: the two strength tables -/

/-- C29. For each `ControllerType` the strength that `SteeringPublisher`'s constructor assigns
(10, 20, 30) is what `getStrengthFromName` returns for the name the same constructor assigns,
and it is the strength of the subscriber's controller 1, 2, 3. Every name other than the three
maps to 0, which is the strength of none of the three. -/
theorem strength_tables_agree :
    (∀ type : ControllerType,
      SteeringListener.getStrengthFromName (SteeringPublisher.new type).controller_name =
        (SteeringPublisher.new type).ownership_strength_) ∧
    (SteeringPublisher.new .MANUAL).ownership_strength_ = 10 ∧
    (SteeringPublisher.new .ADAS).ownership_strength_ = 20 ∧
    (SteeringPublisher.new .EMERGENCY).ownership_strength_ = 30 ∧
    SteeringSubscriber.new.controllers_.map (fun c => (c.1, c.2.strength)) =
      [(1, (SteeringPublisher.new .MANUAL).ownership_strength_),
       (2, (SteeringPublisher.new .ADAS).ownership_strength_),
       (3, (SteeringPublisher.new .EMERGENCY).ownership_strength_)] ∧
    (∀ name : String,
      (∀ type : ControllerType, name ≠ (SteeringPublisher.new type).controller_name) →
      SteeringListener.getStrengthFromName name = 0) ∧
    (∀ type : ControllerType, (SteeringPublisher.new type).ownership_strength_ ≠ 0) := by
  refine ⟨?_, rfl, rfl, rfl, by decide, ?_, ?_⟩
  · intro type
    cases type <;> decide
  · intro name hname
    have h1 := hname .MANUAL
    have h2 := hname .ADAS
    have h3 := hname .EMERGENCY
    simp only [SteeringPublisher.new] at h1 h2 h3
    simp [SteeringListener.getStrengthFromName, h1, h2, h3]
  · intro type
    cases type <;> decide

/-! ## Ex6 ownership: toggling twice -/

namespace SteeringSubscriber

theorem toggle_twice_withFlags (a1 a2 a3 : Bool) (id : Int)
    (hid : id = 1 ∨ id = 2 ∨ id = 3) :
    ((withFlags a1 a2 a3).toggleController id).toggleController id = withFlags a1 a2 a3 := by
  rcases hid with rfl | rfl | rfl
  · rw [(toggle_withFlags a1 a2 a3).1, (toggle_withFlags (!a1) a2 a3).1, Bool.not_not]
  · rw [(toggle_withFlags a1 a2 a3).2.1, (toggle_withFlags a1 (!a2) a3).2.1, Bool.not_not]
  · rw [(toggle_withFlags a1 a2 a3).2.2, (toggle_withFlags a1 a2 (!a3)).2.2, Bool.not_not]

theorem sorted_withFlags (a1 a2 a3 : Bool) :
    (withFlags a1 a2 a3).active_strengths_.Sorted (· < ·) := by
  cases a1 <;> cases a2 <;> cases a3 <;> decide

end SteeringSubscriber

/-- C30. In every state `s` reached from the constructor and `init()` by toggles of ids in
{1, 2, 3}, and for every `id` in {1, 2, 3}: two calls of `toggleController(id)` give back `s`,
with `controllers_` and `active_strengths_` as before. One call leaves the record of every
other id as it was, changes the record of `id` only in its `active` flag, which it negates,
changes membership in `active_strengths_` of no strength other than that of controller `id`,
and reverses the membership of that one. -/
theorem toggle_is_involution (ids : List Int) (id : Int)
    (hids : ∀ i ∈ ids, i = 1 ∨ i = 2 ∨ i = 3) (hid : id = 1 ∨ id = 2 ∨ id = 3) :
    (((SteeringSubscriber.new.init.toggleAll ids).toggleController id).toggleController id =
      SteeringSubscriber.new.init.toggleAll ids) ∧
    (∀ k, k ≠ id →
      StdMap.find? ((SteeringSubscriber.new.init.toggleAll ids).toggleController id).controllers_
          k =
        StdMap.find? (SteeringSubscriber.new.init.toggleAll ids).controllers_ k) ∧
    (((SteeringSubscriber.new.init.toggleAll ids).toggleController id).controllerAt id =
      { (SteeringSubscriber.new.init.toggleAll ids).controllerAt id with
        active := !((SteeringSubscriber.new.init.toggleAll ids).controllerAt id).active }) ∧
    (∀ x, x ≠ ((SteeringSubscriber.new.init.toggleAll ids).controllerAt id).strength →
      (x ∈ ((SteeringSubscriber.new.init.toggleAll ids).toggleController id).active_strengths_ ↔
        x ∈ (SteeringSubscriber.new.init.toggleAll ids).active_strengths_)) ∧
    (((SteeringSubscriber.new.init.toggleAll ids).controllerAt id).strength ∈
        ((SteeringSubscriber.new.init.toggleAll ids).toggleController id).active_strengths_ ↔
      ((SteeringSubscriber.new.init.toggleAll ids).controllerAt id).strength ∉
        (SteeringSubscriber.new.init.toggleAll ids).active_strengths_) := by
  rw [SteeringSubscriber.init_eq_withFlags]
  obtain ⟨b1, b2, b3, hb⟩ := SteeringSubscriber.toggleAll_withFlags ids hids true false false
  rw [hb]
  have hsorted := SteeringSubscriber.sorted_withFlags b1 b2 b3
  have hact := SteeringSubscriber.active_strengths_toggle (SteeringSubscriber.withFlags b1 b2 b3) id
  refine ⟨SteeringSubscriber.toggle_twice_withFlags b1 b2 b3 id hid, ?_,
    SteeringSubscriber.controllerAt_toggle _ id, ?_, ?_⟩
  · intro k hk
    unfold SteeringSubscriber.toggleController
    simp only
    split_ifs <;> exact StdMap.find?_assign_ne _ _ _ _ hk
  · intro x hx
    rw [hact]
    split_ifs
    · rw [StdSet.mem_insert]
      constructor
      · rintro (h | h)
        · exact absurd h hx
        · exact h
      · exact Or.inr
    · rw [StdSet.mem_erase _ _ _ hsorted]
      constructor
      · exact fun h => h.2
      · exact fun h => ⟨hx, h⟩
  · rcases hid with rfl | rfl | rfl <;>
      cases b1 <;> cases b2 <;> cases b3 <;> decide

/-- C30, concrete run: after `init()` and the toggles 2 and 3, toggling controller 1 twice gives
the same state back. -/
theorem toggle_is_involution_witness :
    ((SteeringSubscriber.new.init.toggleAll [2, 3]).toggleController 1).active_strengths_ =
      [20, 30] ∧
    ((SteeringSubscriber.new.init.toggleAll [2, 3]).toggleController 1).toggleController 1 =
      SteeringSubscriber.new.init.toggleAll [2, 3] :=
  ⟨by decide, (toggle_is_involution [2, 3] 1 (by decide) (by decide)).1⟩

/-! ## Ex3 reliability, publisher side: the sequence counter -/

namespace PublisherProcess

theorem step_seq (write_ok : TestData → Bool) (s : PublisherProcess) (e : PublisherEvent) :
    (step write_ok s e).publisher.sequence_number_ =
      match e with
      | .publish _ => (s.publisher.sequence_number_ + 1) % UINT32_MOD
      | _ => s.publisher.sequence_number_ := by
  cases e with
  | key_p => rfl
  | publish now => exact (step_publish_held write_ok s now).1
  | offer d =>
    simp only [step, ReliabilityPublisher.offer]
    cases hp : s.g_is_paused with
    | false => simp [ReliabilityPublisher.sendOrQueue_running]
    | true =>
      rw [ReliabilityPublisher.sendOrQueue_paused]
      split_ifs <;> rfl

theorem run_snoc (write_ok : TestData → Bool) (s : PublisherProcess)
    (es : List PublisherEvent) (e : PublisherEvent) :
    run write_ok s (es ++ [e]) = step write_ok (run write_ok s es) e := by
  rw [run_append]; rfl

/-- From process start the counter is the number of `publish()` calls made, modulo `2^32`. -/
theorem run_seq_start (write_ok : TestData → Bool) (es : List PublisherEvent) :
    (run write_ok start es).publisher.sequence_number_ = publishCalls es % UINT32_MOD := by
  induction es using List.reverseRecOn with
  | nil => rfl
  | append_singleton es e ih =>
    rw [run_snoc, step_seq, publishCalls_append]
    cases e with
    | key_p => simpa [publishCalls] using ih
    | offer d => simpa [publishCalls] using ih
    | publish now =>
      simp only [publishCalls]
      rw [ih, Nat.zero_add, Nat.mod_add_mod]

end PublisherProcess

/-- C28. One call of `publish`, whatever the flag: `sequence_number_` goes up by one modulo
`2^32`, the result is `true`, the generated sample carries the old `sequence_number_`, and it is
critical exactly when that number is divisible by 5. Hence, from process start and after any
events of which `k` are `publish()` calls, the counter is `k mod 2^32`, and so is the sequence
number of the sample the next call generates. -/
theorem publish_counts_calls (write_ok : TestData → Bool) (g_is_paused : Bool) (now : Int)
    (p : ReliabilityPublisher) (es : List PublisherEvent) :
    (p.publish write_ok g_is_paused now).1.sequence_number_ =
      (p.sequence_number_ + 1) % UINT32_MOD ∧
    (p.publish write_ok g_is_paused now).2 = true ∧
    (p.nextSample now).sequence_number = p.sequence_number_ ∧
    ((p.nextSample now).is_critical = true ↔ p.sequence_number_ % 5 = 0) ∧
    (PublisherProcess.run write_ok PublisherProcess.start es).publisher.sequence_number_ =
      PublisherProcess.publishCalls es % UINT32_MOD ∧
    ((PublisherProcess.run write_ok PublisherProcess.start es).publisher.nextSample
      now).sequence_number = PublisherProcess.publishCalls es % UINT32_MOD := by
  refine ⟨?_, rfl, rfl, ?_, PublisherProcess.run_seq_start write_ok es,
    PublisherProcess.run_seq_start write_ok es⟩
  · cases g_is_paused with
    | false =>
      simp [ReliabilityPublisher.publish, ReliabilityPublisher.sendOrQueue_running]
    | true =>
      simp only [ReliabilityPublisher.publish, ReliabilityPublisher.sendOrQueue_paused]
      split_ifs <;> rfl
  · simp [ReliabilityPublisher.nextSample]

/-! ## Ex3 reliability, publisher side: the best-effort writer -/

namespace PublisherProcess

theorem step_best_effort (write_ok : TestData → Bool) (s : PublisherProcess)
    (e : PublisherEvent) :
    (step write_ok s e).publisher.best_effort_writer_.written =
      s.publisher.best_effort_writer_.written ++
        (if s.g_is_paused then [] else (offered s e).toList) := by
  cases e with
  | key_p => cases s.g_is_paused <;> simp [step, offered]
  | publish now =>
    cases hp : s.g_is_paused with
    | false =>
      simp [step, offered, ReliabilityPublisher.publish,
        ReliabilityPublisher.sendOrQueue_running, hp]
    | true =>
      simp only [step, ReliabilityPublisher.publish, ReliabilityPublisher.sendOrQueue_paused, hp]
      split_ifs <;> simp
  | offer d =>
    cases hp : s.g_is_paused with
    | false =>
      simp [step, offered, ReliabilityPublisher.offer,
        ReliabilityPublisher.sendOrQueue_running, hp]
    | true =>
      simp only [step, ReliabilityPublisher.offer, ReliabilityPublisher.sendOrQueue_paused, hp]
      split_ifs <;> simp

theorem run_best_effort (write_ok : TestData → Bool) (es : List PublisherEvent) :
    ∀ s : PublisherProcess,
      (run write_ok s es).publisher.best_effort_writer_.written =
        s.publisher.best_effort_writer_.written ++ offeredWhileClear write_ok s es := by
  induction es with
  | nil => intro s; simp [run, offeredWhileClear]
  | cons e rest ih =>
    intro s
    have hrun : run write_ok s (e :: rest) = run write_ok (step write_ok s e) rest := rfl
    rw [hrun, ih, step_best_effort]
    simp [offeredWhileClear]

theorem offeredWhileClear_append (write_ok : TestData → Bool) (es fs : List PublisherEvent) :
    ∀ s : PublisherProcess,
      offeredWhileClear write_ok s (es ++ fs) =
        offeredWhileClear write_ok s es ++
          offeredWhileClear write_ok (run write_ok s es) fs := by
  induction es with
  | nil => intro s; simp [run, offeredWhileClear]
  | cons e rest ih =>
    intro s
    have hrun : run write_ok s (e :: rest) = run write_ok (step write_ok s e) rest := rfl
    show (if s.g_is_paused then [] else (offered s e).toList) ++
        offeredWhileClear write_ok (step write_ok s e) (rest ++ fs) =
      ((if s.g_is_paused then [] else (offered s e).toList) ++
        offeredWhileClear write_ok (step write_ok s e) rest) ++
          offeredWhileClear write_ok (run write_ok s (e :: rest)) fs
    rw [ih, hrun, List.append_assoc]

/-- In a run of `publish()` calls and pause toggles that does not wrap the counter, the samples
generated while the flag is clear carry sequence numbers used by these calls. -/
theorem offeredWhileClear_range (write_ok : TestData → Bool) (es : List PublisherEvent) :
    ∀ s : PublisherProcess, s.publisher.sequence_number_ < UINT32_MOD →
      (∀ e ∈ es, isOffer e = false) →
      s.publisher.sequence_number_ + publishCalls es ≤ UINT32_MOD →
      ∀ w ∈ offeredWhileClear write_ok s es,
        s.publisher.sequence_number_ ≤ w.sequence_number ∧
          w.sequence_number < s.publisher.sequence_number_ + publishCalls es := by
  induction es with
  | nil => intro s _ _ _ w hw; simp [offeredWhileClear] at hw
  | cons e rest ih =>
    intro s hs hno hle w hw
    have hno' : ∀ e' ∈ rest, isOffer e' = false :=
      fun e' he' => hno e' (List.mem_cons_of_mem _ he')
    simp only [offeredWhileClear, List.mem_append] at hw
    cases e with
    | offer d =>
      have := hno (.offer d) (List.mem_cons_self _ _)
      simp [isOffer] at this
    | key_p =>
      simp only [publishCalls] at hle ⊢
      rcases hw with hw | hw
      · split_ifs at hw <;> simp [offered] at hw
      · exact ih (step write_ok s .key_p) hs hno' hle w hw
    | publish now =>
      simp only [publishCalls] at hle ⊢
      rcases hw with hw | hw
      · split_ifs at hw
        · simp at hw
        · simp only [offered, Option.toList, List.mem_singleton] at hw
          rw [hw]
          exact ⟨le_rfl, by show s.publisher.sequence_number_ < _; omega⟩
      · have hseq := (step_publish_held write_ok s now).1
        by_cases hlt : s.publisher.sequence_number_ + 1 < UINT32_MOD
        · rw [Nat.mod_eq_of_lt hlt] at hseq
          have := ih (step write_ok s (.publish now)) (by rw [hseq]; exact hlt) hno'
            (by rw [hseq]; omega) w hw
          rw [hseq] at this
          omega
        · have heq : s.publisher.sequence_number_ + 1 = UINT32_MOD := by omega
          rw [heq, Nat.mod_self] at hseq
          have := ih (step write_ok s (.publish now))
            (by rw [hseq]; unfold UINT32_MOD; omega) hno' (by rw [hseq]; omega) w hw
          rw [hseq] at this
          omega

end PublisherProcess

/-- C26. After any events the best-effort writer's log is the old log followed by exactly the
samples offered while `g_is_paused` was clear, each once, in the order they were generated. A
`publish()` call made while the flag is set writes nothing to the best-effort writer, its
sample if critical goes to the back of the queue, and in a run of `publish()` calls and pause
toggles with at most `2^32` calls no sample on the best-effort writer at the end carries that
call's sequence number: the queued sample is replayed on the reliable writer only. -/
theorem best_effort_gets_clear_samples (write_ok : TestData → Bool)
    (es1 es2 : List PublisherEvent) (now : Int) (s : PublisherProcess) :
    ((PublisherProcess.run write_ok s es1).publisher.best_effort_writer_.written =
      s.publisher.best_effort_writer_.written ++
        PublisherProcess.offeredWhileClear write_ok s es1) ∧
    ((PublisherProcess.run write_ok PublisherProcess.start es1).g_is_paused = true →
      (PublisherProcess.run write_ok PublisherProcess.start
          (es1 ++ [.publish now])).publisher.best_effort_writer_ =
        (PublisherProcess.run write_ok PublisherProcess.start
          es1).publisher.best_effort_writer_ ∧
      (((PublisherProcess.run write_ok PublisherProcess.start es1).publisher.nextSample
          now).is_critical = true →
        (PublisherProcess.run write_ok PublisherProcess.start
            (es1 ++ [.publish now])).publisher.paused_reliable_messages =
          (PublisherProcess.run write_ok PublisherProcess.start
            es1).publisher.paused_reliable_messages ++
          [(PublisherProcess.run write_ok PublisherProcess.start es1).publisher.nextSample
            now]) ∧
      ((∀ e ∈ es1 ++ es2, PublisherProcess.isOffer e = false) →
        PublisherProcess.publishCalls es1 + 1 + PublisherProcess.publishCalls es2 ≤
          UINT32_MOD →
        ∀ w ∈ (PublisherProcess.run write_ok PublisherProcess.start
            (es1 ++ .publish now :: es2)).publisher.best_effort_writer_.written,
          w.sequence_number ≠
            ((PublisherProcess.run write_ok PublisherProcess.start
              es1).publisher.nextSample now).sequence_number)) := by
  refine ⟨PublisherProcess.run_best_effort write_ok es1 s, ?_⟩
  intro hp
  have hrun1 : PublisherProcess.run write_ok PublisherProcess.start (es1 ++ [.publish now]) =
      PublisherProcess.step write_ok
        (PublisherProcess.run write_ok PublisherProcess.start es1) (.publish now) :=
    PublisherProcess.run_snoc write_ok _ es1 _
  refine ⟨?_, ?_, ?_⟩
  · rw [hrun1]
    simp only [PublisherProcess.step, ReliabilityPublisher.publish,
      ReliabilityPublisher.sendOrQueue_paused, hp]
    split_ifs <;> rfl
  · intro hc
    rw [hrun1]
    simp [PublisherProcess.step, ReliabilityPublisher.publish,
      ReliabilityPublisher.sendOrQueue_paused, hp, hc]
  · intro hno hcount w hw
    have hseq1 := PublisherProcess.run_seq_start write_ok es1
    rw [Nat.mod_eq_of_lt (by omega)] at hseq1
    have hd : ((PublisherProcess.run write_ok PublisherProcess.start es1).publisher.nextSample
        now).sequence_number = PublisherProcess.publishCalls es1 := hseq1
    rw [hd]
    rw [PublisherProcess.run_best_effort, PublisherProcess.offeredWhileClear_append] at hw
    have hstart : PublisherProcess.start.publisher.sequence_number_ = 0 := rfl
    have hbest0 : PublisherProcess.start.publisher.best_effort_writer_.written = [] := rfl
    rw [hbest0, List.nil_append, List.mem_append] at hw
    rcases hw with hw | hw
    · have := PublisherProcess.offeredWhileClear_range write_ok es1 PublisherProcess.start
        (by rw [hstart]; unfold UINT32_MOD; omega)
        (fun e he => hno e (List.mem_append_left _ he)) (by rw [hstart]; omega) w hw
      rw [hstart] at this
      omega
    · simp only [PublisherProcess.offeredWhileClear, hp, if_true, List.nil_append] at hw
      have hseq' := (PublisherProcess.step_publish_held write_ok
        (PublisherProcess.run write_ok PublisherProcess.start es1) now).1
      rw [hseq1] at hseq'
      by_cases hlt : PublisherProcess.publishCalls es1 + 1 < UINT32_MOD
      · rw [Nat.mod_eq_of_lt hlt] at hseq'
        have := PublisherProcess.offeredWhileClear_range write_ok es2 _
          (by rw [hseq']; exact hlt) (fun e he => hno e (List.mem_append_right _ he))
          (by rw [hseq']; omega) w hw
        rw [hseq'] at this
        omega
      · have heq : PublisherProcess.publishCalls es1 + 1 = UINT32_MOD := by omega
        rw [heq, Nat.mod_self] at hseq'
        have := PublisherProcess.offeredWhileClear_range write_ok es2 _
          (by rw [hseq']; unfold UINT32_MOD; omega)
          (fun e he => hno e (List.mem_append_right _ he)) (by rw [hseq']; omega) w hw
        rw [hseq'] at this
        omega

/-- C26, concrete run: pause, `publish()` call 0 (critical, queued), resume, call 1. The
reliable writer receives samples 0 and 1, the best-effort writer only sample 1. -/
theorem best_effort_gets_clear_samples_witness :
    ((PublisherProcess.run (fun _ => true) PublisherProcess.start
        ([.key_p] ++ .publish 0 :: [.key_p, .publish 1])).publisher.reliable_writer_.written.map
      TestData.sequence_number) = [0, 1] ∧
    ((PublisherProcess.run (fun _ => true) PublisherProcess.start
        ([.key_p] ++ .publish 0 ::
          [.key_p, .publish 1])).publisher.best_effort_writer_.written.map
      TestData.sequence_number) = [1] ∧
    ¬ ∃ w, w ∈ (PublisherProcess.run (fun _ => true) PublisherProcess.start
        ([.key_p] ++ .publish 0 :: [.key_p, .publish 1])).publisher.best_effort_writer_.written ∧
      w.sequence_number = 0 :=
  ⟨by decide, by decide, fun ⟨w, hw, h0⟩ =>
    ((best_effort_gets_clear_samples (fun _ => true) [.key_p] [.key_p, .publish 1] 0
      PublisherProcess.start).2 (by decide)).2.2 (by decide) (by decide) w hw h0⟩

/-! ## Ex3 reliability, publisher side: critical samples -/

namespace PublisherProcess

/-- The sequence numbers on the reliable writer followed by those in the queue. -/
theorem run_critical_inv (write_ok : TestData → Bool) (es : List PublisherEvent) :
    (∀ e ∈ es, isOffer e = false) → publishCalls es ≤ UINT32_MOD →
    (((run write_ok start es).publisher.reliable_writer_.written ++
        (run write_ok start es).publisher.paused_reliable_messages).map
      TestData.sequence_number).Sorted (· < ·) ∧
    (∀ x ∈ ((run write_ok start es).publisher.reliable_writer_.written ++
        (run write_ok start es).publisher.paused_reliable_messages).map
      TestData.sequence_number, x < publishCalls es) ∧
    (∀ k, k < publishCalls es → k % 5 = 0 →
      k ∈ ((run write_ok start es).publisher.reliable_writer_.written ++
        (run write_ok start es).publisher.paused_reliable_messages).map
      TestData.sequence_number) := by
  induction es using List.reverseRecOn with
  | nil =>
    intro _ _
    simp [run, start, ReliabilityPublisher.new, publishCalls]
  | append_singleton es e ih =>
    intro hno hle
    rw [publishCalls_append] at hle ⊢
    have hno' : ∀ e' ∈ es, isOffer e' = false :=
      fun e' he' => hno e' (List.mem_append_left _ he')
    rw [run_snoc]
    cases e with
    | offer d =>
      have := hno (.offer d) (by simp)
      simp [isOffer] at this
    | key_p =>
      simp only [publishCalls, Nat.add_zero] at hle ⊢
      exact ih hno' hle
    | publish now =>
      simp only [publishCalls] at hle ⊢
      obtain ⟨hsorted, hlt, hmem⟩ := ih hno' (by omega)
      have hseq := run_seq_start write_ok es
      rw [Nat.mod_eq_of_lt (by omega)] at hseq
      have hdseq : ((run write_ok start es).publisher.nextSample now).sequence_number =
          publishCalls es := hseq
      have hdcrit : ((run write_ok start es).publisher.nextSample now).is_critical = true ↔
          publishCalls es % 5 = 0 := by
        simp [ReliabilityPublisher.nextSample, hseq]
      have hgrow : ∀ L : List Nat, L.Sorted (· < ·) → (∀ x ∈ L, x < publishCalls es) →
          (∀ k, k < publishCalls es → k % 5 = 0 → k ∈ L) →
          (L ++ [publishCalls es]).Sorted (· < ·) ∧
          (∀ x ∈ L ++ [publishCalls es], x < publishCalls es + (0 + 1)) ∧
          (∀ k, k < publishCalls es + (0 + 1) → k % 5 = 0 → k ∈ L ++ [publishCalls es]) := by
        intro L h1 h2 h3
        refine ⟨?_, ?_, ?_⟩
        · rw [List.Sorted, List.pairwise_append]
          refine ⟨h1, List.pairwise_singleton _ _, ?_⟩
          intro a ha b hb
          rw [List.mem_singleton.1 hb]
          exact h2 a ha
        · intro x hx
          rcases List.mem_append.1 hx with h | h
          · have := h2 x h; omega
          · rw [List.mem_singleton.1 h]; omega
        · intro k hk h5
          by_cases hkk : k = publishCalls es
          · rw [hkk]; simp
          · exact List.mem_append_left _ (h3 k (by omega) h5)
      cases hp : (run write_ok start es).g_is_paused with
      | false =>
        have hstep : ((step write_ok (run write_ok start es)
              (.publish now)).publisher.reliable_writer_.written ++
            (step write_ok (run write_ok start es)
              (.publish now)).publisher.paused_reliable_messages).map
            TestData.sequence_number =
            ((run write_ok start es).publisher.reliable_writer_.written ++
              (run write_ok start es).publisher.paused_reliable_messages).map
              TestData.sequence_number ++ [publishCalls es] := by
          simp [step, ReliabilityPublisher.publish, ReliabilityPublisher.sendOrQueue_running,
            hp, hdseq]
        rw [hstep]
        exact hgrow _ hsorted hlt hmem
      | true =>
        by_cases hc : ((run write_ok start es).publisher.nextSample now).is_critical = true
        · have hstep : ((step write_ok (run write_ok start es)
                (.publish now)).publisher.reliable_writer_.written ++
              (step write_ok (run write_ok start es)
                (.publish now)).publisher.paused_reliable_messages).map
              TestData.sequence_number =
              ((run write_ok start es).publisher.reliable_writer_.written ++
                (run write_ok start es).publisher.paused_reliable_messages).map
                TestData.sequence_number ++ [publishCalls es] := by
            simp [step, ReliabilityPublisher.publish, ReliabilityPublisher.sendOrQueue_paused,
              hp, hc, hdseq]
          rw [hstep]
          exact hgrow _ hsorted hlt hmem
        · have hstep : ((step write_ok (run write_ok start es)
                (.publish now)).publisher.reliable_writer_.written ++
              (step write_ok (run write_ok start es)
                (.publish now)).publisher.paused_reliable_messages).map
              TestData.sequence_number =
              ((run write_ok start es).publisher.reliable_writer_.written ++
                (run write_ok start es).publisher.paused_reliable_messages).map
                TestData.sequence_number := by
            simp [step, ReliabilityPublisher.publish, ReliabilityPublisher.sendOrQueue_paused,
              hp, hc]
          rw [hstep]
          refine ⟨hsorted, fun x hx => by have := hlt x hx; omega, ?_⟩
          intro k hk h5
          by_cases hkk : k = publishCalls es
          · exact absurd (hdcrit.2 (hkk ▸ h5)) hc
          · exact hmem k (by omega) h5

end PublisherProcess

/-- C27. In a run of `publish()` calls and pause toggles from process start with at most `2^32`
calls (so that no sequence number is used twice), after any number of events every sequence
number `k` divisible by 5 that a call has used occurs exactly once among the samples handed to
the reliable writer and not in the queue, or exactly once in the queue and not among the
samples handed to the reliable writer. This holds whatever the transport answers, so in
particular when every write succeeds and each handed sample is a written one. -/
theorem critical_exactly_once (write_ok : TestData → Bool) (es : List PublisherEvent) (k : Nat)
    (hno : ∀ e ∈ es, PublisherProcess.isOffer e = false)
    (hcount : PublisherProcess.publishCalls es ≤ UINT32_MOD)
    (hk : k < PublisherProcess.publishCalls es) (h5 : k % 5 = 0) :
    (((PublisherProcess.run write_ok PublisherProcess.start
          es).publisher.reliable_writer_.written.map TestData.sequence_number).count k = 1 ∧
      ((PublisherProcess.run write_ok PublisherProcess.start
          es).publisher.paused_reliable_messages.map TestData.sequence_number).count k = 0) ∨
    (((PublisherProcess.run write_ok PublisherProcess.start
          es).publisher.reliable_writer_.written.map TestData.sequence_number).count k = 0 ∧
      ((PublisherProcess.run write_ok PublisherProcess.start
          es).publisher.paused_reliable_messages.map TestData.sequence_number).count k = 1) := by
  obtain ⟨hsorted, _, hmem⟩ := PublisherProcess.run_critical_inv write_ok es hno hcount
  have hone := List.count_eq_one_of_mem hsorted.nodup (hmem k hk h5)
  rw [List.map_append, List.count_append] at hone
  omega

/-- C27, concrete run: pause, calls 0 to 5, resume, call 6. Sample 0 and sample 5 were queued
and are afterwards on the reliable writer once each, not in the queue. -/
theorem critical_exactly_once_witness :
    ((PublisherProcess.run (fun _ => true) PublisherProcess.start
        [.key_p, .publish 0, .publish 1, .publish 2, .publish 3, .publish 4, .publish 5,
         .key_p, .publish 6]).publisher.reliable_writer_.written.map
      TestData.sequence_number) = [0, 5, 6] ∧
    ((((PublisherProcess.run (fun _ => true) PublisherProcess.start
          [.key_p, .publish 0, .publish 1, .publish 2, .publish 3, .publish 4, .publish 5,
           .key_p, .publish 6]).publisher.reliable_writer_.written.map
        TestData.sequence_number).count 5 = 1 ∧
      ((PublisherProcess.run (fun _ => true) PublisherProcess.start
          [.key_p, .publish 0, .publish 1, .publish 2, .publish 3, .publish 4, .publish 5,
           .key_p, .publish 6]).publisher.paused_reliable_messages.map
        TestData.sequence_number).count 5 = 0) ∨
    (((PublisherProcess.run (fun _ => true) PublisherProcess.start
          [.key_p, .publish 0, .publish 1, .publish 2, .publish 3, .publish 4, .publish 5,
           .key_p, .publish 6]).publisher.reliable_writer_.written.map
        TestData.sequence_number).count 5 = 0 ∧
      ((PublisherProcess.run (fun _ => true) PublisherProcess.start
          [.key_p, .publish 0, .publish 1, .publish 2, .publish 3, .publish 4, .publish 5,
           .key_p, .publish 6]).publisher.paused_reliable_messages.map
        TestData.sequence_number).count 5 = 1)) :=
  ⟨by decide,
    critical_exactly_once (fun _ => true)
      [.key_p, .publish 0, .publish 1, .publish 2, .publish 3, .publish 4, .publish 5,
       .key_p, .publish 6] 5 (by decide) (by decide) (by decide) (by decide)⟩

/-! ## Ex3 reliability, subscriber side: `last_continuous_seq_` -/

namespace ReliabilityListener

theorem advanceContinuous_range (recv : List (Nat × Bool))
    (hk : ∀ k ∈ StdMap.keys recv, k < UINT32_MOD - 1) :
    ∀ (fuel lc r : Nat), lc < UINT32_MOD - 1 → advanceContinuous recv fuel lc = some r →
      lc ≤ r ∧ ∀ i, lc < i → i ≤ r → i ∈ StdMap.keys recv := by
  intro fuel
  induction fuel with
  | zero => intro lc r _ h; simp [advanceContinuous] at h
  | succ f ih =>
    intro lc r hlc h
    simp only [advanceContinuous] at h
    have hmod : (lc + 1) % UINT32_MOD = lc + 1 := Nat.mod_eq_of_lt (by omega)
    rw [hmod] at h
    split_ifs at h with hc
    · have hmem := (StdMap.contains_eq_true_iff _ _).1 hc
      obtain ⟨h1, h2⟩ := ih (lc + 1) r (hk _ hmem) h
      refine ⟨by omega, ?_⟩
      intro i hi hir
      by_cases hil : i = lc + 1
      · rw [hil]; exact hmem
      · exact h2 i (by omega) hir
    · simp only [Option.some.injEq] at h
      subst h
      exact ⟨le_rfl, fun i hi hir => by omega⟩

/-- One observation keeps `last_continuous_seq_` at the end of the run of received numbers that
starts at the first observed number `s`, and does not lower it. -/
theorem on_data_available_track (fuel : Nat) (l l' : ReliabilityListener) (s seq : Nat)
    (crit : Bool) (hc : Consistent l) (hs : s ≤ l.last_continuous_seq_)
    (hrun : ∀ i, s ≤ i → i ≤ l.last_continuous_seq_ → i ∈ StdMap.keys l.received_sequences_)
    (hseq : seq < UINT32_MOD) (h : on_data_available fuel l seq crit = some l') :
    Consistent l' ∧ s ≤ l'.last_continuous_seq_ ∧
      (∀ i, s ≤ i → i ≤ l'.last_continuous_seq_ → i ∈ StdMap.keys l'.received_sequences_) ∧
      l.last_continuous_seq_ ≤ l'.last_continuous_seq_ := by
  obtain ⟨hrecv, hc', hadv⟩ := on_data_available_spec fuel l l' seq crit hc.1
    (fun k hk => by have := hc.2.1 k hk; omega) hseq hc.2.2.1 h
  have hsub : ∀ k ∈ StdMap.keys l.received_sequences_,
      k ∈ StdMap.keys l'.received_sequences_ := by
    intro k hk
    rw [hrecv]; exact (StdMap.mem_keys_assign _ _ _ _).2 (Or.inr hk)
  have hsmem : s ∈ StdMap.keys l.received_sequences_ := hrun s le_rfl hs
  have hlcmem : l.last_continuous_seq_ ∈ StdMap.keys l.received_sequences_ :=
    hrun _ hs le_rfl
  by_cases hlen : l'.received_sequences_.length = 1
  · have h1 : l'.last_continuous_seq_ = s := hc'.2.2.2.2.1 hlen s (hsub s hsmem)
    have hlen0 : l.received_sequences_.length = 1 := by
      have hle := (StdMap.length_assign l.received_sequences_ seq crit).2.2
      rw [← hrecv, hlen] at hle
      have hpos : 0 < l.received_sequences_.length := by
        cases hl : l.received_sequences_ with
        | nil => rw [hl] at hsmem; simp [StdMap.keys] at hsmem
        | cons a t => simp
      omega
    have h0 : l.last_continuous_seq_ = s := hc.2.2.2.2.1 hlen0 s hsmem
    refine ⟨hc', by omega, ?_, by omega⟩
    intro i hi hil
    have : i = s := by omega
    rw [this]; exact hsub s hsmem
  · have hstart : continuousStart l seq crit = l.last_continuous_seq_ := by
      unfold continuousStart
      rw [← hrecv, if_neg hlen]
    rw [hstart] at hadv
    obtain ⟨hle, hin⟩ := advanceContinuous_range _
      (by rw [← hrecv]; exact hc'.2.1) fuel _ _ (hc.2.1 _ hlcmem) hadv
    refine ⟨hc', by omega, ?_, hle⟩
    intro i hi hil
    by_cases hi2 : i ≤ l.last_continuous_seq_
    · exact hsub i (hrun i hi hi2)
    · have := hin i (by omega) hil
      rw [hrecv]; exact this

theorem observeAll_track (fuel : Nat) (s : Nat) :
    ∀ (xs : List (Nat × Bool)) (l st : ReliabilityListener), Consistent l →
      s ≤ l.last_continuous_seq_ →
      (∀ i, s ≤ i → i ≤ l.last_continuous_seq_ → i ∈ StdMap.keys l.received_sequences_) →
      (∀ x ∈ xs, x.1 < UINT32_MOD) → observeAll fuel l xs = some st →
      Consistent st ∧ s ≤ st.last_continuous_seq_ ∧
        (∀ i, s ≤ i → i ≤ st.last_continuous_seq_ → i ∈ StdMap.keys st.received_sequences_) ∧
        l.last_continuous_seq_ ≤ st.last_continuous_seq_ := by
  intro xs
  induction xs with
  | nil =>
    intro l st hc hs hrun _ h
    simp only [observeAll, Option.some.injEq] at h
    subst h
    exact ⟨hc, hs, hrun, le_rfl⟩
  | cons x rest ih =>
    intro l st hc hs hrun hxs h
    obtain ⟨seq, crit⟩ := x
    simp only [observeAll] at h
    rcases hstep : on_data_available fuel l seq crit with _ | l1
    · rw [hstep] at h; simp at h
    rw [hstep] at h
    simp only at h
    obtain ⟨hc1, hs1, hrun1, hle1⟩ := on_data_available_track fuel l l1 s seq crit hc hs hrun
      (hxs (seq, crit) (List.mem_cons_self _ _)) hstep
    obtain ⟨hc2, hs2, hrun2, hle2⟩ := ih l1 st hc1 hs1 hrun1
      (fun y hy => hxs y (List.mem_cons_of_mem _ hy)) h
    exact ⟨hc2, hs2, hrun2, le_trans hle1 hle2⟩

end ReliabilityListener

/-- C22. Let `s` be the first sequence number delivered to a fresh listener, followed by any
further samples `rest`, all numbers below `2^32 - 1` and the fuel above them. After the first
observation `last_continuous_seq_` is `s`. After all of them it is the largest `n ≥ s` such
that every number from `s` to `n` is a key: it is at least `s`, every number from `s` up to it
is a key, its successor is not a key, and any `n` with that property is at most it. It is not
below its value after the first observation, and one more observation does not lower it. -/
theorem last_continuous_is_end_of_first_run (s : Nat) (c : Bool) (rest : List (Nat × Bool))
    (fuel : Nat) (hmax : ∀ x ∈ (s, c) :: rest, x.1 < UINT32_MOD - 1)
    (hfuel : ∀ x ∈ (s, c) :: rest, x.1 + 2 ≤ fuel) :
    ∃ st1 st,
      ReliabilityListener.observeAll fuel ReliabilityListener.new [(s, c)] = some st1 ∧
      st1.last_continuous_seq_ = s ∧
      ReliabilityListener.observeAll fuel ReliabilityListener.new ((s, c) :: rest) = some st ∧
      s ≤ st.last_continuous_seq_ ∧
      (∀ i, s ≤ i → i ≤ st.last_continuous_seq_ → i ∈ StdMap.keys st.received_sequences_) ∧
      st.last_continuous_seq_ + 1 ∉ StdMap.keys st.received_sequences_ ∧
      (∀ n, s ≤ n → (∀ i, s ≤ i → i ≤ n → i ∈ StdMap.keys st.received_sequences_) →
        n ≤ st.last_continuous_seq_) ∧
      st1.last_continuous_seq_ ≤ st.last_continuous_seq_ ∧
      (∀ (y : Nat) (cy : Bool) (st' : ReliabilityListener), y < UINT32_MOD →
        ReliabilityListener.on_data_available fuel st y cy = some st' →
        st.last_continuous_seq_ ≤ st'.last_continuous_seq_) := by
  have hnew := ReliabilityListener.wellTyped_new
  have hs := hmax (s, c) (List.mem_cons_self _ _)
  have hsf := hfuel (s, c) (List.mem_cons_self _ _)
  obtain ⟨st1, hst1⟩ := ReliabilityListener.on_data_available_total fuel
    ReliabilityListener.new s c hnew.1 (by simp [ReliabilityListener.new, StdMap.keys]) hs hsf
  obtain ⟨hrecv1, hc1, _⟩ := ReliabilityListener.on_data_available_spec fuel
    ReliabilityListener.new st1 s c hnew.1 hnew.2.1 (by omega) hnew.2.2 hst1
  have hrecv1' : st1.received_sequences_ = [(s, c)] := by
    rw [hrecv1]; rfl
  have hkeys1 : StdMap.keys st1.received_sequences_ = [s] := by rw [hrecv1']; rfl
  have hlc1 : st1.last_continuous_seq_ = s :=
    hc1.2.2.2.2.1 (by rw [hrecv1']; rfl) s (by rw [hkeys1]; simp)
  have hrun1 : ReliabilityListener.observeAll fuel ReliabilityListener.new [(s, c)] =
      some st1 := by
    simp only [ReliabilityListener.observeAll, hst1]
  obtain ⟨st, hst⟩ := ReliabilityListener.observeAll_total fuel ((s, c) :: rest)
    ReliabilityListener.new hnew (by simp [ReliabilityListener.new, StdMap.keys])
    (fun x hx => ⟨hmax x hx, hfuel x hx⟩)
  have hrest : ReliabilityListener.observeAll fuel st1 rest = some st := by
    simp only [ReliabilityListener.observeAll, hst1] at hst
    exact hst
  obtain ⟨hc, hle, hin, hmono⟩ := ReliabilityListener.observeAll_track fuel s rest st1 st hc1
    (by omega) (fun i h1 h2 => by
      have : i = s := by omega
      rw [this, hkeys1]; simp)
    (fun x hx => by have := hmax x (List.mem_cons_of_mem _ hx); omega) hrest
  have hlcmem := hin _ hle le_rfl
  have hlclt := hc.2.1 _ hlcmem
  have hnext : st.last_continuous_seq_ + 1 ∉ StdMap.keys st.received_sequences_ := by
    have := hc.2.2.2.1
    rw [Nat.mod_eq_of_lt (by omega)] at this
    exact (StdMap.contains_eq_false_iff _ _).1 this
  refine ⟨st1, st, hrun1, hlc1, hst, hle, hin, hnext, ?_, hmono, ?_⟩
  · intro n hn hall
    by_contra hcon
    exact hnext (hall _ (by omega) (by omega))
  · intro y cy st' hy hstep
    exact (ReliabilityListener.on_data_available_track fuel st st' s y cy hc hle hin hy hstep).2.2.2

/-- C22, concrete run: 5, 7, 6, 3 delivered in this order. After the first observation the mark
is 5; after all four it is 7, the end of the run 5, 6, 7; the earlier number 3 does not move
it. -/
theorem last_continuous_is_end_of_first_run_witness :
    ReliabilityListener.observeAll 10 ReliabilityListener.new
        [(5, true), (7, false), (6, false), (3, false)] =
      some { received_sequences_ := [(3, false), (5, true), (6, false), (7, false)],
             missing_sequences_ := [4], last_continuous_seq_ := 7 } ∧
    ∃ st1 st,
      ReliabilityListener.observeAll 10 ReliabilityListener.new [(5, true)] = some st1 ∧
      st1.last_continuous_seq_ = 5 ∧
      ReliabilityListener.observeAll 10 ReliabilityListener.new
        ((5, true) :: [(7, false), (6, false), (3, false)]) = some st ∧
      5 ≤ st.last_continuous_seq_ ∧
      st.last_continuous_seq_ + 1 ∉ StdMap.keys st.received_sequences_ := by
  refine ⟨by decide, ?_⟩
  obtain ⟨st1, st, h1, h2, h3, h4, _, h6, _⟩ :=
    last_continuous_is_end_of_first_run 5 true [(7, false), (6, false), (3, false)] 10
      (by decide) (by decide)
  exact ⟨st1, st, h1, h2, h3, h4, h6⟩

end DDSPractice
